import Mathlib

/-
Verification of the CASC (Colored Abstract Simplicial Complex) library core.

This file contains a shallow embedding, in Lean 4, of the parts of the
library exercised by the claims under study:

* `index_tracker.h` : the B-tree of free-key intervals (`Iv`, `BT`,
  `insert_scalar`, `remove_scalar`, `pop_scalar`, `rebalance`, ...).
* `SimplicialComplex.h` : the Hasse-diagram store (`Cplx`, `insert_full`,
  `insert_raw`, `backfill`, `remove_recurse`, `remove_node`, `get_recurse`).
* `Orientable.h` : `init_orientation`, `clear_orientation`,
  `check_orientation`, `compute_orientation`.
* `CASCTraversals.h` : `neighbors_up`, `kneighbors`, `kneighbors_up`,
  and the BFS visitors used by `decimate.h`.
* `decimate.h` : the metadata-aware decimation kernel.

Modelling conventions:

* `KeyType = int` is modelled as `Int` (with `INT_MAX = 2147483647` for the
  allocator's initial interval).
* C++ nodes are identified by their allocation order (`node_count`), standing
  in for pointer identity; the per-dimension `std::map<std::size_t, Node*>`
  tables become association lists sorted by node id.  `std::set` of node
  pointers is modelled as a sorted list of node ids (iteration in allocation
  order stands in for the address order of `std::set<Node*>`; every result
  proved below is insensitive to the iteration order of these sets).
* The sorted containers `asc_arraymap` (boundary maps) and `asc_vectormap`
  (coboundary maps) become association lists sorted by key.
* Dereferencing a null pointer (for example `remove` on a missing name) and
  the out-of-bounds `parent->_up[value]` access in `backfill` are modelled by
  `Option`: `none` marks an execution that has undefined behaviour in C++.
* Mutation is modelled by explicit state passing.
-/

set_option maxRecDepth 10000

namespace Casc

/-! ## Association lists sorted by key (asc_arraymap / asc_vectormap / std::map) -/

/-- Lookup in an association list (`find` / `at` of the C++ sorted maps). -/
def alookup [DecidableEq κ] (k : κ) : List (κ × α) → Option α
  | [] => none
  | (k', v) :: t => if k' = k then some v else alookup k t

/-- Sorted insert-or-overwrite (`operator[]` followed by assignment in the
C++ sorted maps; keeps keys strictly ascending). -/
def ainsert [LinearOrder κ] (k : κ) (v : α) : List (κ × α) → List (κ × α)
  | [] => [(k, v)]
  | (k', v') :: t =>
    if k < k' then (k, v) :: (k', v') :: t
    else if k = k' then (k, v) :: t
    else (k', v') :: ainsert k v t

/-- Erase a key (`erase` of the C++ sorted maps; no-op when absent). -/
def aerase [DecidableEq κ] (k : κ) : List (κ × α) → List (κ × α)
  | [] => []
  | (k', v') :: t => if k' = k then t else (k', v') :: aerase k t

/-- Keys of an association list, in storage (ascending) order. -/
def akeys (l : List (κ × α)) : List κ := l.map (·.1)

/-- Sorted set of node ids, standing in for `std::set` of node pointers. -/
def sinsert (x : Nat) : List Nat → List Nat
  | [] => [x]
  | y :: t =>
    if x < y then x :: y :: t
    else if x = y then y :: t
    else y :: sinsert x t

/-- Set membership for the sorted id sets. -/
def smem (x : Nat) (l : List Nat) : Bool := l.contains x

/-- Erase from a sorted id set (`std::set::erase`). -/
def serase (x : Nat) : List Nat → List Nat
  | [] => []
  | y :: t => if y = x then t else y :: serase x t

/-- Strictly ascending chain check (sortedness of keys). -/
def chainLt [LinearOrder κ] : List κ → Bool
  | [] => true
  | [_] => true
  | x :: y :: r => decide (x < y) && chainLt (y :: r)

/-- Insert a list element at position `n` (array shifting in the C++ code). -/
def linsert (a : α) : Nat → List α → List α
  | _, [] => [a]
  | 0, l => a :: l
  | n + 1, x :: l => x :: linsert a n l

/-- Remove the list element at position `n` (array shifting in the C++ code). -/
def lerase : Nat → List α → List α
  | _, [] => []
  | 0, _ :: l => l
  | n + 1, x :: l => x :: lerase n l

/-! ## index_tracker.h : intervals and the B-tree of free keys -/

/-- Half-open interval `[a, b)` of free keys (`index_tracker_detail::Interval`). -/
structure Iv where
  a : Int
  b : Int
deriving Repr, DecidableEq

/-- B-tree node (`index_tracker_detail::BTreeNode`): `leaf` when `next[0]`
is null, otherwise `node` with children.  The `k` counter of the C++ node is
the length of the `data` list. -/
inductive BT where
  | leaf (data : List Iv)
  | node (data : List Iv) (next : List BT)
deriving Repr

mutual

def btDecEq : (x y : BT) → Decidable (x = y)
  | .leaf d, .leaf d' =>
    match decEq d d' with
    | isTrue h => isTrue (by rw [h])
    | isFalse h => isFalse (by simp [h])
  | .leaf _, .node _ _ => isFalse (by simp)
  | .node _ _, .leaf _ => isFalse (by simp)
  | .node d c, .node d' c' =>
    match decEq d d', btDecEqL c c' with
    | isTrue h1, isTrue h2 => isTrue (by rw [h1, h2])
    | isFalse h1, _ => isFalse (by simp [h1])
    | _, isFalse h2 => isFalse (by simp [h2])

def btDecEqL : (x y : List BT) → Decidable (x = y)
  | [], [] => isTrue rfl
  | [], _ :: _ => isFalse (by simp)
  | _ :: _, [] => isFalse (by simp)
  | x :: xs, y :: ys =>
    match btDecEq x y, btDecEqL xs ys with
    | isTrue h1, isTrue h2 => isTrue (by rw [h1, h2])
    | isFalse h1, _ => isFalse (by simp [h1])
    | _, isFalse h2 => isFalse (by simp [h2])

end

instance : DecidableEq BT := btDecEq

/-- Bin parameter `d` of `index_tracker<KeyType>` (default `_d = 16`). -/
def btd : Nat := 16

/-- Node capacity `N = 2 d + 1 = 33`. -/
def btN : Nat := 33

/-- `std::numeric_limits<int>::max()`. -/
def intMax : Int := 2147483647

/-- Data entries of a B-tree node. -/
def BT.data : BT → List Iv
  | .leaf d => d
  | .node d _ => d

/-- The `k` counter of a B-tree node. -/
def BT.kcount : BT → Nat
  | .leaf d => d.length
  | .node d _ => d.length

/-- Children of a B-tree node (empty for leaves). -/
def BT.kids : BT → List BT
  | .leaf _ => []
  | .node _ c => c

/-- Whether `next[0] == nullptr` in the C++ node. -/
def BT.isLeaf : BT → Bool
  | .leaf _ => true
  | .node _ _ => false

/-- Rebuild a node with given data/children and leafness. -/
def BT.mkN (lf : Bool) (d : List Iv) (c : List BT) : BT :=
  if lf then .leaf d else .node d c

/-- The first interval stored in the ROOT node (`head->data[0]`). -/
def BT.rootFirst : BT → Iv
  | .leaf d => d.headD ⟨0, 0⟩
  | .node d _ => d.headD ⟨0, 0⟩

/-- `index_tracker_detail::rebalance(head, i)`: split an overfull child,
borrow from a sibling or merge when the child underflows.  `head` must be an
internal node (as at every C++ call site); a leaf is returned unchanged. -/
def rebalance (head : BT) (i : Nat) : BT :=
  match head with
  | .leaf d => .leaf d
  | .node d c =>
    let curr := c.getD i (.leaf [])
    if curr.kcount = btN then
      -- split: left keeps data[0..d-1] (children next[0..d]), the median
      -- data[d] moves up, right takes data[d+1..] (children next[d+1..]).
      let left := BT.mkN curr.isLeaf (curr.data.take btd) (curr.kids.take (btd + 1))
      let right := BT.mkN curr.isLeaf (curr.data.drop (btd + 1)) (curr.kids.drop (btd + 1))
      let up := curr.data.getD btd ⟨0, 0⟩
      .node (linsert up i d) (linsert right (i + 1) (c.set i left))
    else if curr.kcount < btd then
      if 0 < i ∧ btd < (c.getD (i - 1) (.leaf [])).kcount then
        -- rotate right: prepend the separator to curr, move the left
        -- sibling's last entry (and last child) across.
        let lft := c.getD (i - 1) (.leaf [])
        let right' := BT.mkN curr.isLeaf (d.getD (i - 1) ⟨0, 0⟩ :: curr.data)
          (if lft.isLeaf then curr.kids else lft.kids.getLastD (.leaf []) :: curr.kids)
        let left' := BT.mkN lft.isLeaf lft.data.dropLast
          (if lft.isLeaf then lft.kids else lft.kids.dropLast)
        .node (d.set (i - 1) (lft.data.getLastD ⟨0, 0⟩)) ((c.set (i - 1) left').set i right')
      else if i < d.length ∧ btd < (c.getD (i + 1) (.leaf [])).kcount then
        -- rotate left: append the separator to curr, move the right
        -- sibling's first entry (and first child) across.
        let rgt := c.getD (i + 1) (.leaf [])
        let left' := BT.mkN curr.isLeaf (curr.data ++ [d.getD i ⟨0, 0⟩])
          (if curr.isLeaf then curr.kids else curr.kids ++ [rgt.kids.headD (.leaf [])])
        let right' := BT.mkN rgt.isLeaf rgt.data.tail
          (if rgt.isLeaf then rgt.kids else rgt.kids.tail)
        .node (d.set i (rgt.data.headD ⟨0, 0⟩)) ((c.set i left').set (i + 1) right')
      else if i < d.length then
        -- merge curr with its right sibling around separator data[i].
        let rgt := c.getD (i + 1) (.leaf [])
        let merged := BT.mkN curr.isLeaf (curr.data ++ [d.getD i ⟨0, 0⟩] ++ rgt.data)
          (if curr.isLeaf then [] else curr.kids ++ rgt.kids)
        .node (lerase i d) (lerase (i + 1) (c.set i merged))
      else
        -- i == head->k: merge the last two children around data[i-1].
        let lft := c.getD (i - 1) (.leaf [])
        let merged := BT.mkN lft.isLeaf (lft.data ++ [d.getD (i - 1) ⟨0, 0⟩] ++ curr.data)
          (if lft.isLeaf then [] else lft.kids ++ curr.kids)
        .node (lerase (i - 1) d) (lerase i (c.set (i - 1) merged))
    else .node d c

mutual

/-- `index_tracker_detail::get_replacement`: remove and return the rightmost
interval of the subtree, rebalancing on the way out. -/
def get_replacement : BT → BT × Iv
  | .leaf d => (.leaf d.dropLast, d.getLastD ⟨0, 0⟩)
  | .node d c =>
    let (c', iv) := get_replacement_last c
    (rebalance (.node d c') d.length, iv)

def get_replacement_last : List BT → List BT × Iv
  | [] => ([], ⟨0, 0⟩)
  | [t] => let (t', iv) := get_replacement t; ([t'], iv)
  | t :: r => let (r', iv) := get_replacement_last r; (t :: r', iv)

end

mutual

/-- `index_tracker_detail::insert_left`: append an interval at the end of the
rightmost leaf of the subtree (used when an interval is split in an internal
node). -/
def insert_left : BT → Iv → BT
  | .leaf d, x => .leaf (d ++ [x])
  | .node d c, x => rebalance (.node d (insert_left_last c x)) d.length

def insert_left_last : List BT → Iv → List BT
  | [], _ => []
  | [t], x => [insert_left t x]
  | t :: r, x => t :: insert_left_last r x

end

mutual

/-- `index_tracker_detail::fill_left`: try to merge the interval `x` with the
rightmost interval of the subtree to its left. -/
def fill_left : BT → Iv → BT × Iv
  | .leaf d, x =>
    match d.getLast? with
    | some lft => if lft.b = x.a then (.leaf d.dropLast, ⟨lft.a, x.b⟩) else (.leaf d, x)
    | none => (.leaf d, x)
  | .node d c, x =>
    let (c', x') := fill_left_last c x
    (rebalance (.node d c') d.length, x')

def fill_left_last : List BT → Iv → List BT × Iv
  | [], x => ([], x)
  | [t], x => let (t', x') := fill_left t x; ([t'], x')
  | t :: r, x => let (r', x') := fill_left_last r x; (t :: r', x')

end

mutual

/-- `index_tracker_detail::fill_right`: try to merge the interval `x` with the
leftmost interval of the subtree to its right. -/
def fill_right : BT → Iv → BT × Iv
  | .leaf d, x =>
    match d with
    | rgt :: rest => if rgt.a = x.b then (.leaf rest, ⟨x.a, rgt.b⟩) else (.leaf (rgt :: rest), x)
    | [] => (.leaf [], x)
  | .node d c, x =>
    let (c', x') := fill_right_first c x
    (rebalance (.node d c') 0, x')

def fill_right_first : List BT → Iv → List BT × Iv
  | [], x => ([], x)
  | t :: r, x => let (t', x') := fill_right t x; (t' :: r, x')

end

/-- Apply an interval-threading function to the child at index `i`. -/
def applyAtIv (f : BT → Iv → BT × Iv) : List BT → Nat → Iv → List BT × Iv
  | [], _, x => ([], x)
  | t :: r, 0, x => let (t', x') := f t x; (t' :: r, x')
  | t :: r, i + 1, x => let (r', x') := applyAtIv f r i x; (t :: r', x')

/-- Apply a tree transformer to the child at index `i`. -/
def applyAtBT (f : BT → BT) : List BT → Nat → List BT
  | [], _ => []
  | t :: r, 0 => f t :: r
  | t :: r, i + 1 => t :: applyAtBT f r i

/-- Replace the child at `i` by `get_replacement` of it, returning the
extracted interval. -/
def applyAtRepl : List BT → Nat → List BT × Iv
  | [], _ => ([], ⟨0, 0⟩)
  | t :: r, 0 => let (t', iv) := get_replacement t; (t' :: r, iv)
  | t :: r, i + 1 => let (r', iv) := applyAtRepl r i; (t :: r', iv)

/-- Leaf-level scan of `insert_scalar_H` (the `head->next[0] == nullptr`
branch): insert the key `x` into the sorted interval list, merging with
neighbours. -/
def leaf_insert_scan (x : Int) : List Iv → List Iv
  | [] => [⟨x, x + 1⟩]
  | A :: rest =>
    if x + 1 < A.a then ⟨x, x + 1⟩ :: A :: rest
    else if x + 1 = A.a then ⟨x, A.b⟩ :: rest
    else if A.a ≤ x ∧ x < A.b then A :: rest
    else if A.b = x then
      match rest with
      | B :: rest2 => if x + 1 = B.a then ⟨A.a, B.b⟩ :: rest2 else ⟨A.a, x + 1⟩ :: B :: rest2
      | [] => [⟨A.a, x + 1⟩]
    else A :: leaf_insert_scan x rest

/-- Action decided by the internal-node scan of `insert_scalar_H`. -/
inductive InsAct where
  | descend (i : Nat)
  | setLower (i : Nat) (x : Iv)
  | inRange
  | setUpper (i : Nat) (x : Iv)

/-- Internal-node scan of `insert_scalar_H`: find the position of `x`
relative to the separator intervals. -/
def insert_scan (x : Int) : List Iv → Nat → InsAct
  | [], i => .descend i
  | A :: rest, i =>
    if x + 1 < A.a then .descend i
    else if x + 1 = A.a then .setLower i ⟨x, A.b⟩
    else if A.a ≤ x ∧ x < A.b then .inRange
    else if A.b = x then .setUpper i ⟨A.a, x + 1⟩
    else insert_scan x rest (i + 1)

mutual

/-- `index_tracker_detail::insert_scalar_H`: return the key `x` to the free
set, merging intervals across the tree. -/
def insert_scalar_H : BT → Int → BT
  | .leaf d, x => .leaf (leaf_insert_scan x d)
  | .node d c, x =>
    match insert_scan x d 0 with
    | .descend i => rebalance (.node d (insert_scalar_H_at c i x)) i
    | .setLower i A' =>
      let (c', A'') := applyAtIv fill_left c i A'
      rebalance (.node (d.set i A'') c') i
    | .inRange => .node d c
    | .setUpper i A' =>
      let (c', A'') := applyAtIv fill_right c (i + 1) A'
      rebalance (.node (d.set i A'') c') (i + 1)

def insert_scalar_H_at : List BT → Nat → Int → List BT
  | [], _, _ => []
  | t :: r, 0, x => insert_scalar_H t x :: r
  | t :: r, i + 1, x => t :: insert_scalar_H_at r i x

end

/-- Action decided by the scan of `remove_scalar_H`. -/
inductive RemAct where
  | miss (i : Nat)
  | whole (i : Nat)
  | chopLower (i : Nat) (x : Iv)
  | split (i : Nat) (bLeft bRight : Iv)
  | chopUpper (i : Nat) (x : Iv)

/-- Scan of `remove_scalar_H`: locate `x` among the intervals. -/
def remove_scan (x : Int) : List Iv → Nat → RemAct
  | [], i => .miss i
  | A :: rest, i =>
    if x < A.a then .miss i
    else if x = A.a then
      if x + 1 = A.b then .whole i else .chopLower i ⟨x + 1, A.b⟩
    else if x + 1 < A.b then .split i ⟨A.a, x⟩ ⟨x + 1, A.b⟩
    else if x + 1 = A.b then .chopUpper i ⟨A.a, x⟩
    else remove_scan x rest (i + 1)

mutual

/-- `index_tracker_detail::remove_scalar_H`: remove the key `x` from the free
set, shrinking or splitting the interval containing it. -/
def remove_scalar_H : BT → Int → BT × Bool
  | .leaf d, x =>
    match remove_scan x d 0 with
    | .miss _ => (.leaf d, false)
    | .whole i => (.leaf (lerase i d), true)
    | .chopLower i A' => (.leaf (d.set i A'), true)
    | .split i bLeft bRight => (.leaf (linsert bLeft i (d.set i bRight)), true)
    | .chopUpper i A' => (.leaf (d.set i A'), true)
  | .node d c, x =>
    match remove_scan x d 0 with
    | .miss i =>
      let (c', r) := remove_scalar_H_at c i x
      (rebalance (.node d c') i, r)
    | .whole i =>
      let (c', repl) := applyAtRepl c i
      (rebalance (.node (d.set i repl) c') i, true)
    | .chopLower i A' => (.node (d.set i A') c, true)
    | .split i bLeft bRight =>
      let c' := applyAtBT (fun t => insert_left t bLeft) c i
      (rebalance (.node (d.set i bRight) c') i, true)
    | .chopUpper i A' => (.node (d.set i A') c, true)

def remove_scalar_H_at : List BT → Nat → Int → List BT × Bool
  | [], _, _ => ([], false)
  | t :: r, 0, x => let (t', b) := remove_scalar_H t x; (t' :: r, b)
  | t :: r, i + 1, x => let (r', b) := remove_scalar_H_at r i x; (t :: r', b)

end

/-- Wrap an overfull root in a fresh parent and split it (the
`head->k == Node::N` branches of `insert_scalar` / `remove_scalar`). -/
def new_root_split (t : BT) : BT := rebalance (.node [] [t]) 0

/-- `index_tracker_detail::insert_scalar`: top-level scalar insert, handling
the null head, root splits and root collapses. -/
def insert_scalar : Option BT → Int → Option BT
  | none, x => some (.leaf [⟨x, x + 1⟩])
  | some t, x =>
    let t' := insert_scalar_H t x
    if t'.kcount = btN then some (new_root_split t')
    else if t'.kcount = 0 then
      match t' with
      | .leaf _ => none
      | .node _ c => c.head?
    else some t'

/-- `index_tracker_detail::remove_scalar`: top-level scalar remove. -/
def remove_scalar : Option BT → Int → Option BT × Bool
  | none, _ => (none, false)
  | some t, x =>
    let (t', r) := remove_scalar_H t x
    if t'.kcount = btN then (some (new_root_split t'), r)
    else if t'.kcount = 0 then
      (match t' with
       | .leaf _ => none
       | .node _ c => c.head?, r)
    else (some t', r)

/-- Outcome of `pop_scalar`: either a key returned through the normal result
channel, or process termination (`exit(-1)`). -/
inductive PopOut where
  | ok (x : Int) (head : Option BT)
  | exited (code : Int)
deriving DecidableEq

/-- `index_tracker_detail::pop_scalar`: read `head->data[0].lower()` — the
lower bound of the first interval of the ROOT node — remove that key and
return it; when `head` is null, call `exit(-1)`. -/
def pop_scalar : Option BT → PopOut
  | some t => .ok t.rootFirst.a (remove_scalar (some t) t.rootFirst.a).1
  | none => .exited (-1)

/-- Interleave child flattenings with separator intervals. -/
def btInterleave : List (List Iv) → List Iv → List Iv
  | [], ds => ds
  | [cs], [] => cs
  | cs :: rest, A :: ds => cs ++ A :: btInterleave rest ds
  | cs :: _, [] => cs

mutual

/-- All intervals of the tree in symmetric (sorted) order. -/
def btIvs : BT → List Iv
  | .leaf d => d
  | .node d c => btInterleave (btIvsL c) d

def btIvsL : List BT → List (List Iv)
  | [] => []
  | t :: r => btIvs t :: btIvsL r

end

/-- The intervals held by an allocator head pointer. -/
def allocIvs : Option BT → List Iv
  | none => []
  | some t => btIvs t

/-- Whether the key `x` is free in the allocator (spec-side observation). -/
def allocMem (h : Option BT) (x : Int) : Bool :=
  (allocIvs h).any (fun A => decide (A.a ≤ x) && decide (x < A.b))

/-- Fresh allocator of `index_tracker()`: the single interval `[0, INT_MAX)`. -/
def allocInit : Option BT := some (.leaf [⟨0, intMax⟩])

/-! ## SimplicialComplex.h : nodes and the dimension-indexed store

A C++ `asc_Node<KeyType, k, ...>` holds the id `_node`, the boundary map
`_down` (sorted `asc_arraymap`, absent for `k = 0`), the coboundary map `_up`
(sorted `asc_vectormap`, absent for `k = topLevel`), the node data and the
edge data `_edge_data`.  The node data and edge data slots are instantiated
below for the `Orientable` traits used by the orientation claims (an `Int`
orientation on facets, an `Int` orientation on every edge, stored on the
upper node of the edge as in `EdgeID::data`); for the other claims these
fields are inert defaults. -/

/-- One Hasse-diagram node. -/
structure CNode where
  down : List (Int × Nat)
  up : List (Int × Nat)
  orient : Int
  edgeOrient : List (Int × Int)
deriving Repr, DecidableEq

/-- A freshly constructed node (`create_node`). -/
def CNode.empty : CNode := ⟨[], [], 0, []⟩

/-- The whole complex: top dimension, the `node_count` counter, the
per-dimension tables `std::map<std::size_t, NodePtr<k>>` keyed by node id,
and the `unused_vertices` index tracker. -/
structure Cplx where
  topLevel : Nat
  nodeCount : Nat
  levels : List (List (Nat × CNode))
  unused : Option BT
deriving Repr, DecidableEq

/-- `simplicial_complex()` constructor: create the root node (id 0) and the
full free-key tracker. -/
def newCplx (D : Nat) : Cplx :=
  { topLevel := D
    nodeCount := 1
    levels := (List.range (D + 1)).map (fun k => if k = 0 then [(0, CNode.empty)] else [])
    unused := allocInit }

/-- The dimension-`lv` node table. -/
def Cplx.tbl (C : Cplx) (lv : Nat) : List (Nat × CNode) := C.levels.getD lv []

/-- Dereference a node id at a dimension (a C++ `Node<k>*` read; ids stored
in the tables are always live in the states that arise). -/
def Cplx.getN (C : Cplx) (lv id : Nat) : CNode := (alookup id (C.tbl lv)).getD CNode.empty

/-- Replace the dimension-`lv` table. -/
def Cplx.setTbl (C : Cplx) (lv : Nat) (t : List (Nat × CNode)) : Cplx :=
  { C with levels := C.levels.set lv t }

/-- Mutate the node `id` at dimension `lv` in place. -/
def Cplx.updN (C : Cplx) (lv id : Nat) (f : CNode → CNode) : Cplx :=
  match alookup id (C.tbl lv) with
  | some nd => C.setTbl lv (ainsert id (f nd) (C.tbl lv))
  | none => C

/-- `create_node<level>`: allocate a node with id `node_count`, insert it
into the level table and bump the counter. -/
def create_node (C : Cplx) (lv : Nat) : Cplx × Nat :=
  let id := C.nodeCount
  ({ C with
      nodeCount := id + 1
      levels := C.levels.set lv (ainsert id CNode.empty (C.tbl lv)) }, id)

/-- Loop body of `backfill`: for every boundary entry `(w, parent)` of the
old root, the sibling is `parent->_up[value]`; link `nn._down[w]` to it and
its `_up[w]` back to `nn`.  When `parent->_up` has no `value` entry the C++
`asc_vectormap::operator[]` default-inserts a null pointer which is then
dereferenced; that undefined execution is modelled by `none`. -/
def backfill_go (C : Cplx) (lv nnId : Nat) (v : Int) : List (Int × Nat) → Option Cplx
  | [] => some C
  | (w, parentId) :: rest =>
    match alookup v (C.getN (lv - 1) parentId).up with
    | none => none
    | some childId =>
      let C1 := C.updN (lv + 1) nnId (fun n => { n with down := ainsert w childId n.down })
      let C2 := C1.updN lv childId (fun n => { n with up := ainsert w nnId n.up })
      backfill_go C2 lv nnId v rest

/-- `simplicial_complex::backfill` (the `Node<0>` overload is a no-op). -/
def backfill (C : Cplx) (lv rootId nnId : Nat) (v : Int) : Option Cplx :=
  if lv = 0 then some C
  else backfill_go C lv nnId v (C.getN lv rootId).down

/-- Body of `insert_raw<level, n>::apply` for one key `v`: fetch or create
the coboundary node of `root` along `v`, backfilling a newly created node. -/
def insert_raw_step (C : Cplx) (lv rootId : Nat) (v : Int) : Option (Cplx × Nat) :=
  match alookup v (C.getN lv rootId).up with
  | some nn => some (C, nn)
  | none =>
    let (C1, nn) := create_node C (lv + 1)
    let C2 := C1.updN (lv + 1) nn (fun n => { n with down := ainsert v rootId n.down })
    let C3 := C2.updN lv rootId (fun n => { n with up := ainsert v nn n.up })
    match backfill C3 lv rootId nn v with
    | none => none
    | some C4 => some (C4, nn)

/-- `insert_full<level, n>::apply` unfolded through `insert_for`: iterate
`j = 0, …, n-1`; at each `j` run `insert_raw<level, j>` (one
`insert_raw_step` with key `s[j]`, then a recursive full insert of the first
`j` keys above the reached node); the last iteration's node is returned. -/
def insert_full : Nat → Cplx → Nat → Nat → List Int → Option (Cplx × Nat)
  | 0, C, _, rootId, _ => some (C, rootId)
  | n + 1, C, lv, rootId, s =>
    match insert_full n C lv rootId s with
    | none => none
    | some (C1, _) =>
      match insert_raw_step C1 lv rootId (s.getD n 0) with
      | none => none
      | some (C2, nn) => insert_full n C2 (lv + 1) nn s

/-- `simplicial_complex::insert<n>(s)`: mark every key of `s` as used in the
index tracker, then insert the closure of `s` starting from the root. -/
def insertS (C : Cplx) (s : List Int) : Option (Cplx × Nat) :=
  let C1 := { C with unused := s.foldl (fun h x => (remove_scalar h x).1) C.unused }
  insert_full s.length C1 0 0 s

/-- `get_recurse<level, n>::apply`: walk the coboundary maps along the name,
propagating the null pointer. -/
def get_recurse (C : Cplx) : Nat → Option Nat → List Int → Option Nat
  | _, root, [] => root
  | lv, root, k :: rest =>
    match root with
    | none => none
    | some id =>
      match alookup k (C.getN lv id).up with
      | some nxt => get_recurse C (lv + 1) (some nxt) rest
      | none => none

/-- `get_simplex_up(s)`: walk from the root. -/
def getSimplex (C : Cplx) (s : List Int) : Option Nat := get_recurse C 0 (some 0) s

/-- Existence of a simplex by name (`get_simplex_up(s) != nullptr`). -/
def existsS (C : Cplx) (s : List Int) : Bool := (getSimplex C s).isSome

/-- `remove_node`: detach a node from boundary and coboundary neighbours and
drop it from its level table.  The `Node<1>` overload also returns the vertex
key to `unused_vertices`; the `Node<0>` overload has no boundary loop (its
`_down` is empty anyway) and the `Node<topLevel>` overload has no coboundary
loop (a facet type has no `_up` member). -/
def remove_node (C : Cplx) (lv id : Nat) : Cplx :=
  let nd := C.getN lv id
  let C0 := if lv = 1 then
      { C with unused := nd.down.foldl (fun h p => insert_scalar h p.1) C.unused }
    else C
  let C1 := nd.down.foldl
    (fun acc (p : Int × Nat) => acc.updN (lv - 1) p.2 (fun n => { n with up := aerase p.1 n.up })) C0
  let C2 := if lv = C.topLevel then C1
    else nd.up.foldl
      (fun acc (p : Int × Nat) => acc.updN (lv + 1) p.2 (fun n => { n with down := aerase p.1 n.down })) C1
  C2.setTbl lv (aerase id (C2.tbl lv))

/-- `remove_recurse<level, _>::apply`: remove the given set of nodes while
collecting their direct cofaces, then recurse one dimension up; the terminal
specialisation at `topLevel` (fuel 0) only removes.  `fuel = topLevel - level`
at every call site. -/
def remove_recurse : Nat → Cplx → Nat → List Nat → Nat → Cplx × Nat
  | 0, C, lv, ids, count =>
    ids.foldl (fun (acc : Cplx × Nat) id => (remove_node acc.1 lv id, acc.2 + 1)) (C, count)
  | f + 1, C, lv, ids, count =>
    let step := ids.foldl
      (fun (acc : Cplx × (List Nat × Nat)) id =>
        let nxt := (acc.1.getN lv id).up.foldl (fun st (p : Int × Nat) => sinsert p.2 st) acc.2.1
        (remove_node acc.1 lv id, (nxt, acc.2.2 + 1)))
      (C, ([], count))
    remove_recurse f step.1 (lv + 1) step.2.1 step.2.2

/-- `simplicial_complex::remove(s)` by name: look the name up and run the
upward removal sweep on the result without a null check — `remove_recurse`
immediately dereferences the pointer, so a missing name is the undefined
execution `none`. -/
def removeByName (C : Cplx) (s : List Int) : Option (Cplx × Nat) :=
  match get_recurse C 0 (some 0) s with
  | none => none
  | some id => some (remove_recurse (C.topLevel - s.length) C s.length [id] 0)

/-- `simplicial_complex::remove(SimplexID<k>)`. -/
def removeById (C : Cplx) (lv id : Nat) : Cplx × Nat :=
  remove_recurse (C.topLevel - lv) C lv [id] 0

/-- `size<k>()`: the size of the dimension-`k` table. -/
def Cplx.sizeAt (C : Cplx) (k : Nat) : Nat := (C.tbl k).length

/-- `get_name`: the keys of the boundary map, in ascending order. -/
def nameOf (C : Cplx) (lv id : Nat) : List Int := akeys (C.getN lv id).down

/-- The names present at dimension `k` (observation of the stored complex). -/
def namesAt (C : Cplx) (k : Nat) : List (List Int) :=
  (C.tbl k).map (fun p => akeys p.2.down)

/-- `add_vertex()`: pop a fresh key and insert its vertex simplex.  When the
allocator is exhausted the process exits, leaving no resulting state. -/
def add_vertex (C : Cplx) : Option (Cplx × Int) :=
  match pop_scalar C.unused with
  | .exited _ => none
  | .ok v h =>
    match insertS { C with unused := h } [v] with
    | none => none
    | some (C', _) => some (C', v)

/-! ## Scenario states for the concrete claims -/

/-- Fresh complex with top dimension `D = 4` (five levels), as in S1. -/
def tet0 : Cplx := newCplx 4

/-- `insert([1,2,3,4])` on the fresh complex. -/
def tetIns : Option (Cplx × Nat) := insertS tet0 [1, 2, 3, 4]

/-- The state after the S1 insert. -/
def tetC1 : Cplx := (tetIns.getD (tet0, 0)).1

/-- `remove([3,4])` on the S1 state. -/
def tetRem : Option (Cplx × Nat) := removeByName tetC1 [3, 4]

/-- The state after the S2 remove. -/
def tetC2 : Cplx := (tetRem.getD (tetC1, 0)).1

/-- Fresh complex with top dimension 3, start state for the C3 experiments. -/
def rt0 : Cplx := newCplx 3

/-- State after `insert([1])` on `rt0`. -/
def rtV : Cplx := ((insertS rt0 [1]).getD (rt0, 0)).1

/-- State after `insert([1]); remove([1])` on `rt0`. -/
def rtVR : Cplx := ((removeByName rtV [1]).getD (rtV, 0)).1

/-- State after `insert([1,2])` on `rt0`. -/
def rtE : Cplx := ((insertS rt0 [1, 2]).getD (rt0, 0)).1

/-- State after `insert([1,2]); remove([1,2])` on `rt0`. -/
def rtER : Cplx := ((removeByName rtE [1, 2]).getD (rtE, 0)).1

/-- Observation of a complex: the stored names per dimension together with
the free intervals of the allocator (the objects the round-trip claim
compares). -/
def obsOf (C : Cplx) : List (List (List Int)) × List Iv :=
  ((List.range (C.topLevel + 1)).map (fun k => namesAt C k), allocIvs C.unused)

/-! ## Claim C4 -/

/-- Allocator state reached from the initial tracker by removing the 33 odd
keys `1, 3, …, 65`: the root leaf splits, leaving an interior root whose
first interval is `[32, 33)` while the key 0 is still free in the leftmost
leaf. -/
def oddFrag : Option BT :=
  ((List.range 33).map (fun k => 2 * (k : Int) + 1)).foldl
    (fun h x => (remove_scalar h x).1) allocInit

/-- The key returned by a `pop_scalar` outcome (or the exit code). -/
def popValue : PopOut → Int
  | .ok x _ => x
  | .exited c => c

/-- Whether a `pop_scalar` outcome returned through the result channel. -/
def popIsOk : PopOut → Bool
  | .ok _ _ => true
  | .exited _ => false

/-- Well-formedness of a leaf's interval list: non-empty intervals in
strictly increasing disjoint order (the invariant the tracker maintains). -/
def leafWF : List Iv → Bool
  | [] => true
  | [A] => decide (A.a < A.b)
  | A :: B :: r => decide (A.a < A.b) && decide (A.b ≤ B.a) && leafWF (B :: r)

/-! ## Orientable.h -/

/-- `get_cover`: the coboundary keys, in ascending order. -/
def get_cover (C : Cplx) (lv id : Nat) : List Int := akeys (C.getN lv id).up

/-- The inner loop of `init_orientation_helper`: `orient = 1`, then for each
name entry `b` in ascending order multiply by `-1` while `a > b`, stopping at
the first `b ≥ a`. -/
def orient_count (a : Int) : List Int → Int
  | [] => 1
  | b :: rest => if a > b then -1 * orient_count a rest else 1

/-- Write the edge datum of edge `(curr → curr.up(a))`: `EdgeID::data` is
`ptr->_edge_data[edge]` on the upper node. -/
def edgeUpd (a : Int) (o : Int) (n : CNode) : CNode :=
  { n with edgeOrient := ainsert a o n.edgeOrient }

/-- One dimension of `init_orientation_helper<Complex, k>::f`: for every
`k`-node and coboundary key `a`, store the computed sign on the edge.  The
writes only touch dimension `k + 1`, so iterating a snapshot of the
dimension-`k` table matches the C++ iteration of the live table. -/
def init_orientation_at (C : Cplx) (k : Nat) : Cplx :=
  (C.tbl k).foldl
    (fun acc (p : Nat × CNode) =>
      p.2.up.foldl
        (fun acc2 (q : Int × Nat) =>
          acc2.updN (k + 1) q.2 (edgeUpd q.1 (orient_count q.1 (akeys p.2.down))))
        acc)
    C

/-- Recursion of `init_orientation_helper` from dimension 0, terminating at
`topLevel` (the fuel is the number of remaining dimensions). -/
def init_orientation_go : Nat → Cplx → Nat → Cplx
  | 0, C, _ => C
  | f + 1, C, k => init_orientation_go f (init_orientation_at C k) (k + 1)

/-- `casc::init_orientation`. -/
def init_orientation (C : Cplx) : Cplx := init_orientation_go C.topLevel C 0

/-- `casc::clear_orientation`: zero the orientation of all facets. -/
def clear_orientation (C : Cplx) : Cplx :=
  (C.tbl C.topLevel).foldl
    (fun acc (p : Nat × CNode) =>
      acc.updN C.topLevel p.1 (fun n => { n with orient := 0 }))
    C

/-- `casc::neighbors_up(F, nid, back_inserter(frontier))`: for every cover
key `a` and every name key `b` of the up simplex, push
`get_simplex_down(get_simplex_up(nid, a), b)` unless it is `nid` itself. -/
def neighbors_up_list (C : Cplx) (lv id : Nat) : List Nat :=
  (C.getN lv id).up.foldl
    (fun acc (q : Int × Nat) =>
      (C.getN (lv + 1) q.2).down.foldl
        (fun acc2 (r : Int × Nat) => if r.2 ≠ id then acc2 ++ [r.2] else acc2)
        acc)
    []

/-- Mutable state of `check_orientation`. -/
structure OrientSt where
  C : Cplx
  visited : List Nat
  orientable : Bool
  pm : Bool

/-- The body of the `check_orientation` flood-fill for one dequeued simplex
with exactly two incident facets. -/
def check_two (k : Nat) (st : OrientSt) (curr : Nat) (a0 a1 : Int) : OrientSt :=
  let up0 := (alookup a0 (st.C.getN k curr).up).getD 0
  let up1 := (alookup a1 (st.C.getN k curr).up).getD 0
  let e0 := (alookup a0 (st.C.getN (k + 1) up0).edgeOrient).getD 0
  let e1 := (alookup a1 (st.C.getN (k + 1) up1).edgeOrient).getD 0
  let n0 := (st.C.getN (k + 1) up0).orient
  let n1 := (st.C.getN (k + 1) up1).orient
  if n0 = 0 then
    if n1 = 0 then
      let C1 := st.C.updN (k + 1) up0 (fun n => { n with orient := -1 })
      { st with C := C1.updN (k + 1) up1 (fun n => { n with orient := -e1 * e0 * (-1) }) }
    else
      { st with C := st.C.updN (k + 1) up0 (fun n => { n with orient := -e0 * e1 * n1 }) }
  else
    if n1 = 0 then
      { st with C := st.C.updN (k + 1) up1 (fun n => { n with orient := -e1 * e0 * n0 }) }
    else
      if e0 * n0 + e1 * n1 ≠ 0 then { st with orientable := false } else st

/-- The `while (!frontier.empty())` loop of `check_orientation`, with a fuel
that dominates the total number of queue operations (each visited simplex
enqueues at most `|cover| * |name|` neighbours, so the fuel passed by
`check_orientation` is never exhausted). -/
def check_loop (k : Nat) : Nat → OrientSt → List Nat → OrientSt
  | 0, st, _ => st
  | _ + 1, st, [] => st
  | f + 1, st, curr :: rest =>
    if smem curr st.visited then check_loop k f st rest
    else
      let st1 := { st with visited := sinsert curr st.visited }
      match get_cover st1.C k curr with
      | [_] => check_loop k f st1 rest
      | [a0, a1] =>
        let st2 := check_two k st1 curr a0 a1
        check_loop k f st2 (rest ++ neighbors_up_list st2.C k curr)
      | _ => check_loop k f { st1 with pm := false } rest

/-- The outer loop of `check_orientation` over all `(topLevel-1)`-simplices,
counting connected components. -/
def check_outer (k fuel : Nat) : List (Nat × CNode) → OrientSt → Nat → OrientSt × Nat
  | [], st, cc => (st, cc)
  | (id, _) :: rest, st, cc =>
    if smem id st.visited then check_outer k fuel rest st cc
    else check_outer k fuel rest (check_loop k fuel st [id]) (cc + 1)

/-- `casc::check_orientation`: returns the updated complex and the triple
(connected components, orientable, pseudo-manifold). -/
def check_orientation (C : Cplx) : Cplx × (Nat × Bool × Bool) :=
  let k := C.topLevel - 1
  let fuel := 1 + C.sizeAt k * (2 * C.topLevel + 2)
  let (st, cc) := check_outer k fuel (C.tbl k) ⟨C, [], true, true⟩ 0
  (st.C, (cc, st.orientable, st.pm))

/-- `casc::compute_orientation`: initialise edge signs, clear facet signs,
then check. -/
def compute_orientation (C : Cplx) : Cplx × (Nat × Bool × Bool) :=
  check_orientation (clear_orientation (init_orientation C))

/-! ## Claim C8 -/

/-- Insert a simplex, keeping the previous state on the (unreachable)
undefined branch; convenience for building concrete scenarios. -/
def insD (C : Cplx) (s : List Int) : Cplx := ((insertS C s).getD (C, 0)).1

/-- The closed tetrahedron surface of S4: the four triangles
`{0,1,2}, {0,1,3}, {0,2,3}, {1,2,3}` in a complex of top dimension 3. -/
def surfTet : Cplx := insD (insD (insD (insD (newCplx 3) [0, 1, 2]) [0, 1, 3]) [0, 2, 3]) [1, 2, 3]

/-! ## CASCTraversals.h : k-ring neighborhoods -/

/-- Body of the `kneighbors` frontier loop for one simplex `nid`: for every
boundary key `a`, walk down to `get_simplex_down(nid, a)` and back up to
every coface `get_simplex_up(·, b)`; a neighbour newly added to `nbors` is
also added to `next`.  The accumulator is `(nbors, next)`. -/
def expand_down_one (C : Cplx) (lv : Nat) (acc : List Nat × List Nat) (nid : Nat) :
    List Nat × List Nat :=
  (C.getN lv nid).down.foldl
    (fun acc2 (p : Int × Nat) =>
      (C.getN (lv - 1) p.2).up.foldl
        (fun (acc3 : List Nat × List Nat) (q : Int × Nat) =>
          if smem q.2 acc3.1 then acc3 else (sinsert q.2 acc3.1, sinsert q.2 acc3.2))
        acc2)
    acc

/-- Body of the `kneighbors_up` frontier loop for one simplex: the symmetric
coboundary-sharing expansion. -/
def expand_up_one (C : Cplx) (lv : Nat) (acc : List Nat × List Nat) (nid : Nat) :
    List Nat × List Nat :=
  (C.getN lv nid).up.foldl
    (fun acc2 (q : Int × Nat) =>
      (C.getN (lv + 1) q.2).down.foldl
        (fun (acc3 : List Nat × List Nat) (r : Int × Nat) =>
          if smem r.2 acc3.1 then acc3 else (sinsert r.2 acc3.1, sinsert r.2 acc3.2))
        acc2)
    acc

/-- `casc::kneighbors_up(F, ring, nbors, begin, end)`: iterate the
coboundary-sharing expansion `ring` times. -/
def kneighbors_up_go (C : Cplx) (lv : Nat) : Nat → List Nat → List Nat → List Nat
  | 0, nbors, _ => nbors
  | r + 1, nbors, frontier =>
    let st := frontier.foldl (fun a nid => expand_up_one C lv a nid) (nbors, [])
    kneighbors_up_go C lv r st.1 st.2

/-- `casc::kneighbors(F, ring, nbors, begin, end)`: one face-sharing
expansion, after which the recursive call goes to `kneighbors_up`, so the
remaining `ring - 1` rounds use the coboundary-sharing expansion. -/
def kneighbors_go (C : Cplx) (lv : Nat) : Nat → List Nat → List Nat → List Nat
  | 0, nbors, _ => nbors
  | r + 1, nbors, frontier =>
    let st := frontier.foldl (fun a nid => expand_down_one C lv a nid) (nbors, [])
    kneighbors_up_go C lv r st.1 st.2

/-- `casc::kneighbors(F, nid, ring, nbors)` wrapper: seed `nbors` and the
frontier with `nid`, iterate, then erase `nid` from the result.  Both
`kneighbors<level>` and the `kneighbors_up<level>` it recurses into call
`get_cover` on handles of the handle's own dimension, and a facet node
(`asc_Node<K, N, N, …>`) has no `_up` member, so at the top dimension the
templates cannot even be instantiated: that call has no program behaviour
and is modelled `none`. -/
def kneighborsF (C : Cplx) (lv id r : Nat) : Option (List Nat) :=
  if lv = C.topLevel then none
  else some (serase id (kneighbors_go C lv r [id] [id]))

/-- `casc::kneighbors_up(F, nid, ring, nbors)` wrapper, with the same
top-dimension instantiation guard. -/
def kneighborsUpF (C : Cplx) (lv id r : Nat) : Option (List Nat) :=
  if lv = C.topLevel then none
  else some (serase id (kneighbors_up_go C lv r [id] [id]))

/-- The iteration the claim describes for `kneighbors`: the face-sharing
expansion at EVERY ring (spec-side definition, for comparison). -/
def kneighbors_claim_go (C : Cplx) (lv : Nat) : Nat → List Nat → List Nat → List Nat
  | 0, nbors, _ => nbors
  | r + 1, nbors, frontier =>
    let st := frontier.foldl (fun a nid => expand_down_one C lv a nid) (nbors, [])
    kneighbors_claim_go C lv r st.1 st.2

/-- Claim-side `kneighbors` wrapper. -/
def kneighborsClaim (C : Cplx) (lv id r : Nat) : List Nat :=
  serase id (kneighbors_claim_go C lv r [id] [id])

/-- Chain of three triangles `{1,2,3}, {2,3,4}, {3,4,5}` in a complex of top
dimension 3: consecutive triangles share an edge, `T1` and `T3` only the
vertex 3. -/
def chainC : Cplx := insD (insD (insD (newCplx 3) [1, 2, 3]) [2, 3, 4]) [3, 4, 5]

/-- Path of three edges `{1,2}, {2,3}, {3,4}` in a complex of top dimension
3: the edges live strictly below the top dimension, consecutive edges share
a vertex, and no two edges share a coface (there are no triangles). -/
def pathC : Cplx := insD (insD (insD (newCplx 3) [1, 2]) [2, 3]) [3, 4]

/-! ## SimplexSet / SimplexMap and the BFS visitor kernel

`casc::SimplexSet` is a tuple of per-dimension hash sets of handles; it is
modelled as a list of sorted id lists indexed by dimension.
`casc::SimplexMap` is a tuple of per-dimension `std::map`s from a sorted key
array to a `SimplexSet`; it is modelled as a list of association lists
sorted by the lexicographic array order. -/

/-- SimplexSet model. -/
abbrev SSet := List (List Nat)

/-- Empty SimplexSet for a complex of top dimension `D`. -/
def ssEmpty (D : Nat) : SSet := List.replicate (D + 1) []

/-- Per-dimension member list. -/
def ssGet (S : SSet) (k : Nat) : List Nat := S.getD k []

/-- `SimplexSet::insert`. -/
def ssInsert (S : SSet) (k id : Nat) : SSet := S.set k (sinsert id (ssGet S k))

/-- `SimplexSet::erase`. -/
def ssErase (S : SSet) (k id : Nat) : SSet := S.set k (serase id (ssGet S k))

/-- `SimplexSet::find != end`. -/
def ssMem (S : SSet) (k id : Nat) : Bool := smem id (ssGet S k)

/-- Per-level union (`SimplexSet::insert(SimplexSet)` merges levelwise). -/
def ssUnion (S T : SSet) : SSet :=
  (List.range S.length).map (fun k => (ssGet T k).foldl (fun acc id => sinsert id acc) (ssGet S k))

/-- Strict lexicographic order on key arrays (`std::array::operator<`). -/
def lexLt : List Int → List Int → Bool
  | [], [] => false
  | [], _ :: _ => true
  | _ :: _, [] => false
  | a :: as, b :: bs => if a < b then true else if b < a then false else lexLt as bs

/-- SimplexMap model: per dimension, name → merged SimplexSet. -/
abbrev SMapM := List (List (List Int × SSet))

/-- Empty SimplexMap. -/
def smEmpty (D : Nat) : SMapM := List.replicate (D + 1) []

/-- Insert-or-merge into one dimension map, keeping lexicographic key order
(`levelMap.find` / `insert`, merging grabbed sets on an existing key). -/
def smLevelIns (name : List Int) (grab : SSet) : List (List Int × SSet) → List (List Int × SSet)
  | [] => [(name, grab)]
  | (n', s') :: rest =>
    if lexLt name n' then (name, grab) :: (n', s') :: rest
    else if name = n' then (n', ssUnion s' grab) :: rest
    else (n', s') :: smLevelIns name grab rest

/-- `SimplexMap` insert at dimension `k`. -/
def smIns (M : SMapM) (k : Nat) (name : List Int) (grab : SSet) : SMapM :=
  M.set k (smLevelIns name grab (M.getD k []))

/-- `visit_BFS_up` kernel (set-based no-repeat frontier; dimension by
dimension; the facet case only visits).  The visitor threads a state and
returns the continue flag; the fuel is `topLevel - level`. -/
def bfs_up_go {σ : Type} (C : Cplx) (visit : σ → Nat → Nat → σ × Bool) :
    Nat → σ → Nat → List Nat → σ
  | 0, st, lv, frontier => frontier.foldl (fun s id => (visit s lv id).1) st
  | f + 1, st, lv, frontier =>
    let step := frontier.foldl
      (fun (acc : σ × List Nat) id =>
        let s' := visit acc.1 lv id
        if s'.2 then
          (s'.1, (C.getN lv id).up.foldl (fun nx (q : Int × Nat) => sinsert q.2 nx) acc.2)
        else (s'.1, acc.2))
      (st, [])
    bfs_up_go C visit f step.1 (lv + 1) step.2

/-- `casc::visit_BFS_up(v, F, s)`. -/
def visit_BFS_up {σ : Type} (C : Cplx) (visit : σ → Nat → Nat → σ × Bool)
    (lv id : Nat) (st : σ) : σ :=
  bfs_up_go C visit (C.topLevel - lv) st lv [id]

/-- `visit_BFS_down` kernel (terminates at dimension 1; the fuel is
`level - 1`). -/
def bfs_down_go {σ : Type} (C : Cplx) (visit : σ → Nat → Nat → σ × Bool) :
    Nat → σ → Nat → List Nat → σ
  | 0, st, lv, frontier => frontier.foldl (fun s id => (visit s lv id).1) st
  | f + 1, st, lv, frontier =>
    let step := frontier.foldl
      (fun (acc : σ × List Nat) id =>
        let s' := visit acc.1 lv id
        if s'.2 then
          (s'.1, (C.getN lv id).down.foldl (fun nx (p : Int × Nat) => sinsert p.2 nx) acc.2)
        else (s'.1, acc.2))
      (st, [])
    bfs_down_go C visit f step.1 (lv - 1) step.2

/-- `casc::visit_BFS_down(v, F, s)`. -/
def visit_BFS_down {σ : Type} (C : Cplx) (visit : σ → Nat → Nat → σ × Bool)
    (lv id : Nat) (st : σ) : σ :=
  bfs_down_go C visit (lv - 1) st lv [id]

/-! ## decimate.h -/

/-- `func_detail::SimplexAggregator`: insert every newly seen simplex,
stopping expansion at already aggregated ones. -/
def aggregator_visit : SSet → Nat → Nat → SSet × Bool := fun S lv id =>
  if ssMem S lv id then (S, false) else (ssInsert S lv id, true)

/-- `decimation_detail::GetCompleteNeighborhood`: walk down from the
decimated simplex; at every vertex run an upward `SimplexAggregator` sweep
(collecting the star of each vertex); other dimensions just continue. -/
def nbhd_visit (C : Cplx) : SSet → Nat → Nat → SSet × Bool := fun S lv id =>
  if lv = 1 then (visit_BFS_up C aggregator_visit 1 id S, false) else (S, true)

/-- `decimation_detail::GrabVisitor`: move simplices still in the
neighborhood set into the grab set, stopping below already grabbed ones. -/
def grab_visit : SSet × SSet → Nat → Nat → (SSet × SSet) × Bool := fun st lv id =>
  if ssMem st.1 lv id then ((ssErase st.1 lv id, ssInsert st.2 lv id), true)
  else (st, false)

/-- Post-collapse name loop of `InnerVisitor::visit`: fill the `newLen - 1`
slots after the new vertex by copying `old` entries that are not matched
against `base` entries (both ascending).  The C++ `while (i < NewLevel)`
loop bounds neither index: when `base` (resp. `old`) is exhausted while
slots remain it compares `base_name[k]` (resp. `old_name[j]`) past the end
of the `std::array` — an undefined execution, modelled `none`. -/
def nn_fill : List Int → List Int → Nat → Option (List Int)
  | _, _, 0 => some []
  | bk :: bt, oj :: ot, m + 1 =>
    if bk = oj then nn_fill bt ot (m + 1)
    else (nn_fill (bk :: bt) ot m).map (fun t => oj :: t)
  | _, _, _ + 1 => none

/-- The rewritten name `{np} ∪ (old \ base)` as built by `InnerVisitor`;
`none` when the fill loop runs off the end of an array. -/
def decimate_new_name (np : Int) (base old : List Int) (newLen : Nat) : Option (List Int) :=
  (nn_fill base old (newLen - 1)).map (fun t => np :: t)

/-- `decimation_detail::InnerVisitor<Complex, BaseLevel>` for base simplex
`(b, s0)`: on every coface still in the neighborhood set, compute the
rewritten name, grab its remaining down-closure out of the neighborhood set
and record the grabbed set under the rewritten name. -/
def inner_visit (C : Cplx) (np : Int) (b s0 : Nat) :
    Option (SSet × SMapM) → Nat → Nat → Option (SSet × SMapM) × Bool := fun st lv id =>
  match st with
  | none => (none, false)
  | some st =>
    if ssMem st.1 lv id then
      let newLevel := lv - b + 1
      match decimate_new_name np (nameOf C b s0) (nameOf C lv id) newLevel with
      | none => (none, false)
      | some newName =>
        let grabbed := visit_BFS_down C grab_visit lv id (st.1, ssEmpty C.topLevel)
        (some (grabbed.1, smIns st.2 newLevel newName grabbed.2), true)
    else (some st, true)

/-- `decimation_detail::MainVisitor`: walk down from the decimated simplex,
running an upward `InnerVisitor` sweep from every visited simplex. -/
def main_visit (C : Cplx) (np : Int) :
    Option (SSet × SMapM) → Nat → Nat → Option (SSet × SMapM) × Bool :=
  fun st lv id => (visit_BFS_up C (inner_visit C np lv id) lv id st, true)

/-- `casc::decimateFirstHalf` (also the first half of `casc::decimate`):
allocate the new vertex via `add_vertex` — which also inserts its vertex
simplex — compute the complete neighborhood, and build the simplex map.
The map component is `none` when the name-rewriting loop of some
`InnerVisitor::visit` performed an out-of-bounds array read (the complex,
the new key and the neighborhood are computed before that loop runs). -/
def decimate_first (C : Cplx) (lv id : Nat) : Option (Cplx × Int × SSet × Option SMapM) :=
  match add_vertex C with
  | none => none
  | some (C1, np) =>
    let nbhd := visit_BFS_down C1 (nbhd_visit C1) lv id (ssEmpty C1.topLevel)
    let final := visit_BFS_down C1 (main_visit C1 np) lv id (some (nbhd, smEmpty C1.topLevel))
    some (C1, np, nbhd, final.map (fun f => f.2))

/-- `casc::run_user_callback` over a void payload: the callback is invoked
once per simplex-map entry, dimensions ascending, entries in key order; the
result vector receives the new names in invocation order.  The invocations
are logged as `(dimension, new_name, merged set)` triples. -/
def run_callback_log (D : Nat) (M : SMapM) :
    List (Nat × List Int × SSet) × List (List (List Int)) :=
  let log := (List.range D).foldl
    (fun acc k =>
      acc ++ (M.getD (k + 1) []).map (fun e => (k + 1, e.1, e.2)))
    []
  (log, (List.range (D + 1)).map (fun k => (M.getD k []).map (·.1)))

/-- `casc::perform_removal`: remove the doomed simplices, top dimension
first (`cRevIndex` runs `topLevel, …, 1`). -/
def perform_removal (C : Cplx) (doomed : SSet) : Cplx :=
  (List.range C.topLevel).foldl
    (fun acc j =>
      let k := acc.topLevel - j
      (ssGet doomed k).foldl (fun c id => (removeById c k id).1) acc)
    C

/-- `casc::perform_insertion`: insert the new simplices, dimensions
ascending (`cLevelIndex` runs `1, …, topLevel`), names in invocation
order. -/
def perform_insertion (C : Cplx) (rv : List (List (List Int))) : Option Cplx :=
  (List.range C.topLevel).foldl
    (fun acc j =>
      match acc with
      | none => none
      | some c =>
        (rv.getD (j + 1) []).foldl
          (fun acc2 name =>
            match acc2 with
            | none => none
            | some c2 => (insertS c2 name).map Prod.fst)
          (some c))
    (some C)

/-- `casc::decimate`: first half, user callbacks, removal of the doomed
neighborhood, insertion of the rewritten simplices.  Returns the final
complex, the new vertex key, the doomed set and the callback log. -/
def decimate (C : Cplx) (lv id : Nat) :
    Option (Cplx × Int × SSet × List (Nat × List Int × SSet)) :=
  match decimate_first C lv id with
  | none => none
  | some (_, _, _, none) => none
  | some (C1, np, doomed, some smap) =>
    let (log, rv) := run_callback_log C1.topLevel smap
    let C2 := perform_removal C1 doomed
    match perform_insertion C2 rv with
    | none => none
    | some C3 => some (C3, np, doomed, log)

/-! ## Claims C5 and C6 -/

/-- The triangle disk of S3/S6: triangles
`{0,1,3}, {0,3,5}, {1,3,4}, {3,4,5}, {1,2,4}, {2,4,5}`. -/
def diskC : Cplx :=
  insD (insD (insD (insD (insD (insD (newCplx 3)
    [0, 1, 3]) [0, 3, 5]) [1, 3, 4]) [3, 4, 5]) [1, 2, 4]) [2, 4, 5]

/-- Result of `decimate([3,4])` on the disk. -/
def dOut : Option (Cplx × Int × SSet × List (Nat × List Int × SSet)) := decimate diskC 2 14

/-- Mid-state of the S6 decimation: the complex as it stands after step 1
(`add_vertex`) and throughout the neighborhood computation, the class
building and the user callbacks, none of which mutate the complex. -/
def dMidC : Cplx := ((decimate_first diskC 2 14).map (fun o => o.1)).getD diskC

/-! ## The canonical-form invariant of the Hasse diagram -/

/-- Per-node canonical conditions: sorted boundary/coboundary keys, boundary
map of size `k`, no coboundary at the top dimension, down-coherence
(`n.down[a].up[a] == n`, with the parent's name the child's name minus `a`)
and up-coherence (`n.up[b].down[b] == n`). -/
def nodeOK (C : Cplx) (k : Nat) (id : Nat) (nd : CNode) : Bool :=
  chainLt (akeys nd.down) &&
  chainLt (akeys nd.up) &&
  (nd.down.length == k) &&
  (if k == C.topLevel then nd.up.isEmpty else true) &&
  nd.down.all (fun p =>
    match alookup p.2 (C.tbl (k - 1)) with
    | some pnd =>
      (alookup p.1 pnd.up == some id) &&
      (akeys pnd.down == (akeys nd.down).erase p.1)
    | none => false) &&
  nd.up.all (fun q =>
    match alookup q.2 (C.tbl (k + 1)) with
    | some cnd => alookup q.1 cnd.down == some id
    | none => false)

/-- Per-dimension canonical conditions: id-sorted table, ids below
`node_count`, every node canonical, and names injective. -/
def tblOK (C : Cplx) (k : Nat) : Bool :=
  chainLt ((C.tbl k).map Prod.fst) &&
  (C.tbl k).all (fun p => decide (p.1 < C.nodeCount) && nodeOK C k p.1 p.2) &&
  (C.tbl k).all (fun p => (C.tbl k).all (fun q =>
    !(akeys p.2.down == akeys q.2.down) || (p.1 == q.1)))

/-- The canonical-form invariant: `D+1` level tables, a single root with
empty boundary at dimension 0, and every dimension canonical. -/
def canonB (C : Cplx) : Bool :=
  (C.levels.length == C.topLevel + 1) &&
  ((C.tbl 0).map Prod.fst == [0]) &&
  ((C.getN 0 0).down == []) &&
  (List.range (C.topLevel + 1)).all (fun k => tblOK C k)

/-- The mutual-consistency property of claim C2: for every node, every
boundary entry links back through the parent's coboundary map, and every
coboundary entry links back through the child's boundary map. -/
def mutualB (C : Cplx) : Bool :=
  (List.range (C.topLevel + 1)).all (fun k =>
    (C.tbl k).all (fun p =>
      p.2.down.all (fun e => alookup e.1 (C.getN (k - 1) e.2).up == some p.1) &&
      p.2.up.all (fun e => alookup e.1 (C.getN (k + 1) e.2).down == some p.1)))

/-! ## Skeleton equality: edge-data writes do not disturb the diagram -/

/-- Projection of a table entry to the parts `init_orientation` reads. -/
def skProj (p : Nat × CNode) : Nat × List (Int × Nat) × List (Int × Nat) :=
  (p.1, p.2.down, p.2.up)

/-- Two complexes with the same top dimension, level count, and tables equal
up to the node/edge data slots. -/
def SkelEq (C C' : Cplx) : Prop :=
  C'.topLevel = C.topLevel ∧ C'.levels.length = C.levels.length ∧
  ∀ j, (C'.tbl j).map skProj = (C.tbl j).map skProj

/-! ## Characterisation of the edge writes of `init_orientation` -/

/-- Read the edge datum stored on the edge keyed `a` below node `cid` at
dimension `lv`. -/
def edgeRead (C : Cplx) (lv cid : Nat) (a : Int) : Option Int :=
  alookup a (C.getN lv cid).edgeOrient

/-- The inner loop of one `init_orientation_helper` dimension, with the
boundary-key list of the current node fixed. -/
def edgeWriteFold (k : Nat) (dn : List Int) (ql : List (Int × Nat)) (acc : Cplx) : Cplx :=
  ql.foldl
    (fun acc2 (q : Int × Nat) =>
      acc2.updN (k + 1) q.2 (edgeUpd q.1 (orient_count q.1 dn)))
    acc

/-- The outer loop of one `init_orientation_helper` dimension over a table. -/
def stageFold (k : Nat) (L : List (Nat × CNode)) (acc : Cplx) : Cplx :=
  L.foldl (fun acc p => edgeWriteFold k (akeys p.2.down) p.2.up acc) acc

/-! ## Sorted key-list toolkit for the Hasse-diagram invariant -/

/-- Key insertion into a strictly sorted list (what `ainsert` does to the
key sequence of a sorted map). -/
def skeyIns [LinearOrder κ] (x : κ) : List κ → List κ
  | [] => [x]
  | y :: t => if x < y then x :: y :: t else if x = y then x :: t else y :: skeyIns x t

/-! ## The canonical-form invariant, in propositional form -/

/-- Propositional version of `nodeOK`. -/
def NodeP (C : Cplx) (k id : Nat) (nd : CNode) : Prop :=
  chainLt (akeys nd.down) = true ∧
  chainLt (akeys nd.up) = true ∧
  nd.down.length = k ∧
  (k = C.topLevel → nd.up = []) ∧
  (∀ p ∈ nd.down, ∃ pnd, alookup p.2 (C.tbl (k - 1)) = some pnd ∧
    alookup p.1 pnd.up = some id ∧ akeys pnd.down = (akeys nd.down).erase p.1) ∧
  (∀ q ∈ nd.up, ∃ cnd, alookup q.2 (C.tbl (k + 1)) = some cnd ∧
    alookup q.1 cnd.down = some id)

/-- Propositional version of `tblOK`. -/
def TblP (C : Cplx) (k : Nat) : Prop :=
  chainLt ((C.tbl k).map Prod.fst) = true ∧
  (∀ p ∈ C.tbl k, p.1 < C.nodeCount ∧ NodeP C k p.1 p.2) ∧
  (∀ p ∈ C.tbl k, ∀ q ∈ C.tbl k, akeys p.2.down = akeys q.2.down → p.1 = q.1)

/-- Propositional version of `canonB`. -/
def CanonP (C : Cplx) : Prop :=
  C.levels.length = C.topLevel + 1 ∧
  (C.tbl 0).map Prod.fst = [0] ∧
  (C.getN 0 0).down = [] ∧
  ∀ k, k < C.topLevel + 1 → TblP C k

/-- Existence of a simplex with the given sorted name at a dimension. -/
def HasName (C : Cplx) (k : Nat) (X : List Int) : Prop :=
  ∃ id nd, alookup id (C.tbl k) = some nd ∧ akeys nd.down = X

/-- Monotone evolution: an insertion step never deletes a node and never
changes the boundary map of an existing node. -/
def Stable (C C' : Cplx) : Prop :=
  C'.topLevel = C.topLevel ∧ C'.levels.length = C.levels.length ∧
  C.nodeCount ≤ C'.nodeCount ∧
  ∀ k id nd, alookup id (C.tbl k) = some nd →
    ∃ nd', alookup id (C'.tbl k) = some nd' ∧ nd'.down = nd.down

/-- `keysUnion T X`: the sorted key set `X ∪ T`. -/
def keysUnion (T X : List Int) : List Int := T.foldr skeyIns X

/-! ## The backfill loop invariant -/

/-- State of the complex while `insert_raw` attaches the fresh node `nn`
above `rootId`: relative to the original complex `C`, only the new node's
boundary map (keys `v` and the processed subset `done` of the root's name)
and the coboundary maps of the root and the processed siblings have changed. -/
def Mid (C : Cplx) (lv rootId : Nat) (v : Int) (rnd : CNode) (nn : Nat)
    (done : List Int) (Ci : Cplx) : Prop :=
  Ci.topLevel = C.topLevel ∧
  Ci.levels.length = C.levels.length ∧
  Ci.nodeCount = C.nodeCount + 1 ∧
  (∀ j, j ≠ lv → j ≠ lv + 1 → Ci.tbl j = C.tbl j) ∧
  (Ci.tbl (lv + 1)).map Prod.fst = skeyIns nn ((C.tbl (lv + 1)).map Prod.fst) ∧
  (∀ i, i ≠ nn → alookup i (Ci.tbl (lv + 1)) = alookup i (C.tbl (lv + 1))) ∧
  (∃ nnd, alookup nn (Ci.tbl (lv + 1)) = some nnd ∧ nnd.up = [] ∧
    chainLt (akeys nnd.down) = true ∧
    alookup v nnd.down = some rootId ∧
    (∀ b, b ≠ v → b ∉ done → alookup b nnd.down = none) ∧
    (∀ w pid, (w, pid) ∈ rnd.down → w ∈ done →
      ∃ c, alookup v (C.getN (lv - 1) pid).up = some c ∧ alookup w nnd.down = some c)) ∧
  (Ci.tbl lv).map Prod.fst = (C.tbl lv).map Prod.fst ∧
  (∀ i nd0, alookup i (C.tbl lv) = some nd0 →
    ∃ nd1, alookup i (Ci.tbl lv) = some nd1 ∧ nd1.down = nd0.down ∧
      chainLt (akeys nd1.up) = true ∧
      (i = rootId → alookup v nd1.up = some nn) ∧
      (∀ w pid, (w, pid) ∈ rnd.down → w ∈ done →
        alookup v (C.getN (lv - 1) pid).up = some i → alookup w nd1.up = some nn) ∧
      (∀ b, ¬(i = rootId ∧ b = v) →
        (∀ pid, (b, pid) ∈ rnd.down → b ∈ done →
          alookup v (C.getN (lv - 1) pid).up ≠ some i) →
        alookup b nd1.up = alookup b nd0.up))

/-! ## Removal: weakened node conditions and the per-node erase folds -/

/-- Conditions kept by a doomed node awaiting removal: sorted maps, no
coboundary at the top, and mutual links on both sides (its name may already
be mutilated by earlier removals below). -/
def WeakP (Ci : Cplx) (k i : Nat) (nd : CNode) : Prop :=
  chainLt (akeys nd.down) = true ∧ chainLt (akeys nd.up) = true ∧
  (k = Ci.topLevel → nd.up = []) ∧
  (∀ p ∈ nd.down, ∃ pnd, alookup p.2 (Ci.tbl (k - 1)) = some pnd ∧
    alookup p.1 pnd.up = some i) ∧
  (∀ q ∈ nd.up, ∃ cnd, alookup q.2 (Ci.tbl (k + 1)) = some cnd ∧
    alookup q.1 cnd.down = some i)

/-- Full node conditions except that the name equations are waived for
boundary entries into the doomed sets `S` (at dimension `lv`) and `acc`
(at dimension `lv + 1`). -/
def NodeD (Ci : Cplx) (lv : Nat) (S acc : List Nat) (k i : Nat) (nd : CNode) : Prop :=
  chainLt (akeys nd.down) = true ∧ chainLt (akeys nd.up) = true ∧
  nd.down.length = k ∧ (k = Ci.topLevel → nd.up = []) ∧
  (∀ p ∈ nd.down, ∃ pnd, alookup p.2 (Ci.tbl (k - 1)) = some pnd ∧
    alookup p.1 pnd.up = some i ∧
    (¬(k - 1 = lv ∧ p.2 ∈ S) → ¬(k - 1 = lv + 1 ∧ p.2 ∈ acc) →
      akeys pnd.down = (akeys nd.down).erase p.1)) ∧
  (∀ q ∈ nd.up, ∃ cnd, alookup q.2 (Ci.tbl (k + 1)) = some cnd ∧
    alookup q.1 cnd.down = some i)

/-- Invariant carried through the stage at dimension `lv` of the removal
sweep: `S` is the sorted set of nodes still awaiting removal at `lv`, `acc`
the cofaces already collected at `lv + 1`.  Every surviving node satisfies
the full node conditions except for name equations into the doomed sets,
and doomed nodes keep sorted maps with mutual links. -/
structure StageInv (Ci : Cplx) (lv : Nat) (S acc : List Nat) : Prop where
  lv1 : 1 ≤ lv
  lvtop : lv ≤ Ci.topLevel
  len : Ci.levels.length = Ci.topLevel + 1
  root_keys : (Ci.tbl 0).map Prod.fst = [0]
  root_down : (Ci.getN 0 0).down = []
  sorted : ∀ k, chainLt ((Ci.tbl k).map Prod.fst) = true
  bounds : ∀ k x, x ∈ (Ci.tbl k).map Prod.fst → x < Ci.nodeCount
  s_sorted : chainLt S = true
  acc_sorted : chainLt acc = true
  s_pres : ∀ i ∈ S, (alookup i (Ci.tbl lv)).isSome = true
  acc_pres : ∀ i ∈ acc, (alookup i (Ci.tbl (lv + 1))).isSome = true
  surv : ∀ k x nd, alookup x (Ci.tbl k) = some nd →
    ¬(k = lv ∧ x ∈ S) → ¬(k = lv + 1 ∧ x ∈ acc) → NodeD Ci lv S acc k x nd
  doomS : ∀ x nd, x ∈ S → alookup x (Ci.tbl lv) = some nd → WeakP Ci lv x nd
  doomA : ∀ x nd, x ∈ acc → alookup x (Ci.tbl (lv + 1)) = some nd → WeakP Ci (lv + 1) x nd
  inj : ∀ k x ndx y ndy, alookup x (Ci.tbl k) = some ndx →
    alookup y (Ci.tbl k) = some ndy →
    ¬(k = lv ∧ x ∈ S) → ¬(k = lv + 1 ∧ x ∈ acc) →
    ¬(k = lv ∧ y ∈ S) → ¬(k = lv + 1 ∧ y ∈ acc) →
    akeys ndx.down = akeys ndy.down → x = y

/-- States reachable from a freshly constructed complex by the public
mutators: `insert(s)` with a duplicate-free name that fits under the top
dimension, and `remove(s)` with a nonempty name (the `remove` overloads
exist only for positive dimension). -/
inductive Reachable : Cplx → Prop where
  | base (D : Nat) : Reachable (newCplx D)
  | ins {C C' : Cplx} {s : List Int} {res : Nat} : Reachable C → s.Nodup →
      s.length ≤ C.topLevel → insertS C s = some (C', res) → Reachable C'
  | rem {C C' : Cplx} {s : List Int} {cnt : Nat} : Reachable C → s ≠ [] →
      removeByName C s = some (C', cnt) → Reachable C'

/-! ## Theorems -/

/-! ## Claim C1 -/

/-- C1: on a freshly constructed complex with top dimension `D = 4`,
`insert([1,2,3,4])` creates the simplex and every non-empty subset, giving
per-dimension sizes `(1,4,6,4,1)` with `exists([1,2,3,4])` true; then
`remove([3,4])` returns 4 and leaves sizes `(1,4,5,2,0)`, after which
lookups of `[1,2,3,4]`, `[3,4]` and `[1,3,4]` all return nothing. -/
theorem claim_C1 :
    tetIns.isSome = true ∧
    (tetC1.sizeAt 0, tetC1.sizeAt 1, tetC1.sizeAt 2, tetC1.sizeAt 3, tetC1.sizeAt 4)
      = (1, 4, 6, 4, 1) ∧
    existsS tetC1 [1, 2, 3, 4] = true ∧
    tetRem.map Prod.snd = some 4 ∧
    (tetC2.sizeAt 0, tetC2.sizeAt 1, tetC2.sizeAt 2, tetC2.sizeAt 3, tetC2.sizeAt 4)
      = (1, 4, 5, 2, 0) ∧
    getSimplex tetC2 [1, 2, 3, 4] = none ∧
    getSimplex tetC2 [3, 4] = none ∧
    getSimplex tetC2 [1, 3, 4] = none := by
  decide

/-! ## Claim C10 -/

/-- C10: `remove(s)` passes the result of the name lookup to the upward
sweep without a null check and the sweep immediately dereferences it, so a
`remove` of a name that is not present is the undefined null-dereference
execution (`none`) rather than a return of 0; the null branch is unreachable
exactly when the lookup succeeds. -/
theorem claim_C10 (C : Cplx) (s : List Int) (h : getSimplex C s = none) :
    removeByName C s = none := by
  unfold getSimplex at h
  simp [removeByName, h]

/-- Witness for C10: on a fresh 2-dimensional complex the name `[5]` is
absent and `remove([5])` is the undefined execution. -/
theorem claim_C10_witness :
    getSimplex (newCplx 2) [5] = none ∧ removeByName (newCplx 2) [5] = none :=
  ⟨by decide, claim_C10 (newCplx 2) [5] (by decide)⟩

/-- C4 counterexample: on the reachable allocator `oddFrag` the key 0 is
free, yet `pop()` removes and returns 32 — the lower bound of the first
interval of the root node, not the smallest free key; and on an empty
tracker `pop()` terminates the process via `exit(-1)` instead of returning
an `Exhausted` error through the result channel. -/
theorem claim_C4_counterexample :
    pop_scalar none = PopOut.exited (-1) ∧
    popIsOk (pop_scalar none) = false ∧
    allocMem oddFrag 0 = true ∧
    popValue (pop_scalar oddFrag) = 32 ∧
    popIsOk (pop_scalar oddFrag) = true ∧
    ((0 : Int) < 32) := by
  decide

theorem leafWF_min (A : Iv) (rest : List Iv) (h : leafWF (A :: rest) = true) (y : Int)
    (hy : (A :: rest).any (fun I => decide (I.a ≤ y) && decide (y < I.b)) = true) :
    A.a ≤ y := by
  induction rest generalizing A with
  | nil =>
    simp only [List.any_cons, List.any_nil, Bool.or_false, Bool.and_eq_true,
      decide_eq_true_eq] at hy
    exact hy.1
  | cons B r ih =>
    simp only [leafWF, Bool.and_eq_true, decide_eq_true_eq] at h
    simp only [List.any_cons, Bool.or_eq_true, Bool.and_eq_true, decide_eq_true_eq] at hy
    rcases hy with h1 | h2
    · exact h1.1
    · have hB : B.a ≤ y := by
        apply ih B h.2
        simp only [List.any_cons, Bool.or_eq_true, Bool.and_eq_true, decide_eq_true_eq]
        exact h2
      exact le_trans (le_trans (le_of_lt h.1.1) h.1.2) hB

/-- C4 amended: `pop()` removes and returns the lower bound of the first
interval stored in the ROOT node; when the root is a leaf this is indeed the
smallest free key (on a deeper tree it need not be, see the counterexample),
and when the free set is empty `pop()` terminates the process with
`exit(-1)` rather than returning an `Exhausted` error. -/
theorem claim_C4_amended (A : Iv) (rest : List Iv) (h : leafWF (A :: rest) = true) :
    pop_scalar (some (.leaf (A :: rest))) =
      PopOut.ok A.a (remove_scalar (some (.leaf (A :: rest))) A.a).1 ∧
    allocMem (some (.leaf (A :: rest))) A.a = true ∧
    (∀ y : Int, allocMem (some (.leaf (A :: rest))) y = true → A.a ≤ y) ∧
    pop_scalar none = PopOut.exited (-1) := by
  refine ⟨rfl, ?_, ?_, rfl⟩
  · have hab : A.a < A.b := by
      cases rest with
      | nil => simpa [leafWF] using h
      | cons B r =>
        simp only [leafWF, Bool.and_eq_true, decide_eq_true_eq] at h
        exact h.1.1
    simp [allocMem, allocIvs, btIvs, hab]
  · intro y hy
    exact leafWF_min A rest h y (by simpa [allocMem, allocIvs, btIvs] using hy)

/-- Witness for C4 amended: a concrete two-interval leaf root. -/
theorem claim_C4_amended_witness :
    leafWF [⟨5, 9⟩, ⟨12, 13⟩] = true ∧
    pop_scalar (some (.leaf [⟨5, 9⟩, ⟨12, 13⟩])) =
      PopOut.ok 5 (remove_scalar (some (.leaf [⟨5, 9⟩, ⟨12, 13⟩])) 5).1 ∧
    allocMem (some (.leaf [⟨5, 9⟩, ⟨12, 13⟩])) 5 = true :=
  ⟨by decide, (claim_C4_amended ⟨5, 9⟩ [⟨12, 13⟩] (by decide)).1,
    (claim_C4_amended ⟨5, 9⟩ [⟨12, 13⟩] (by decide)).2.1⟩

/-! ## Claim C3 -/

/-- C3 counterexample: on the fresh complex `rt0` and the sorted tuple
`[1,2]`, `insert([1,2]); remove([1,2])` does NOT return the complex to its
pre-insertion state: the vertex `[1]` (a proper subsimplex created by the
insert) exists afterwards but not before, and the allocator still has keys 1
and 2 marked used. -/
theorem claim_C3_counterexample :
    existsS rt0 [1] = false ∧
    existsS rtER [1] = true ∧
    existsS rtER [1, 2] = false ∧
    allocIvs rt0.unused = [⟨0, intMax⟩] ∧
    allocIvs rtER.unused = [⟨0, 1⟩, ⟨3, intMax⟩] ∧
    allocMem rt0.unused 1 = true ∧
    allocMem rtER.unused 1 = false := by
  decide

/-- C3 amended: `insert(s); remove(s)` removes `s` and its cofaces but keeps
the proper subsimplices of `s` created by the insert, together with their
vertex-key reservations; the pre-insertion observation (stored names per
dimension and free intervals) is restored when `s` is a single vertex.  At
the counterexample input: the single-vertex round trip `insert([1]);
remove([1])` restores the observation of `rt0` exactly, while the
`insert([1,2]); remove([1,2])` round trip leaves exactly the extra vertices
`[1]` and `[2]` with keys 1 and 2 still allocated. -/
theorem claim_C3_amended :
    obsOf rtVR = obsOf rt0 ∧
    (removeByName rtE [1, 2]).map Prod.snd = some 1 ∧
    namesAt rtER 0 = [[]] ∧
    namesAt rtER 1 = [[1], [2]] ∧
    namesAt rtER 2 = [] ∧
    namesAt rtER 3 = [] ∧
    existsS rtER [1, 2] = false ∧
    allocIvs rtER.unused = [⟨0, 1⟩, ⟨3, intMax⟩] := by
  decide

/-- C8: `compute_orientation` on the closed tetrahedron surface returns
exactly one connected component, orientable, and pseudo-manifold. -/
theorem claim_C8 :
    (insertS (insD (insD (insD (newCplx 3) [0, 1, 2]) [0, 1, 3]) [0, 2, 3]) [1, 2, 3]).isSome
      = true ∧
    (surfTet.sizeAt 1, surfTet.sizeAt 2, surfTet.sizeAt 3) = (4, 6, 4) ∧
    (compute_orientation surfTet).2 = (1, true, true) := by
  decide

/-- C9 counterexample: on a path of three edges at dimension 2 — strictly
below the top dimension 3, where the C++ templates instantiate —
`kneighbors(E1, 2)` as implemented returns only the vertex-sharing `E2`:
the second ring uses the coboundary-sharing expansion, which finds nothing
because no two edges share a triangle.  Iterating the face-sharing
expansion exactly 2 times, as the claim states, would also reach `E3`. -/
theorem claim_C9_counterexample :
    pathC.topLevel = 3 ∧
    getSimplex pathC [1, 2] = some 3 ∧
    getSimplex pathC [2, 3] = some 5 ∧
    getSimplex pathC [3, 4] = some 7 ∧
    kneighborsF pathC 2 3 1 = some [5] ∧
    kneighborsF pathC 2 3 2 = some [5] ∧
    kneighborsClaim pathC 2 3 2 = [5, 7] ∧
    kneighborsF pathC 2 3 2 ≠ some (kneighborsClaim pathC 2 3 2) := by
  decide

theorem chainLt_tail [LinearOrder κ] (y : κ) (t : List κ) (h : chainLt (y :: t) = true) :
    chainLt t = true := by
  cases t with
  | nil => simp [chainLt]
  | cons z t2 =>
    simp only [chainLt, Bool.and_eq_true] at h
    exact h.2

theorem chainLt_cons_iff [LinearOrder κ] (y : κ) (l : List κ) :
    chainLt (y :: l) = true ↔
      chainLt l = true ∧ ∀ w, l.head? = some w → y < w := by
  cases l with
  | nil => simp [chainLt]
  | cons z t =>
    simp only [chainLt, Bool.and_eq_true, decide_eq_true_eq, List.head?_cons]
    constructor
    · rintro ⟨h1, h2⟩
      exact ⟨h2, fun w hw => by cases hw; exact h1⟩
    · rintro ⟨h1, h2⟩
      exact ⟨h2 z rfl, h1⟩

theorem chainLt_all [LinearOrder κ] (y : κ) (t : List κ) (h : chainLt (y :: t) = true) :
    ∀ x ∈ t, y < x := by
  induction t generalizing y with
  | nil => intro x hx; cases hx
  | cons z t2 ih =>
    intro x hx
    have h1 : y < z := ((chainLt_cons_iff y (z :: t2)).1 h).2 z rfl
    rcases List.mem_cons.1 hx with hx | hx
    · exact hx ▸ h1
    · exact lt_trans h1 (ih z (chainLt_tail y (z :: t2) h) x hx)

theorem sinsert_head (x : Nat) (l : List Nat) (w : Nat)
    (h : (sinsert x l).head? = some w) : w = x ∨ l.head? = some w := by
  cases l with
  | nil => simp [sinsert] at h; omega
  | cons y t =>
    by_cases h1 : x < y
    · simp [sinsert, h1] at h; omega
    · by_cases h2 : x = y
      · simp only [sinsert, if_neg h1, if_pos h2, List.head?_cons] at h ⊢
        exact Or.inr h
      · simp only [sinsert, if_neg h1, if_neg h2, List.head?_cons] at h ⊢
        exact Or.inr h

theorem chainLt_sinsert (x : Nat) (l : List Nat) (h : chainLt l = true) :
    chainLt (sinsert x l) = true := by
  induction l with
  | nil => simp [sinsert, chainLt]
  | cons y t ih =>
    have ht : chainLt t = true := chainLt_tail y t h
    by_cases h1 : x < y
    · simp only [sinsert, if_pos h1]
      rw [chainLt_cons_iff]
      exact ⟨h, fun w hw => by simp at hw; omega⟩
    · by_cases h2 : x = y
      · simp [sinsert, h1, h2, h]
      · simp only [sinsert, if_neg h1, if_neg h2]
        rw [chainLt_cons_iff]
        refine ⟨ih ht, fun w hw => ?_⟩
        rcases sinsert_head x t w hw with hw2 | hw2
        · omega
        · exact ((chainLt_cons_iff y t).1 h).2 w hw2

theorem chainLt_smem_false (x : Nat) (l : List Nat) (h : chainLt (x :: l) = true) :
    smem x l = false := by
  induction l with
  | nil => simp [smem]
  | cons y t ih =>
    simp only [chainLt, Bool.and_eq_true, decide_eq_true_eq] at h
    have hx : chainLt (x :: t) = true := by
      rw [chainLt_cons_iff]
      refine ⟨chainLt_tail y t h.2, fun w hw => ?_⟩
      have := ((chainLt_cons_iff y t).1 h.2).2 w hw
      omega
    have := ih hx
    simp only [smem, List.contains_cons] at *
    simp only [Bool.or_eq_false_iff]
    constructor
    · simp only [beq_eq_false_iff_ne, ne_eq]
      omega
    · exact this

theorem smem_serase_of_chainLt (x : Nat) (l : List Nat) (h : chainLt l = true) :
    smem x (serase x l) = false := by
  induction l with
  | nil => simp [serase, smem]
  | cons y t ih =>
    by_cases hxy : y = x
    · subst hxy
      simp only [serase, if_pos rfl]
      exact chainLt_smem_false y t h
    · simp only [serase, if_neg hxy]
      have := ih (chainLt_tail y t h)
      simp only [smem, List.contains_cons] at *
      simp only [Bool.or_eq_false_iff]
      refine ⟨?_, this⟩
      simp only [beq_eq_false_iff_ne, ne_eq]
      omega

theorem expand_pair_sorted {α : Type} (step : List Nat × List Nat → α → List Nat × List Nat)
    (hstep : ∀ acc nid, chainLt acc.1 = true → chainLt acc.2 = true →
      chainLt (step acc nid).1 = true ∧ chainLt (step acc nid).2 = true)
    (frontier : List α) (acc : List Nat × List Nat)
    (h1 : chainLt acc.1 = true) (h2 : chainLt acc.2 = true) :
    chainLt (frontier.foldl step acc).1 = true ∧
    chainLt (frontier.foldl step acc).2 = true := by
  induction frontier generalizing acc with
  | nil => exact ⟨h1, h2⟩
  | cons nid rest ih =>
    have := hstep acc nid h1 h2
    exact ih _ this.1 this.2

theorem inner_sinsert_sorted (l : List (Int × Nat)) (acc : List Nat × List Nat)
    (h1 : chainLt acc.1 = true) (h2 : chainLt acc.2 = true) :
    chainLt (l.foldl
      (fun (acc3 : List Nat × List Nat) (q : Int × Nat) =>
        if smem q.2 acc3.1 then acc3 else (sinsert q.2 acc3.1, sinsert q.2 acc3.2)) acc).1
      = true ∧
    chainLt (l.foldl
      (fun (acc3 : List Nat × List Nat) (q : Int × Nat) =>
        if smem q.2 acc3.1 then acc3 else (sinsert q.2 acc3.1, sinsert q.2 acc3.2)) acc).2
      = true := by
  induction l generalizing acc with
  | nil => exact ⟨h1, h2⟩
  | cons q rest ih =>
    by_cases hq : smem q.2 acc.1
    · simp only [List.foldl_cons, if_pos hq]
      exact ih acc h1 h2
    · simp only [List.foldl_cons, if_neg hq]
      exact ih _ (chainLt_sinsert _ _ h1) (chainLt_sinsert _ _ h2)

theorem expand_down_one_sorted (C : Cplx) (lv : Nat) (acc : List Nat × List Nat) (nid : Nat)
    (h1 : chainLt acc.1 = true) (h2 : chainLt acc.2 = true) :
    chainLt (expand_down_one C lv acc nid).1 = true ∧
    chainLt (expand_down_one C lv acc nid).2 = true := by
  unfold expand_down_one
  refine expand_pair_sorted _ ?_ _ acc h1 h2
  intro acc2 p ha hb
  exact inner_sinsert_sorted _ acc2 ha hb

theorem expand_up_one_sorted (C : Cplx) (lv : Nat) (acc : List Nat × List Nat) (nid : Nat)
    (h1 : chainLt acc.1 = true) (h2 : chainLt acc.2 = true) :
    chainLt (expand_up_one C lv acc nid).1 = true ∧
    chainLt (expand_up_one C lv acc nid).2 = true := by
  unfold expand_up_one
  refine expand_pair_sorted _ ?_ _ acc h1 h2
  intro acc2 p ha hb
  exact inner_sinsert_sorted _ acc2 ha hb

theorem kneighbors_up_go_sorted (C : Cplx) (lv : Nat) (r : Nat) (nbors frontier : List Nat)
    (h : chainLt nbors = true) :
    chainLt (kneighbors_up_go C lv r nbors frontier) = true := by
  induction r generalizing nbors frontier with
  | zero => exact h
  | succ r ih =>
    simp only [kneighbors_up_go]
    have := expand_pair_sorted (fun a nid => expand_up_one C lv a nid)
      (fun acc nid ha hb => expand_up_one_sorted C lv acc nid ha hb)
      frontier (nbors, []) h (by simp [chainLt])
    exact ih _ _ this.1

theorem kneighbors_go_sorted (C : Cplx) (lv : Nat) (r : Nat) (nbors frontier : List Nat)
    (h : chainLt nbors = true) :
    chainLt (kneighbors_go C lv r nbors frontier) = true := by
  cases r with
  | zero => exact h
  | succ r =>
    simp only [kneighbors_go]
    have := expand_pair_sorted (fun a nid => expand_down_one C lv a nid)
      (fun acc nid ha hb => expand_down_one_sorted C lv acc nid ha hb)
      frontier (nbors, []) h (by simp [chainLt])
    exact kneighbors_up_go_sorted C lv r _ _ this.1

/-- C9 amended: below the top dimension (facets have no coboundary member,
so the templates only instantiate there), `kneighbors(handle, r)` applies
the face-sharing expansion only for the FIRST ring and the
coboundary-sharing expansion for the remaining `r - 1` rings, accumulating
into a growing set; `kneighbors_up` uses the coboundary-sharing expansion
at every ring; in both cases the starting handle is excluded from the
returned set. -/
theorem claim_C9_amended (C : Cplx) (lv id r : Nat) (hlv : lv ≠ C.topLevel) :
    kneighborsF C lv id (r + 1) =
      some (serase id
        (kneighbors_up_go C lv r
          (expand_down_one C lv ([id], []) id).1 (expand_down_one C lv ([id], []) id).2)) ∧
    kneighborsUpF C lv id (r + 1) =
      some (serase id
        (kneighbors_up_go C lv r
          (expand_up_one C lv ([id], []) id).1 (expand_up_one C lv ([id], []) id).2)) ∧
    (∀ l, kneighborsF C lv id r = some l → smem id l = false) ∧
    (∀ l, kneighborsUpF C lv id r = some l → smem id l = false) := by
  refine ⟨?_, ?_, ?_, ?_⟩
  · unfold kneighborsF
    rw [if_neg hlv]
    rfl
  · unfold kneighborsUpF
    rw [if_neg hlv]
    rfl
  · intro l hl
    unfold kneighborsF at hl
    rw [if_neg hlv] at hl
    rw [← Option.some.inj hl]
    exact smem_serase_of_chainLt _ _
      (kneighbors_go_sorted C lv r [id] [id] (by simp [chainLt]))
  · intro l hl
    unfold kneighborsUpF at hl
    rw [if_neg hlv] at hl
    rw [← Option.some.inj hl]
    exact smem_serase_of_chainLt _ _
      (kneighbors_up_go_sorted C lv r [id] [id] (by simp [chainLt]))

theorem claim_C9_amended_witness :
    kneighborsF pathC 2 3 2 =
      some (serase 3
        (kneighbors_up_go pathC 2 1
          (expand_down_one pathC 2 ([3], []) 3).1 (expand_down_one pathC 2 ([3], []) 3).2)) :=
  (claim_C9_amended pathC 2 3 1 (by decide)).1

set_option maxHeartbeats 8000000 in
/-- C5: the decimation the claim describes performs an out-of-bounds array
read before any callback class is determined.  On the disk, the edge
`{3,4}` is node 14 and the coface `{3,4,5}` is stored; rewriting that
coface's name against the base `{3,4}` exhausts the base before the new
name is full, so the `InnerVisitor::visit` loop reads `base_name[2]` of a
2-element `std::array` — the embedded loop (undefined read modelled `none`)
returns `none` there, the simplex-map construction of `decimate_first`
propagates it, and `decimate([3,4])` on the disk is the undefined
execution. -/
theorem claim_C5 :
    getSimplex diskC [3, 4] = some 14 ∧
    (diskC.sizeAt 0, diskC.sizeAt 1, diskC.sizeAt 2, diskC.sizeAt 3) = (1, 6, 11, 6) ∧
    existsS diskC [3, 4, 5] = true ∧
    decimate_new_name 6 [3, 4] [3, 4, 5] 2 = none ∧
    ((decimate_first diskC 2 14).map (fun o => o.2.2.2.isNone)) = some true ∧
    dOut.isNone = true := by
  decide

set_option maxHeartbeats 8000000 in
/-- C6 counterexample: step 1 of `decimate` calls `add_vertex()`, which pops
a fresh key AND inserts its vertex simplex, so while the neighborhood is
computed, the classes are built and the callbacks run, the vertex simplex
named `v* = 6` DOES exist in the complex — contradicting the claim that no
vertex simplex named `v*` exists during those steps. -/
theorem claim_C6_counterexample :
    (decimate_first diskC 2 14).isSome = true ∧
    ((decimate_first diskC 2 14).map (fun o => o.2.1)) = some 6 ∧
    existsS dMidC [6] = true := by
  decide

set_option maxHeartbeats 2000000 in
/-- C6 amended: step 1 allocates the fresh key `v*` and ALSO inserts its
vertex simplex (`add_vertex` pops and inserts); during the neighborhood
computation, the class building and the callbacks the simplex tables are
those of the original complex plus exactly the vertex `v*` (and the
allocator has `v*` popped) — the remaining mutations happen only in the
final removal/insertion step. -/
theorem claim_C6_amended :
    namesAt dMidC 0 = namesAt diskC 0 ∧
    namesAt dMidC 1 = namesAt diskC 1 ++ [[6]] ∧
    namesAt dMidC 2 = namesAt diskC 2 ∧
    namesAt dMidC 3 = namesAt diskC 3 ∧
    dMidC.nodeCount = diskC.nodeCount + 1 ∧
    existsS dMidC [6] = true ∧
    allocIvs diskC.unused = [⟨6, intMax⟩] ∧
    allocIvs dMidC.unused = [⟨7, intMax⟩] := by
  decide

/-! ## Association-list and accessor lemmas -/

theorem alookup_ainsert [LinearOrder κ] (k i : κ) (v : α) (l : List (κ × α)) :
    alookup i (ainsert k v l) = if i = k then some v else alookup i l := by
  induction l with
  | nil =>
    simp only [ainsert, alookup]
    by_cases h : i = k
    · rw [if_pos h.symm, if_pos h]
    · rw [if_neg (fun hh : k = i => h hh.symm), if_neg h]
  | cons p t ih =>
    obtain ⟨k', v'⟩ := p
    by_cases h1 : k < k'
    · simp only [ainsert, if_pos h1, alookup]
      by_cases h : i = k
      · rw [if_pos h.symm, if_pos h]
      · rw [if_neg (fun hh : k = i => h hh.symm), if_neg h]
    · by_cases h2 : k = k'
      · subst h2
        simp only [ainsert, if_neg h1, if_pos rfl, alookup]
        by_cases h : i = k
        · rw [if_pos h.symm, if_pos h]
        · rw [if_neg (fun hh : k = i => h hh.symm), if_neg h,
            if_neg (fun hh : k = i => h hh.symm)]
      · simp only [ainsert, if_neg h1, if_neg h2, alookup, ih]
        by_cases h3 : k' = i
        · have hik : ¬ i = k := fun hh => h2 ((h3.trans hh).symm)
          rw [if_pos h3, if_neg hik, if_pos h3]
        · rw [if_neg h3, if_neg h3]

theorem alookup_none_of_ge_length {C : Cplx} {lv : Nat} (h : C.levels.length ≤ lv) :
    C.tbl lv = [] := by
  simp only [Cplx.tbl, List.getD]
  rw [List.get?_eq_none.2 h]
  rfl

theorem setTbl_topLevel (C : Cplx) (lv : Nat) (t : List (Nat × CNode)) :
    (C.setTbl lv t).topLevel = C.topLevel := rfl

theorem setTbl_length (C : Cplx) (lv : Nat) (t : List (Nat × CNode)) :
    (C.setTbl lv t).levels.length = C.levels.length := by
  simp [Cplx.setTbl]

theorem tbl_setTbl_self {C : Cplx} {lv : Nat} (t : List (Nat × CNode))
    (h : lv < C.levels.length) : (C.setTbl lv t).tbl lv = t := by
  simp only [Cplx.setTbl, Cplx.tbl, List.getD, List.get?_eq_getElem?]
  rw [List.getElem?_set_eq_of_lt _ h]
  rfl

theorem tbl_setTbl_ne {C : Cplx} {lv j : Nat} (t : List (Nat × CNode)) (h : j ≠ lv) :
    (C.setTbl lv t).tbl j = C.tbl j := by
  simp only [Cplx.setTbl, Cplx.tbl, List.getD, List.get?_eq_getElem?]
  rw [List.getElem?_set_ne (fun hh => h hh.symm)]

theorem updN_topLevel (C : Cplx) (lv id : Nat) (f : CNode → CNode) :
    (C.updN lv id f).topLevel = C.topLevel := by
  unfold Cplx.updN
  split <;> rfl

theorem updN_length (C : Cplx) (lv id : Nat) (f : CNode → CNode) :
    (C.updN lv id f).levels.length = C.levels.length := by
  unfold Cplx.updN
  split
  · exact setTbl_length ..
  · rfl

theorem updN_lt_length {C : Cplx} {lv id : Nat} {nd : CNode}
    (h : alookup id (C.tbl lv) = some nd) : lv < C.levels.length := by
  by_contra hge
  rw [alookup_none_of_ge_length (le_of_not_lt hge)] at h
  simp [alookup] at h

theorem tbl_updN_ne {C : Cplx} {lv id j : Nat} (f : CNode → CNode) (h : j ≠ lv) :
    (C.updN lv id f).tbl j = C.tbl j := by
  unfold Cplx.updN
  split
  · exact tbl_setTbl_ne _ h
  · rfl

theorem tbl_updN_self {C : Cplx} {lv id : Nat} {nd : CNode} (f : CNode → CNode)
    (h : alookup id (C.tbl lv) = some nd) :
    (C.updN lv id f).tbl lv = ainsert id (f nd) (C.tbl lv) := by
  unfold Cplx.updN
  rw [h]
  exact tbl_setTbl_self _ (updN_lt_length h)

theorem getN_updN_self {C : Cplx} {lv id : Nat} {nd : CNode} (f : CNode → CNode)
    (h : alookup id (C.tbl lv) = some nd) :
    (C.updN lv id f).getN lv id = f nd := by
  simp [Cplx.getN, tbl_updN_self f h, alookup_ainsert]

theorem getN_updN_ne {C : Cplx} {lv id j i : Nat} (f : CNode → CNode)
    (h : j ≠ lv ∨ i ≠ id) : (C.updN lv id f).getN j i = C.getN j i := by
  rcases h with h | h
  · simp [Cplx.getN, tbl_updN_ne f h]
  · unfold Cplx.getN Cplx.updN
    split
    · next nd hnd =>
      by_cases hj : j = lv
      · subst hj
        rw [tbl_setTbl_self _ (updN_lt_length hnd), alookup_ainsert, if_neg h]
      · rw [tbl_setTbl_ne _ hj]
    · rfl

theorem alookup_isSome_ainsert [LinearOrder κ] (k i : κ) (v : α) (l : List (κ × α)) :
    (alookup i (ainsert k v l)).isSome = ((i = k) || (alookup i l).isSome) := by
  rw [alookup_ainsert]
  by_cases h : i = k <;> simp [h]

theorem map_if_eq_self [DecidableEq κ] (k : κ) (v : α) (t : List (κ × α))
    (h : ∀ p ∈ t, p.1 ≠ k) :
    t.map (fun p => if p.1 = k then (p.1, v) else p) = t := by
  induction t with
  | nil => rfl
  | cons p r ih =>
    simp only [List.map, List.cons.injEq]
    refine ⟨by simp [h p (List.mem_cons_self ..)], ih (fun q hq => h q (List.mem_cons_of_mem _ hq))⟩

theorem alookup_eq_none_of_not_mem [DecidableEq κ] (k : κ) (l : List (κ × α))
    (h : k ∉ l.map Prod.fst) : alookup k l = none := by
  induction l with
  | nil => rfl
  | cons p t ih =>
    simp only [List.map, List.mem_cons, not_or] at h
    simp only [alookup, if_neg (fun hh : p.1 = k => h.1 hh.symm)]
    exact ih h.2

/-- In-place replacement view of `ainsert` when the key is already present in
a key-sorted list. -/
theorem ainsert_of_present [LinearOrder κ] (k : κ) (v : α) (l : List (κ × α))
    (hs : chainLt (l.map Prod.fst) = true) (hp : (alookup k l).isSome = true) :
    ainsert k v l = l.map (fun p => if p.1 = k then (p.1, v) else p) := by
  induction l with
  | nil => simp [alookup] at hp
  | cons p t ih =>
    obtain ⟨k', v'⟩ := p
    have hall : ∀ x ∈ t.map Prod.fst, k' < x := chainLt_all k' _ hs
    by_cases h2 : k = k'
    · subst h2
      have htid : t.map (fun p => if p.1 = k then (p.1, v) else p) = t := by
        refine map_if_eq_self k v t (fun q hq => ?_)
        exact ne_of_gt (hall q.1 (List.mem_map_of_mem _ hq))
      simp [ainsert, lt_irrefl, htid]
    · have hk'k : ¬ k < k' := by
        have hmem : k ∈ ((k', v') :: t).map Prod.fst := by
          by_contra hnm
          rw [alookup_eq_none_of_not_mem _ _ hnm] at hp
          simp at hp
        simp only [List.map, List.mem_cons] at hmem
        rcases hmem with hm | hm
        · exact absurd hm h2
        · exact not_lt_of_gt (hall k hm)
      have hlook : (alookup k t).isSome = true := by
        simpa [alookup, if_neg (fun hh : k' = k => h2 (Eq.symm hh))] using hp
      simp only [ainsert, if_neg hk'k, if_neg h2, List.map,
        if_neg (fun hh : k' = k => h2 (Eq.symm hh))]
      rw [ih (chainLt_tail _ _ hs) hlook]

theorem akeys_map_replace [DecidableEq κ] (k : κ) (v : α) (l : List (κ × α)) :
    (l.map (fun p => if p.1 = k then (p.1, v) else p)).map Prod.fst = l.map Prod.fst := by
  induction l with
  | nil => rfl
  | cons p t ih =>
    by_cases h : p.1 = k <;> simp [h, ih]

theorem skelEq_refl (C : Cplx) : SkelEq C C := ⟨rfl, rfl, fun _ => rfl⟩

theorem skelEq_trans {C C' C'' : Cplx} (h1 : SkelEq C C') (h2 : SkelEq C' C'') :
    SkelEq C C'' :=
  ⟨h2.1.trans h1.1, h2.2.1.trans h1.2.1, fun j => (h2.2.2 j).trans (h1.2.2 j)⟩

theorem map_fst_of_map_skProj {l l' : List (Nat × CNode)}
    (h : l'.map skProj = l.map skProj) : l'.map Prod.fst = l.map Prod.fst := by
  have := congrArg (List.map Prod.fst) h
  simpa [List.map_map, Function.comp, skProj] using this

theorem alookup_map_eq {l l' : List (Nat × CNode)}
    (h : l'.map skProj = l.map skProj) (i : Nat) :
    Option.map (fun nd => (nd.down, nd.up)) (alookup i l') =
    Option.map (fun nd => (nd.down, nd.up)) (alookup i l) := by
  induction l' generalizing l with
  | nil =>
    cases l with
    | nil => rfl
    | cons q s => simp at h
  | cons p t ih =>
    cases l with
    | nil => simp at h
    | cons q s =>
      simp only [List.map, List.cons.injEq] at h
      have h1 : p.1 = q.1 := congrArg (fun x => x.1) h.1
      have hdq : p.2.down = q.2.down := congrArg (fun x => x.2.1) h.1
      have huq : p.2.up = q.2.up := congrArg (fun x => x.2.2) h.1
      simp only [alookup, h1]
      by_cases hq : q.1 = i
      · simp [hq, hdq, huq]
      · simp only [if_neg hq]
        exact ih h.2

theorem skelEq_getN_down {C C' : Cplx} (h : SkelEq C C') (j i : Nat) :
    (C'.getN j i).down = (C.getN j i).down := by
  have := alookup_map_eq (h.2.2 j) i
  unfold Cplx.getN
  cases h1 : alookup i (C'.tbl j) <;> cases h2 : alookup i (C.tbl j) <;>
    rw [h1, h2] at this <;> simp_all

theorem skelEq_getN_up {C C' : Cplx} (h : SkelEq C C') (j i : Nat) :
    (C'.getN j i).up = (C.getN j i).up := by
  have := alookup_map_eq (h.2.2 j) i
  unfold Cplx.getN
  cases h1 : alookup i (C'.tbl j) <;> cases h2 : alookup i (C.tbl j) <;>
    rw [h1, h2] at this <;> simp_all

theorem skelEq_isSome {C C' : Cplx} (h : SkelEq C C') (j i : Nat) :
    (alookup i (C'.tbl j)).isSome = (alookup i (C.tbl j)).isSome := by
  have := alookup_map_eq (h.2.2 j) i
  cases h1 : alookup i (C'.tbl j) <;> cases h2 : alookup i (C.tbl j) <;>
    rw [h1, h2] at this <;> simp_all

theorem alookup_mem [DecidableEq κ] {k : κ} {v : α} {l : List (κ × α)}
    (h : alookup k l = some v) : (k, v) ∈ l := by
  induction l with
  | nil => simp [alookup] at h
  | cons p t ih =>
    by_cases hp : p.1 = k
    · simp only [alookup, if_pos hp] at h
      cases h
      have hkp : (k, p.2) = p := by rw [← hp]
      rw [hkp]
      exact List.mem_cons_self ..
    · simp only [alookup, if_neg hp] at h
      exact List.mem_cons_of_mem _ (ih h)

theorem value_unique_of_sorted [LinearOrder κ] {l : List (κ × α)} {k : κ} {v : α}
    (hs : chainLt (l.map Prod.fst) = true) (hl : alookup k l = some v) :
    ∀ p ∈ l, p.1 = k → p.2 = v := by
  induction l with
  | nil => intro p hp; cases hp
  | cons q t ih =>
    intro p hp hpk
    have hall : ∀ x ∈ t.map Prod.fst, q.1 < x := chainLt_all _ _ hs
    by_cases hq : q.1 = k
    · rw [alookup, if_pos hq] at hl
      cases hl
      rcases List.mem_cons.1 hp with hp | hp
      · rw [hp]
      · exfalso
        have hlt : q.1 < p.1 := hall p.1 (List.mem_map_of_mem _ hp)
        rw [hpk, hq] at hlt
        exact lt_irrefl _ hlt
    · rw [alookup, if_neg hq] at hl
      rcases List.mem_cons.1 hp with hp | hp
      · exact absurd (hp ▸ hpk) hq
      · exact ih (chainLt_tail _ _ hs) hl p hp hpk

theorem map_skProj_replace (l : List (Nat × CNode)) (id : Nat) (nd' : CNode)
    (h : ∀ p ∈ l, p.1 = id → skProj (id, nd') = skProj p) :
    (l.map (fun p => if p.1 = id then (p.1, nd') else p)).map skProj = l.map skProj := by
  induction l with
  | nil => rfl
  | cons p t ih =>
    by_cases hp : p.1 = id
    · simp only [List.map, if_pos hp]
      rw [ih (fun q hq hqk => h q (List.mem_cons_of_mem _ hq) hqk)]
      have h1 : skProj (p.1, nd') = skProj p := by
        rw [hp]
        exact h p (List.mem_cons_self ..) hp
      rw [h1]
    · simp only [List.map, if_neg hp]
      rw [ih (fun q hq hqk => h q (List.mem_cons_of_mem _ hq) hqk)]

/-- `ainsert` of an existing key in a key-sorted table, when the new value
has the same skeleton projection, does not change the projected table. -/
theorem map_skProj_ainsert (l : List (Nat × CNode)) (id : Nat) (nd nd' : CNode)
    (hs : chainLt (l.map Prod.fst) = true) (hl : alookup id l = some nd)
    (hd : nd'.down = nd.down) (hu : nd'.up = nd.up) :
    (ainsert id nd' l).map skProj = l.map skProj := by
  rw [ainsert_of_present id nd' l hs (by rw [hl]; rfl)]
  refine map_skProj_replace l id nd' ?_
  intro p hp hpk
  have hv : p.2 = nd := value_unique_of_sorted hs hl p hp hpk
  simp [skProj, hpk, hv, hd, hu]

/-- An edge-data write preserves the skeleton (relative to a base complex
whose tables are key-sorted). -/
theorem skelEq_updN_edge {C0 Ccur : Cplx} (hsk : SkelEq C0 Ccur)
    (hsort : ∀ j, chainLt ((C0.tbl j).map Prod.fst) = true)
    (lv id : Nat) (a o : Int) :
    SkelEq C0 (Ccur.updN lv id (edgeUpd a o)) := by
  unfold Cplx.updN
  split
  · next nd hnd =>
    refine ⟨hsk.1, ?_, ?_⟩
    · rw [setTbl_length]; exact hsk.2.1
    · intro j
      by_cases hj : j = lv
      · subst hj
        rw [tbl_setTbl_self _ (updN_lt_length hnd)]
        have hcs : chainLt ((Ccur.tbl j).map Prod.fst) = true := by
          rw [map_fst_of_map_skProj (hsk.2.2 j)]; exact hsort j
        rw [map_skProj_ainsert _ _ _ (edgeUpd a o nd) hcs hnd rfl rfl]
        exact hsk.2.2 j
      · rw [tbl_setTbl_ne _ hj]
        exact hsk.2.2 j
  · exact hsk

/-! ## Canon extraction lemmas -/

theorem canon_len {C : Cplx} (hc : canonB C = true) :
    C.levels.length = C.topLevel + 1 := by
  simp only [canonB, Bool.and_eq_true, beq_iff_eq] at hc
  exact hc.1.1.1

theorem canon_tblOK {C : Cplx} (hc : canonB C = true) (k : Nat)
    (hk : k < C.topLevel + 1) : tblOK C k = true := by
  simp only [canonB, Bool.and_eq_true, List.all_eq_true] at hc
  exact hc.2 k (List.mem_range.2 hk)

theorem tblOK_sorted {C : Cplx} {k : Nat} (h : tblOK C k = true) :
    chainLt ((C.tbl k).map Prod.fst) = true := by
  simp only [tblOK, Bool.and_eq_true] at h
  exact h.1.1

theorem tblOK_nodeOK {C : Cplx} {k : Nat} (h : tblOK C k = true)
    {id : Nat} {nd : CNode} (hp : (id, nd) ∈ C.tbl k) : nodeOK C k id nd = true := by
  simp only [tblOK, Bool.and_eq_true, List.all_eq_true] at h
  exact (h.1.2 (id, nd) hp).2

theorem nodeOK_down_sorted {C : Cplx} {k id : Nat} {nd : CNode}
    (h : nodeOK C k id nd = true) : chainLt (akeys nd.down) = true := by
  simp only [nodeOK, Bool.and_eq_true] at h
  exact h.1.1.1.1.1

theorem nodeOK_up_sorted {C : Cplx} {k id : Nat} {nd : CNode}
    (h : nodeOK C k id nd = true) : chainLt (akeys nd.up) = true := by
  simp only [nodeOK, Bool.and_eq_true] at h
  exact h.1.1.1.1.2

theorem nodeOK_down_len {C : Cplx} {k id : Nat} {nd : CNode}
    (h : nodeOK C k id nd = true) : nd.down.length = k := by
  simp only [nodeOK, Bool.and_eq_true, beq_iff_eq] at h
  exact h.1.1.1.2

theorem nodeOK_top_up_empty {C : Cplx} {k id : Nat} {nd : CNode}
    (h : nodeOK C k id nd = true) (hk : k = C.topLevel) : nd.up = [] := by
  simp only [nodeOK, Bool.and_eq_true] at h
  have h2 := h.1.1.2
  rw [if_pos (by simpa using hk)] at h2
  simpa using h2

theorem nodeOK_down_coh {C : Cplx} {k id : Nat} {nd : CNode}
    (h : nodeOK C k id nd = true) {a : Int} {pid : Nat} (hm : (a, pid) ∈ nd.down) :
    ∃ pnd, alookup pid (C.tbl (k - 1)) = some pnd ∧
      alookup a pnd.up = some id ∧ akeys pnd.down = (akeys nd.down).erase a := by
  simp only [nodeOK, Bool.and_eq_true, List.all_eq_true] at h
  have h2 : (match alookup pid (C.tbl (k - 1)) with
      | some pnd =>
        (alookup a pnd.up == some id) &&
        (akeys pnd.down == (akeys nd.down).erase a)
      | none => false) = true := h.1.2 (a, pid) hm
  cases hpn : alookup pid (C.tbl (k - 1)) with
  | none => simp [hpn] at h2
  | some pnd =>
    simp only [hpn, Bool.and_eq_true, beq_iff_eq] at h2
    exact ⟨pnd, rfl, h2.1, h2.2⟩

theorem nodeOK_up_coh {C : Cplx} {k id : Nat} {nd : CNode}
    (h : nodeOK C k id nd = true) {b : Int} {cid : Nat} (hm : (b, cid) ∈ nd.up) :
    ∃ cnd, alookup cid (C.tbl (k + 1)) = some cnd ∧ alookup b cnd.down = some id := by
  simp only [nodeOK, Bool.and_eq_true, List.all_eq_true] at h
  have h2 : (match alookup cid (C.tbl (k + 1)) with
      | some cnd => alookup b cnd.down == some id
      | none => false) = true := h.2 (b, cid) hm
  cases hpn : alookup cid (C.tbl (k + 1)) with
  | none => simp [hpn] at h2
  | some cnd =>
    simp only [hpn, beq_iff_eq] at h2
    exact ⟨cnd, rfl, h2⟩

theorem tblOK_inj {C : Cplx} {k : Nat} (h : tblOK C k = true)
    {id1 id2 : Nat} {n1 n2 : CNode} (h1 : (id1, n1) ∈ C.tbl k) (h2 : (id2, n2) ∈ C.tbl k)
    (hn : akeys n1.down = akeys n2.down) : id1 = id2 := by
  simp only [tblOK, Bool.and_eq_true, List.all_eq_true] at h
  have := h.2 (id1, n1) h1 (id2, n2) h2
  simp only [Bool.or_eq_true, Bool.not_eq_true', beq_eq_false_iff_ne, ne_eq, beq_iff_eq] at this
  rcases this with hfalse | heq
  · exact absurd hn hfalse
  · exact heq

theorem init_orientation_at_eq (C : Cplx) (k : Nat) :
    init_orientation_at C k = stageFold k (C.tbl k) C := rfl

theorem edgeWriteFold_cons (k : Nat) (dn : List Int) (q : Int × Nat)
    (rest : List (Int × Nat)) (acc : Cplx) :
    edgeWriteFold k dn (q :: rest) acc =
      edgeWriteFold k dn rest
        (acc.updN (k + 1) q.2 (edgeUpd q.1 (orient_count q.1 dn))) := rfl

theorem stageFold_cons (k : Nat) (p : Nat × CNode) (L : List (Nat × CNode)) (acc : Cplx) :
    stageFold k (p :: L) acc =
      stageFold k L (edgeWriteFold k (akeys p.2.down) p.2.up acc) := rfl

theorem edgeRead_updN_other_level (C : Cplx) (lv id : Nat) (f : CNode → CNode)
    (jl cid : Nat) (b : Int) (hj : jl ≠ lv) :
    edgeRead (C.updN lv id f) jl cid b = edgeRead C jl cid b := by
  unfold edgeRead
  rw [getN_updN_ne f (Or.inl hj)]

theorem edgeRead_updN_other_id (C : Cplx) (lv id : Nat) (f : CNode → CNode)
    (cid : Nat) (b : Int) (hi : cid ≠ id) :
    edgeRead (C.updN lv id f) lv cid b = edgeRead C lv cid b := by
  unfold edgeRead
  rw [getN_updN_ne f (Or.inr hi)]

theorem edgeRead_updN_edge_other_key (C : Cplx) (lv id : Nat) (a o b : Int)
    (hb : b ≠ a) :
    edgeRead (C.updN lv id (edgeUpd a o)) lv id b = edgeRead C lv id b := by
  unfold edgeRead
  cases hnd : alookup id (C.tbl lv) with
  | none =>
    unfold Cplx.updN
    rw [hnd]
  | some nd =>
    rw [getN_updN_self _ hnd]
    unfold Cplx.getN
    rw [hnd]
    simp [edgeUpd, alookup_ainsert, hb]

theorem edgeRead_updN_edge_self (C : Cplx) (lv id : Nat) (a o : Int) (nd : CNode)
    (hnd : alookup id (C.tbl lv) = some nd) :
    edgeRead (C.updN lv id (edgeUpd a o)) lv id a = some o := by
  unfold edgeRead
  rw [getN_updN_self _ hnd]
  simp [edgeUpd, alookup_ainsert]

theorem edgeWriteFold_skel {C0 : Cplx}
    (hsort : ∀ j, chainLt ((C0.tbl j).map Prod.fst) = true)
    (k : Nat) (dn : List Int) (ql : List (Int × Nat)) :
    ∀ {acc : Cplx}, SkelEq C0 acc → SkelEq C0 (edgeWriteFold k dn ql acc) := by
  induction ql with
  | nil => intro acc h; exact h
  | cons q rest ih =>
    intro acc h
    rw [edgeWriteFold_cons]
    exact ih (skelEq_updN_edge h hsort (k + 1) q.2 q.1 (orient_count q.1 dn))

theorem stageFold_skel {C0 : Cplx}
    (hsort : ∀ j, chainLt ((C0.tbl j).map Prod.fst) = true)
    (k : Nat) (L : List (Nat × CNode)) :
    ∀ {acc : Cplx}, SkelEq C0 acc → SkelEq C0 (stageFold k L acc) := by
  induction L with
  | nil => intro acc h; exact h
  | cons p t ih =>
    intro acc h
    rw [stageFold_cons]
    exact ih (edgeWriteFold_skel hsort k (akeys p.2.down) p.2.up h)

theorem edgeWriteFold_read_other (k : Nat) (dn : List Int) (ql : List (Int × Nat))
    (jl cid : Nat) (b : Int) (hj : jl ≠ k + 1) :
    ∀ (acc : Cplx), edgeRead (edgeWriteFold k dn ql acc) jl cid b = edgeRead acc jl cid b := by
  induction ql with
  | nil => intro acc; rfl
  | cons q rest ih =>
    intro acc
    rw [edgeWriteFold_cons, ih, edgeRead_updN_other_level _ _ _ _ _ _ _ hj]

theorem stageFold_read_other (k : Nat) (L : List (Nat × CNode))
    (jl cid : Nat) (b : Int) (hj : jl ≠ k + 1) :
    ∀ (acc : Cplx), edgeRead (stageFold k L acc) jl cid b = edgeRead acc jl cid b := by
  induction L with
  | nil => intro acc; rfl
  | cons p t ih =>
    intro acc
    rw [stageFold_cons, ih, edgeWriteFold_read_other _ _ _ _ _ _ hj]

theorem edgeWriteFold_read_miss (k : Nat) (dn : List Int) (ql : List (Int × Nat))
    (cid : Nat) (a : Int) (hmiss : (a, cid) ∉ ql) :
    ∀ (acc : Cplx),
      edgeRead (edgeWriteFold k dn ql acc) (k + 1) cid a = edgeRead acc (k + 1) cid a := by
  induction ql with
  | nil => intro acc; rfl
  | cons q rest ih =>
    intro acc
    have hmr : (a, cid) ∉ rest := fun hmem => hmiss (List.mem_cons_of_mem _ hmem)
    rw [edgeWriteFold_cons, ih hmr]
    by_cases hq2 : cid = q.2
    · by_cases hq1 : a = q.1
      · exfalso
        apply hmiss
        exact List.mem_cons.2 (Or.inl (by rw [hq1, hq2]))
      · rw [← hq2]
        exact edgeRead_updN_edge_other_key _ _ _ _ _ _ hq1
    · exact edgeRead_updN_other_id _ _ _ _ _ _ hq2

theorem edgeWriteFold_read_hit {C0 : Cplx}
    (hsort : ∀ j, chainLt ((C0.tbl j).map Prod.fst) = true)
    (k : Nat) (dn : List Int) (cid : Nat) (a : Int)
    (hpres : (alookup cid (C0.tbl (k + 1))).isSome = true) :
    ∀ (ql : List (Int × Nat)) (acc : Cplx), SkelEq C0 acc →
      chainLt (akeys ql) = true → (a, cid) ∈ ql →
      edgeRead (edgeWriteFold k dn ql acc) (k + 1) cid a = some (orient_count a dn) := by
  intro ql
  induction ql with
  | nil => intro acc _ _ hm; cases hm
  | cons q rest ih =>
    intro acc hsk hsql hm
    rcases List.mem_cons.1 hm with hm | hm
    · have hq : q = (a, cid) := hm.symm
      subst hq
      have hpacc : (alookup cid (acc.tbl (k + 1))).isSome = true := by
        rw [skelEq_isSome hsk]
        exact hpres
      obtain ⟨nd, hnd⟩ := Option.isSome_iff_exists.1 hpacc
      have hgt : ∀ x ∈ akeys rest, a < x := chainLt_all _ _ (by simpa [akeys] using hsql)
      have hmiss : (a, cid) ∉ rest := fun hmem =>
        lt_irrefl a (hgt a (List.mem_map_of_mem _ hmem))
      rw [edgeWriteFold_cons, edgeWriteFold_read_miss _ _ _ _ _ hmiss]
      exact edgeRead_updN_edge_self _ _ _ _ _ nd hnd
    · rw [edgeWriteFold_cons]
      have hst : chainLt (akeys rest) = true := by
        have := chainLt_tail (q.1) (akeys rest) (by simpa [akeys] using hsql)
        exact this
      exact ih _ (skelEq_updN_edge hsk hsort (k + 1) q.2 q.1 (orient_count q.1 dn)) hst hm

theorem stageFold_read_miss (k : Nat) (L : List (Nat × CNode)) (cid : Nat) (a : Int)
    (hmiss : ∀ p ∈ L, (a, cid) ∉ p.2.up) :
    ∀ (acc : Cplx),
      edgeRead (stageFold k L acc) (k + 1) cid a = edgeRead acc (k + 1) cid a := by
  induction L with
  | nil => intro acc; rfl
  | cons p t ih =>
    intro acc
    rw [stageFold_cons, ih (fun r hr => hmiss r (List.mem_cons_of_mem _ hr)),
      edgeWriteFold_read_miss _ _ _ _ _ (hmiss p (List.mem_cons_self ..))]

theorem stageFold_read_hit {C0 : Cplx}
    (hsort : ∀ j, chainLt ((C0.tbl j).map Prod.fst) = true)
    (k : Nat) (cid : Nat) (a : Int)
    (hpres : (alookup cid (C0.tbl (k + 1))).isSome = true) :
    ∀ (L : List (Nat × CNode)) (p : Nat × CNode) (acc : Cplx), SkelEq C0 acc →
      (∀ r ∈ L, chainLt (akeys r.2.up) = true) →
      p ∈ L → (a, cid) ∈ p.2.up →
      (∀ r ∈ L, (a, cid) ∈ r.2.up → akeys r.2.down = akeys p.2.down) →
      edgeRead (stageFold k L acc) (k + 1) cid a =
        some (orient_count a (akeys p.2.down)) := by
  intro L
  induction L with
  | nil => intro p acc _ _ hm; cases hm
  | cons r t ih =>
    intro p acc hsk hsup hm hw hlastd
    rw [stageFold_cons]
    have hsk2 : SkelEq C0 (edgeWriteFold k (akeys r.2.down) r.2.up acc) :=
      edgeWriteFold_skel hsort k (akeys r.2.down) r.2.up hsk
    by_cases hwt : ∃ r' ∈ t, (a, cid) ∈ r'.2.up
    · obtain ⟨r', hr't, hr'w⟩ := hwt
      have hdeq : akeys r'.2.down = akeys p.2.down :=
        hlastd r' (List.mem_cons_of_mem _ hr't) hr'w
      rw [← hdeq]
      exact ih r' _ hsk2 (fun s hs => hsup s (List.mem_cons_of_mem _ hs)) hr't hr'w
        (fun s hs hsw => (hlastd s (List.mem_cons_of_mem _ hs) hsw).trans hdeq.symm)
    · push_neg at hwt
      rw [stageFold_read_miss _ _ _ _ hwt]
      rcases List.mem_cons.1 hm with hpr | hpt
      · subst hpr
        exact edgeWriteFold_read_hit hsort k (akeys p.2.down) cid a hpres
          p.2.up acc hsk (hsup p (List.mem_cons_self ..)) hw
      · exact absurd hw (hwt p hpt)

theorem init_at_read_other (C : Cplx) (k jl cid : Nat) (b : Int) (hj : jl ≠ k + 1) :
    edgeRead (init_orientation_at C k) jl cid b = edgeRead C jl cid b := by
  rw [init_orientation_at_eq]
  exact stageFold_read_other _ _ _ _ _ hj C

theorem init_at_skel {C0 C' : Cplx}
    (hsort : ∀ j, chainLt ((C0.tbl j).map Prod.fst) = true)
    (hsk : SkelEq C0 C') (k : Nat) : SkelEq C0 (init_orientation_at C' k) := by
  rw [init_orientation_at_eq]
  exact stageFold_skel hsort k _ hsk

theorem go_read_after (cid : Nat) (a : Int) (k : Nat) :
    ∀ (f kcur : Nat) (Ck : Cplx), k < kcur →
      edgeRead (init_orientation_go f Ck kcur) (k + 1) cid a =
        edgeRead Ck (k + 1) cid a := by
  intro f
  induction f with
  | zero => intro kcur Ck _; rfl
  | succ f ih =>
    intro kcur Ck hlt
    simp only [init_orientation_go]
    rw [ih (kcur + 1) _ (by omega), init_at_read_other _ _ _ _ _ (by omega)]

theorem mem_of_map_eq {α β : Type} {g : α → β} {l l' : List α}
    (h : l'.map g = l.map g) {x : α} (hx : x ∈ l) : ∃ x' ∈ l', g x' = g x := by
  have h1 : g x ∈ l.map g := List.mem_map_of_mem g hx
  rw [← h] at h1
  obtain ⟨x', hx', hgx⟩ := List.mem_map.1 h1
  exact ⟨x', hx', hgx⟩

theorem skel_transfer_writer {C0 Ck : Cplx} (hsk : SkelEq C0 Ck) (k id : Nat) (nd : CNode)
    (hmem0 : (id, nd) ∈ C0.tbl k) :
    ∃ nd', (id, nd') ∈ Ck.tbl k ∧ nd'.down = nd.down ∧ nd'.up = nd.up := by
  obtain ⟨x', hx', hg⟩ := mem_of_map_eq (hsk.2.2 k) hmem0
  have h1 : x'.1 = id := congrArg (fun y => y.1) hg
  refine ⟨x'.2, ?_, congrArg (fun y => y.2.1) hg, congrArg (fun y => y.2.2) hg⟩
  rw [← h1]
  exact hx'

theorem go_read_reach {C0 : Cplx}
    (hsort : ∀ j, chainLt ((C0.tbl j).map Prod.fst) = true)
    (k cid id : Nat) (a : Int) (nd : CNode)
    (hnd0 : alookup id (C0.tbl k) = some nd) (hw0 : (a, cid) ∈ nd.up)
    (hpres : (alookup cid (C0.tbl (k + 1))).isSome = true)
    (hsup0 : ∀ r ∈ C0.tbl k, chainLt (akeys r.2.up) = true)
    (huniq0 : ∀ r ∈ C0.tbl k, (a, cid) ∈ r.2.up → r.1 = id) :
    ∀ (f kcur : Nat) (Ck : Cplx), SkelEq C0 Ck → kcur ≤ k → k < kcur + f →
      edgeRead (init_orientation_go f Ck kcur) (k + 1) cid a =
        some (orient_count a (akeys nd.down)) := by
  intro f
  induction f with
  | zero => intro kcur Ck _ h1 h2; omega
  | succ f ih =>
    intro kcur Ck hsk hle hlt
    simp only [init_orientation_go]
    by_cases hkc : kcur = k
    · subst hkc
      rw [go_read_after _ _ _ _ _ _ (by omega), init_orientation_at_eq]
      obtain ⟨nd', hmem', hd', hu'⟩ :=
        skel_transfer_writer hsk kcur id nd (alookup_mem hnd0)
      have hval : akeys nd.down = akeys (id, nd').2.down := by rw [hd']
      rw [hval]
      refine stageFold_read_hit hsort kcur cid a hpres (Ck.tbl kcur) (id, nd') Ck hsk
        ?_ hmem' (by rw [hu']; exact hw0) ?_
      · intro r hr
        obtain ⟨r0, hr0, hg⟩ := mem_of_map_eq (hsk.2.2 kcur).symm hr
        have hueq : r.2.up = r0.2.up := (congrArg (fun y => y.2.2) hg).symm
        rw [hueq]
        exact hsup0 r0 hr0
      · intro r hr hrw
        obtain ⟨r0, hr0, hg⟩ := mem_of_map_eq (hsk.2.2 kcur).symm hr
        have hueq : r0.2.up = r.2.up := congrArg (fun y => y.2.2) hg
        have hdeq : r0.2.down = r.2.down := congrArg (fun y => y.2.1) hg
        have hid : r0.1 = id := huniq0 r0 hr0 (by rw [hueq]; exact hrw)
        have hrv : r0.2 = nd := value_unique_of_sorted (hsort kcur) hnd0 r0 hr0 hid
        rw [← hdeq, hrv, ← hd']
    · exact ih (kcur + 1) (init_orientation_at Ck kcur)
        (init_at_skel hsort hsk kcur) (by omega) (by omega)

theorem orient_count_parity (a : Int) (N : List Int) (hs : chainLt N = true) :
    orient_count a N = (-1 : Int) ^ (N.countP (fun b => decide (b < a))) := by
  induction N with
  | nil => simp [orient_count]
  | cons b rest ih =>
    by_cases hb : a > b
    · rw [orient_count, if_pos hb, ih (chainLt_tail _ _ hs)]
      have hblt : (fun x => decide (x < a)) b = true := by simpa using hb
      simp only [List.countP_cons, hblt, if_pos]
      rw [pow_succ]
      ring
    · rw [orient_count, if_neg hb]
      have hall : ∀ x ∈ rest, b < x := chainLt_all _ _ hs
      have hz : (b :: rest).countP (fun x => decide (x < a)) = 0 := by
        rw [List.countP_eq_zero]
        intro x hx
        rcases List.mem_cons.1 hx with hx | hx
        · subst hx
          simpa using hb
        · have h1 : b < x := hall x hx
          have h2 : ¬ b < a := hb
          simp only [decide_eq_true_eq]
          omega
      rw [hz, pow_zero]

/-- C7: for every canonical complex, `init_orientation` stores on the edge
keyed `a` from a non-facet node `n` at dimension `k` (with name key list
`N = akeys n.down`) to its coboundary neighbour `n.up(a)` the sign
`(-1)^|{b ∈ N | b < a}|`, the parity of the insertion position of `a` in
the sorted name. -/
theorem claim_C7 (C : Cplx) (hc : canonB C = true) (k id : Nat) (a : Int) (cid : Nat)
    (hpres : (alookup id (C.tbl k)).isSome = true)
    (hup : (a, cid) ∈ (C.getN k id).up) :
    alookup a ((init_orientation C).getN (k + 1) cid).edgeOrient =
      some ((-1 : Int) ^ ((akeys (C.getN k id).down).countP (fun b => decide (b < a)))) := by
  obtain ⟨nd, hnd⟩ := Option.isSome_iff_exists.1 hpres
  have hgetN : C.getN k id = nd := by
    unfold Cplx.getN
    rw [hnd]
    rfl
  rw [hgetN] at hup
  rw [hgetN]
  have hlen := canon_len hc
  have hkle : k < C.topLevel + 1 := by
    by_contra hge
    rw [alookup_none_of_ge_length (by omega)] at hnd
    simp [alookup] at hnd
  have htbl := canon_tblOK hc k hkle
  have hnOK := tblOK_nodeOK htbl (alookup_mem hnd)
  have hktop : k ≠ C.topLevel := by
    intro hk
    rw [nodeOK_top_up_empty hnOK hk] at hup
    cases hup
  obtain ⟨cnd, hcnd, hcd⟩ := nodeOK_up_coh hnOK hup
  have hsort : ∀ j, chainLt ((C.tbl j).map Prod.fst) = true := by
    intro j
    by_cases hj : j < C.topLevel + 1
    · exact tblOK_sorted (canon_tblOK hc j hj)
    · rw [alookup_none_of_ge_length (by omega)]
      rfl
  have hsup0 : ∀ r ∈ C.tbl k, chainLt (akeys r.2.up) = true := by
    intro r hr
    exact nodeOK_up_sorted (tblOK_nodeOK htbl hr)
  have huniq0 : ∀ r ∈ C.tbl k, (a, cid) ∈ r.2.up → r.1 = id := by
    intro r hr hw
    obtain ⟨cnd2, hcnd2, hcd2⟩ := nodeOK_up_coh (tblOK_nodeOK htbl hr) hw
    rw [hcnd] at hcnd2
    have hceq : cnd2 = cnd := (Option.some.inj hcnd2).symm
    rw [hceq, hcd] at hcd2
    exact (Option.some.inj hcd2).symm
  have hpresc : (alookup cid (C.tbl (k + 1))).isSome = true := by
    rw [hcnd]
    rfl
  have hread := go_read_reach hsort k cid id a nd hnd hup hpresc hsup0 huniq0
    C.topLevel 0 C (skelEq_refl C) (Nat.zero_le k) (by omega)
  have hparity := orient_count_parity a (akeys nd.down) (nodeOK_down_sorted hnOK)
  show edgeRead (init_orientation C) (k + 1) cid a = _
  have hgo : init_orientation C = init_orientation_go C.topLevel C 0 := rfl
  rw [hgo, hread, hparity]

/-- Witness for C7: on the canonical complex `rtE` (fresh three-dimensional
complex after `insert([1,2])`), the vertex named `[2]` (id 2, dimension 1)
has the coboundary key 1 pointing at the edge simplex id 3, and
`init_orientation` stores `(-1)^0 = 1` there. -/
theorem claim_C7_witness :
    alookup 1 ((init_orientation rtE).getN (1 + 1) 3).edgeOrient =
      some ((-1 : Int) ^
        ((akeys (rtE.getN 1 2).down).countP (fun b => decide (b < (1 : Int))))) :=
  claim_C7 rtE (by decide) 1 2 1 3 (by decide) (by decide)

theorem chainLt_iff_pairwise [LinearOrder κ] (l : List κ) :
    chainLt l = true ↔ l.Pairwise (· < ·) := by
  induction l with
  | nil => simp [chainLt]
  | cons x t ih =>
    rw [List.pairwise_cons]
    constructor
    · intro h
      exact ⟨chainLt_all x t h, ih.1 (chainLt_tail x t h)⟩
    · rintro ⟨h1, h2⟩
      cases t with
      | nil => rfl
      | cons y r =>
        simp only [chainLt, Bool.and_eq_true, decide_eq_true_eq]
        exact ⟨h1 y (List.mem_cons_self ..), ih.2 h2⟩

theorem nodup_of_chainLt [LinearOrder κ] {l : List κ} (h : chainLt l = true) :
    l.Nodup :=
  ((chainLt_iff_pairwise l).1 h).imp ne_of_lt

theorem chainLt_erase [LinearOrder κ] {l : List κ} (h : chainLt l = true) (w : κ) :
    chainLt (l.erase w) = true := by
  rw [chainLt_iff_pairwise]
  exact ((chainLt_iff_pairwise l).1 h).sublist (List.erase_sublist w l)

theorem sorted_ext [LinearOrder κ] {l m : List κ} (hl : chainLt l = true)
    (hm : chainLt m = true) (h : ∀ a, a ∈ l ↔ a ∈ m) : l = m := by
  induction l generalizing m with
  | nil =>
    cases m with
    | nil => rfl
    | cons y r => exact absurd ((h y).2 (List.mem_cons_self ..)) (List.not_mem_nil y)
  | cons x t ih =>
    cases m with
    | nil => exact absurd ((h x).1 (List.mem_cons_self ..)) (List.not_mem_nil x)
    | cons y r =>
      have hx : x = y := by
        rcases List.mem_cons.1 ((h x).1 (List.mem_cons_self ..)) with h1 | h1
        · exact h1
        · have hyx : y < x := chainLt_all _ _ hm x h1
          rcases List.mem_cons.1 ((h y).2 (List.mem_cons_self ..)) with h2 | h2
          · exact h2.symm
          · have hxy : x < y := chainLt_all _ _ hl y h2
            exact absurd (lt_trans hxy hyx) (lt_irrefl _)
      subst hx
      have htr : t = r := by
        refine ih (chainLt_tail _ _ hl) (chainLt_tail _ _ hm) ?_
        intro a
        constructor
        · intro ha
          rcases List.mem_cons.1 ((h a).1 (List.mem_cons_of_mem _ ha)) with h1 | h1
          · exfalso
            have hlt := chainLt_all _ _ hl a ha
            rw [h1] at hlt
            exact lt_irrefl _ hlt
          · exact h1
        · intro ha
          rcases List.mem_cons.1 ((h a).2 (List.mem_cons_of_mem _ ha)) with h1 | h1
          · exfalso
            have hlt := chainLt_all _ _ hm a ha
            rw [h1] at hlt
            exact lt_irrefl _ hlt
          · exact h1
      rw [htr]

theorem mem_skeyIns [LinearOrder κ] (a x : κ) (l : List κ) :
    a ∈ skeyIns x l ↔ a = x ∨ a ∈ l := by
  induction l with
  | nil => simp [skeyIns]
  | cons y t ih =>
    by_cases h1 : x < y
    · simp [skeyIns, if_pos h1]
    · by_cases h2 : x = y
      · subst h2
        simp only [skeyIns, if_neg h1, if_pos rfl]
        constructor
        · intro h
          rcases List.mem_cons.1 h with h | h
          · exact Or.inl h
          · exact Or.inr (List.mem_cons_of_mem _ h)
        · intro h
          rcases h with h | h
          · exact h ▸ List.mem_cons_self ..
          · rcases List.mem_cons.1 h with h | h
            · exact h ▸ List.mem_cons_self ..
            · exact List.mem_cons_of_mem _ h
      · simp only [skeyIns, if_neg h1, if_neg h2, List.mem_cons, ih]
        constructor
        · rintro (h | h | h)
          · exact Or.inr (Or.inl h)
          · exact Or.inl h
          · exact Or.inr (Or.inr h)
        · rintro (h | h | h)
          · exact Or.inr (Or.inl h)
          · exact Or.inl h
          · exact Or.inr (Or.inr h)

theorem skeyIns_head [LinearOrder κ] (x : κ) (l : List κ) (w : κ)
    (h : (skeyIns x l).head? = some w) : w = x ∨ l.head? = some w := by
  cases l with
  | nil =>
    simp only [skeyIns, List.head?_cons] at h
    exact Or.inl (Option.some.inj h).symm
  | cons y t =>
    by_cases h1 : x < y
    · simp only [skeyIns, if_pos h1, List.head?_cons] at h
      exact Or.inl (Option.some.inj h).symm
    · by_cases h2 : x = y
      · simp only [skeyIns, if_neg h1, if_pos h2, List.head?_cons] at h
        exact Or.inl (Option.some.inj h).symm
      · simp only [skeyIns, if_neg h1, if_neg h2, List.head?_cons] at h
        exact Or.inr (by rw [List.head?_cons, h])

theorem chainLt_skeyIns [LinearOrder κ] (x : κ) (l : List κ) (h : chainLt l = true) :
    chainLt (skeyIns x l) = true := by
  induction l with
  | nil => simp [skeyIns, chainLt]
  | cons y t ih =>
    have ht : chainLt t = true := chainLt_tail y t h
    by_cases h1 : x < y
    · simp only [skeyIns, if_pos h1]
      rw [chainLt_cons_iff]
      exact ⟨h, fun w hw => by
        rw [List.head?_cons] at hw
        rw [(Option.some.inj hw).symm]
        exact h1⟩
    · by_cases h2 : x = y
      · simp only [skeyIns, if_neg h1, if_pos h2]
        rw [chainLt_cons_iff] at h ⊢
        exact ⟨h.1, fun w hw => h2 ▸ h.2 w hw⟩
      · simp only [skeyIns, if_neg h1, if_neg h2]
        rw [chainLt_cons_iff]
        refine ⟨ih ht, fun w hw => ?_⟩
        rcases skeyIns_head x t w hw with hw | hw
        · rw [hw]
          rcases lt_trichotomy x y with hlt | heq | hgt
          · exact absurd hlt h1
          · exact absurd heq h2
          · exact hgt
        · exact (chainLt_cons_iff y t).1 h |>.2 w hw

theorem length_skeyIns_of_not_mem [LinearOrder κ] (x : κ) (l : List κ) (hx : x ∉ l) :
    (skeyIns x l).length = l.length + 1 := by
  induction l with
  | nil => rfl
  | cons y t ih =>
    by_cases h1 : x < y
    · simp [skeyIns, if_pos h1]
    · by_cases h2 : x = y
      · exact absurd (h2 ▸ List.mem_cons_self ..) hx
      · simp only [skeyIns, if_neg h1, if_neg h2, List.length_cons]
        rw [ih (fun hmem => hx (List.mem_cons_of_mem _ hmem))]

theorem akeys_ainsert [LinearOrder κ] (k : κ) (v : α) (l : List (κ × α)) :
    akeys (ainsert k v l) = skeyIns k (akeys l) := by
  induction l with
  | nil => rfl
  | cons p t ih =>
    obtain ⟨k', v'⟩ := p
    by_cases h1 : k < k'
    · simp [ainsert, akeys, skeyIns, if_pos h1]
    · by_cases h2 : k = k'
      · simp [ainsert, akeys, skeyIns, if_neg h1, if_pos h2]
      · simp only [ainsert, if_neg h1, if_neg h2]
        show k' :: akeys (ainsert k v t) = skeyIns k (k' :: akeys t)
        simp only [skeyIns, if_neg h1, if_neg h2]
        exact congrArg (List.cons k') ih

theorem akeys_aerase [DecidableEq κ] (k : κ) (l : List (κ × α)) :
    akeys (aerase k l) = (akeys l).erase k := by
  induction l with
  | nil => rfl
  | cons p t ih =>
    obtain ⟨k', v'⟩ := p
    by_cases h : k' = k
    · simp [aerase, akeys, if_pos h, List.erase_cons, h]
    · simp only [aerase, if_neg h, akeys, List.map, List.erase_cons]
      have hb : ¬((k' == k) = true) := by simpa using h
      rw [if_neg hb]
      exact congrArg (List.cons k') ih

theorem skeyIns_erase_self [LinearOrder κ] (x : κ) (l : List κ) (hx : x ∉ l) :
    (skeyIns x l).erase x = l := by
  induction l with
  | nil => simp [skeyIns]
  | cons y t ih =>
    by_cases h1 : x < y
    · simp [skeyIns, if_pos h1, List.erase_cons]
    · by_cases h2 : x = y
      · exact absurd (h2 ▸ List.mem_cons_self ..) hx
      · have hyx : y ≠ x := fun hh => h2 hh.symm
        simp only [skeyIns, if_neg h1, if_neg h2, List.erase_cons]
        rw [ih (fun hmem => hx (List.mem_cons_of_mem _ hmem))]
        have hb : ¬((y == x) = true) := by simpa using hyx
        rw [if_neg hb]

theorem erase_skeyIns_comm [LinearOrder κ] (x w : κ) (l : List κ)
    (hne : w ≠ x) (hl : chainLt l = true) :
    (skeyIns x l).erase w = skeyIns x (l.erase w) := by
  have hs1 : chainLt ((skeyIns x l).erase w) = true :=
    chainLt_erase (chainLt_skeyIns x l hl) w
  have hs2 : chainLt (skeyIns x (l.erase w)) = true :=
    chainLt_skeyIns x _ (chainLt_erase hl w)
  refine sorted_ext hs1 hs2 ?_
  intro a
  rw [(nodup_of_chainLt (chainLt_skeyIns x l hl)).mem_erase_iff, mem_skeyIns,
    mem_skeyIns, (nodup_of_chainLt hl).mem_erase_iff]
  constructor
  · rintro ⟨haw, ha | ha⟩
    · exact Or.inl ha
    · exact Or.inr ⟨haw, ha⟩
  · rintro (ha | ⟨haw, ha⟩)
    · exact ⟨fun haw2 => hne (haw2 ▸ ha), Or.inl ha⟩
    · exact ⟨haw, Or.inr ha⟩

theorem nodeOK_iff (C : Cplx) (k id : Nat) (nd : CNode) :
    nodeOK C k id nd = true ↔ NodeP C k id nd := by
  constructor
  · intro h
    refine ⟨nodeOK_down_sorted h, nodeOK_up_sorted h, nodeOK_down_len h,
      fun hk => nodeOK_top_up_empty h hk, ?_, ?_⟩
    · intro p hp
      have hp' : ((p.1, p.2) : Int × Nat) ∈ nd.down := hp
      exact nodeOK_down_coh h hp'
    · intro q hq
      have hq' : ((q.1, q.2) : Int × Nat) ∈ nd.up := hq
      exact nodeOK_up_coh h hq'
  · rintro ⟨h1, h2, h3, h4, h5, h6⟩
    simp only [nodeOK, Bool.and_eq_true, List.all_eq_true]
    refine ⟨⟨⟨⟨⟨h1, h2⟩, by simpa using h3⟩, ?_⟩, ?_⟩, ?_⟩
    · by_cases hk : k = C.topLevel
      · rw [if_pos (by simpa using hk)]
        simpa using h4 hk
      · rw [if_neg (by simpa using hk)]
    · intro p hp
      obtain ⟨pnd, hpn, hup, hnm⟩ := h5 p hp
      have hshow : (match alookup p.2 (C.tbl (k - 1)) with
          | some pnd =>
            (alookup p.1 pnd.up == some id) &&
            (akeys pnd.down == (akeys nd.down).erase p.1)
          | none => false) = true := by
        rw [hpn]
        simp [hup, hnm]
      exact hshow
    · intro q hq
      obtain ⟨cnd, hcn, hdn⟩ := h6 q hq
      have hshow : (match alookup q.2 (C.tbl (k + 1)) with
          | some cnd => alookup q.1 cnd.down == some id
          | none => false) = true := by
        rw [hcn]
        simp [hdn]
      exact hshow

theorem tblOK_iff (C : Cplx) (k : Nat) : tblOK C k = true ↔ TblP C k := by
  constructor
  · intro h
    refine ⟨tblOK_sorted h, ?_, ?_⟩
    · intro p hp
      have hp' : ((p.1, p.2) : Nat × CNode) ∈ C.tbl k := hp
      have hn := tblOK_nodeOK h hp'
      simp only [tblOK, Bool.and_eq_true, List.all_eq_true] at h
      exact ⟨by simpa using (h.1.2 p hp).1, (nodeOK_iff ..).1 hn⟩
    · intro p hp q hq hd
      have hp' : ((p.1, p.2) : Nat × CNode) ∈ C.tbl k := hp
      have hq' : ((q.1, q.2) : Nat × CNode) ∈ C.tbl k := hq
      exact tblOK_inj h hp' hq' hd
  · rintro ⟨h1, h2, h3⟩
    simp only [tblOK, Bool.and_eq_true, List.all_eq_true]
    refine ⟨⟨h1, ?_⟩, ?_⟩
    · intro p hp
      exact ⟨by simpa using (h2 p hp).1, (nodeOK_iff ..).2 (h2 p hp).2⟩
    · intro p hp q hq
      by_cases hd : akeys p.2.down = akeys q.2.down
      · simp [hd, h3 p hp q hq hd]
      · simp [hd]

theorem canonB_iff (C : Cplx) : canonB C = true ↔ CanonP C := by
  constructor
  · intro h
    refine ⟨canon_len h, ?_, ?_, fun k hk => (tblOK_iff ..).1 (canon_tblOK h k hk)⟩
    · simp only [canonB, Bool.and_eq_true, beq_iff_eq] at h
      exact h.1.1.2
    · simp only [canonB, Bool.and_eq_true, beq_iff_eq] at h
      exact h.1.2
  · rintro ⟨h1, h2, h3, h4⟩
    simp only [canonB, Bool.and_eq_true, beq_iff_eq, List.all_eq_true]
    exact ⟨⟨⟨h1, h2⟩, h3⟩, fun k hk => (tblOK_iff ..).2 (h4 k (List.mem_range.1 hk))⟩

/-- The canonical invariant implies the mutual-consistency property of C2. -/
theorem mutualB_of_canon {C : Cplx} (h : CanonP C) : mutualB C = true := by
  simp only [mutualB, List.all_eq_true, Bool.and_eq_true]
  intro k hk p hp
  obtain ⟨_, hnp⟩ := (h.2.2.2 k (List.mem_range.1 hk)).2.1 p hp
  constructor
  · intro e he
    obtain ⟨pnd, hpn, hup, _⟩ := hnp.2.2.2.2.1 e he
    unfold Cplx.getN
    rw [hpn]
    simpa using hup
  · intro e he
    obtain ⟨cnd, hcn, hdn⟩ := hnp.2.2.2.2.2 e he
    unfold Cplx.getN
    rw [hcn]
    simpa using hdn

/-! ## Pointwise association-list facts and state-evolution notions -/

theorem alookup_isSome_iff_mem [DecidableEq κ] (k : κ) (l : List (κ × α)) :
    (alookup k l).isSome = true ↔ k ∈ akeys l := by
  induction l with
  | nil => simp [alookup, akeys]
  | cons p t ih =>
    by_cases h : p.1 = k
    · simp [alookup, if_pos h, akeys, h.symm]
    · simp only [alookup, if_neg h, akeys, List.map, List.mem_cons, ih]
      constructor
      · intro hh
        exact Or.inr hh
      · rintro (hh | hh)
        · exact absurd hh.symm h
        · exact hh

theorem mem_akeys_of_alookup [DecidableEq κ] {k : κ} {v : α} {l : List (κ × α)}
    (h : alookup k l = some v) : k ∈ akeys l :=
  (alookup_isSome_iff_mem k l).1 (by rw [h]; rfl)

theorem alookup_of_mem_sorted [LinearOrder κ] {l : List (κ × α)}
    (hs : chainLt (akeys l) = true) {p : κ × α} (hp : p ∈ l) :
    alookup p.1 l = some p.2 := by
  induction l with
  | nil => cases hp
  | cons q t ih =>
    rcases List.mem_cons.1 hp with hp | hp
    · subst hp
      rw [alookup, if_pos rfl]
    · have hne : q.1 ≠ p.1 := by
        intro he
        have hall : ∀ x ∈ akeys t, q.1 < x := chainLt_all _ _ (by simpa [akeys] using hs)
        have : q.1 < p.1 := hall p.1 (List.mem_map_of_mem _ hp)
        rw [he] at this
        exact lt_irrefl _ this
      rw [alookup, if_neg hne]
      exact ih (chainLt_tail _ _ (by simpa [akeys] using hs)) hp

theorem alookup_aerase [DecidableEq κ] (i k : κ) (l : List (κ × α))
    (hnd : (akeys l).Nodup) :
    alookup i (aerase k l) = if i = k then none else alookup i l := by
  induction l with
  | nil => simp [aerase, alookup]
  | cons p t ih =>
    have hnd' : (akeys t).Nodup := (List.nodup_cons.1 (by simpa [akeys] using hnd)).2
    have hpk : p.1 ∉ akeys t := (List.nodup_cons.1 (by simpa [akeys] using hnd)).1
    by_cases h : p.1 = k
    · subst h
      rw [aerase, if_pos rfl]
      by_cases hik : i = p.1
      · subst hik
        rw [if_pos rfl]
        cases hl : alookup p.1 t with
        | none => rfl
        | some v => exact absurd (mem_akeys_of_alookup hl) hpk
      · rw [if_neg hik, alookup, if_neg (fun hh : p.1 = i => hik hh.symm)]
    · rw [aerase, if_neg h]
      by_cases hip : p.1 = i
      · subst hip
        rw [alookup, if_pos rfl, if_neg (fun hh : p.1 = k => h hh), alookup, if_pos rfl]
      · rw [alookup, if_neg hip, ih hnd', alookup, if_neg hip]

theorem Stable.rfl' (C : Cplx) : Stable C C :=
  ⟨rfl, rfl, le_refl _, fun _ _ nd h => ⟨nd, h, rfl⟩⟩

theorem Stable.trans' {C1 C2 C3 : Cplx} (h1 : Stable C1 C2) (h2 : Stable C2 C3) :
    Stable C1 C3 := by
  refine ⟨h2.1.trans h1.1, h2.2.1.trans h1.2.1, le_trans h1.2.2.1 h2.2.2.1, ?_⟩
  intro k id nd h
  obtain ⟨nd', h', hd'⟩ := h1.2.2.2 k id nd h
  obtain ⟨nd'', h'', hd''⟩ := h2.2.2.2 k id nd' h'
  exact ⟨nd'', h'', hd''.trans hd'⟩

theorem HasName_mono {C C' : Cplx} (h : Stable C C') {k : Nat} {X : List Int}
    (hn : HasName C k X) : HasName C' k X := by
  obtain ⟨id, nd, hl, hk⟩ := hn
  obtain ⟨nd', hl', hd'⟩ := h.2.2.2 k id nd hl
  exact ⟨id, nd', hl', by rw [hd', hk]⟩

theorem keysUnion_nil (X : List Int) : keysUnion [] X = X := rfl

theorem keysUnion_cons (a : Int) (T X : List Int) :
    keysUnion (a :: T) X = skeyIns a (keysUnion T X) := rfl

theorem keysUnion_append (T1 T2 X : List Int) :
    keysUnion (T1 ++ T2) X = keysUnion T1 (keysUnion T2 X) := by
  simp [keysUnion, List.foldr_append]

theorem chainLt_keysUnion (T X : List Int) (h : chainLt X = true) :
    chainLt (keysUnion T X) = true := by
  induction T with
  | nil => exact h
  | cons a t ih => exact chainLt_skeyIns a _ ih

theorem mem_keysUnion (a : Int) (T X : List Int) :
    a ∈ keysUnion T X ↔ a ∈ T ∨ a ∈ X := by
  induction T with
  | nil => simp [keysUnion]
  | cons b t ih =>
    rw [keysUnion_cons, mem_skeyIns, ih]
    constructor
    · rintro (h | h | h)
      · exact Or.inl (h ▸ List.mem_cons_self ..)
      · exact Or.inl (List.mem_cons_of_mem _ h)
      · exact Or.inr h
    · rintro (h | h)
      · rcases List.mem_cons.1 h with h | h
        · exact Or.inl h
        · exact Or.inr (Or.inl h)
      · exact Or.inr (Or.inr h)

theorem take_succ_getD (s : List Int) (n : Nat) (hn : n < s.length) :
    s.take (n + 1) = s.take n ++ [s.getD n 0] := by
  induction s generalizing n with
  | nil => cases hn
  | cons x t ih =>
    cases n with
    | zero => rfl
    | succ m =>
      simp only [List.take, List.getD, List.get?]
      rw [List.cons_append, List.cons.injEq]
      refine ⟨rfl, ?_⟩
      have := ih m (by simpa using hn)
      simpa [List.getD] using this

theorem skeyIns_skeyIns_same [LinearOrder κ] (x : κ) (l : List κ) :
    skeyIns x (skeyIns x l) = skeyIns x l := by
  induction l with
  | nil => simp [skeyIns]
  | cons y t ih =>
    by_cases h1 : x < y
    · simp [skeyIns, if_pos h1, lt_irrefl]
    · by_cases h2 : x = y
      · simp [skeyIns, if_neg h1, if_pos h2, lt_irrefl]
      · simp only [skeyIns, if_neg h1, if_neg h2]
        simp only [skeyIns, if_neg h1, if_neg h2, List.cons.injEq, true_and]
        exact ih

theorem map_fst_ainsert_present [LinearOrder κ] (k : κ) (v : α) (l : List (κ × α))
    (hs : chainLt (l.map Prod.fst) = true) (hp : (alookup k l).isSome = true) :
    (ainsert k v l).map Prod.fst = l.map Prod.fst := by
  rw [ainsert_of_present k v l hs hp]
  exact akeys_map_replace k v l

theorem akeys_eq_map_fst (l : List (κ × α)) : akeys l = l.map Prod.fst := rfl

theorem length_akeys (l : List (κ × α)) : (akeys l).length = l.length :=
  List.length_map l _

/-! ## Facts derived from the canonical invariant -/

theorem canon_node {C : Cplx} (hC : CanonP C) {k id : Nat} {nd : CNode}
    (h : alookup id (C.tbl k) = some nd) :
    k ≤ C.topLevel ∧ id < C.nodeCount ∧ NodeP C k id nd := by
  have hlen : C.levels.length = C.topLevel + 1 := hC.1
  have hk : k < C.topLevel + 1 := by
    by_contra hge
    rw [alookup_none_of_ge_length (by omega)] at h
    cases h
  have htp := hC.2.2.2 k hk
  have hfact := htp.2.1 (id, nd) (alookup_mem h)
  exact ⟨by omega, hfact.1, hfact.2⟩

theorem canon_sorted {C : Cplx} (hC : CanonP C) (k : Nat) :
    chainLt ((C.tbl k).map Prod.fst) = true := by
  have hlen : C.levels.length = C.topLevel + 1 := hC.1
  by_cases hk : k < C.topLevel + 1
  · exact (hC.2.2.2 k hk).1
  · rw [alookup_none_of_ge_length (by omega)]
    rfl

theorem canon_inj {C : Cplx} (hC : CanonP C) {k id1 id2 : Nat} {n1 n2 : CNode}
    (h1 : alookup id1 (C.tbl k) = some n1) (h2 : alookup id2 (C.tbl k) = some n2)
    (hn : akeys n1.down = akeys n2.down) : id1 = id2 := by
  have hk : k < C.topLevel + 1 := by
    have := canon_node hC h1
    omega
  exact (hC.2.2.2 k hk).2.2 (id1, n1) (alookup_mem h1) (id2, n2) (alookup_mem h2) hn

theorem canon_root {C : Cplx} (hC : CanonP C) :
    ∃ rnd0, alookup 0 (C.tbl 0) = some rnd0 ∧ rnd0.down = [] := by
  have hkeys := hC.2.1
  have h0 : (0 : Nat) ∈ (C.tbl 0).map Prod.fst := by
    rw [hkeys]
    exact List.mem_cons_self ..
  have hs : (alookup 0 (C.tbl 0)).isSome = true := (alookup_isSome_iff_mem 0 _).2 h0
  obtain ⟨rnd0, hr⟩ := Option.isSome_iff_exists.1 hs
  refine ⟨rnd0, hr, ?_⟩
  have := hC.2.2.1
  unfold Cplx.getN at this
  rw [hr] at this
  exact this

theorem canon_only_root {C : Cplx} (hC : CanonP C) {id : Nat} {nd : CNode}
    (h : alookup id (C.tbl 0) = some nd) : id = 0 := by
  have := mem_akeys_of_alookup h
  rw [akeys_eq_map_fst, hC.2.1] at this
  simpa using this

/-- The name of a simplex in a canonical complex determines it: the key of a
registered coboundary entry recovers the child's name. -/
theorem canon_child_name {C : Cplx} (hC : CanonP C) {lv rootId : Nat} {rnd : CNode}
    (hroot : alookup rootId (C.tbl lv) = some rnd) {v : Int} {cid : Nat}
    (hup : alookup v rnd.up = some cid) :
    ∃ cnd, alookup cid (C.tbl (lv + 1)) = some cnd ∧
      akeys cnd.down = skeyIns v (akeys rnd.down) := by
  obtain ⟨_, _, hnp⟩ := canon_node hC hroot
  obtain ⟨cnd, hc0, hcd0⟩ := hnp.2.2.2.2.2 (v, cid) (alookup_mem hup)
  have hc : alookup cid (C.tbl (lv + 1)) = some cnd := hc0
  have hcd : alookup v cnd.down = some rootId := hcd0
  refine ⟨cnd, hc, ?_⟩
  obtain ⟨_, _, hnpc⟩ := canon_node hC hc
  have hmem : ((v, rootId) : Int × Nat) ∈ cnd.down := alookup_mem hcd
  obtain ⟨pnd, hp0, _, hpn0⟩ := hnpc.2.2.2.2.1 (v, rootId) hmem
  have hp : alookup rootId (C.tbl lv) = some pnd := hp0
  have hpn : akeys pnd.down = (akeys cnd.down).erase v := hpn0
  rw [hroot] at hp
  have hpr : pnd = rnd := (Option.some.inj hp).symm
  subst hpr
  have hvmem : v ∈ akeys cnd.down := mem_akeys_of_alookup hcd
  refine sorted_ext hnpc.1 (chainLt_skeyIns v _ hnp.1) ?_
  intro a
  rw [mem_skeyIns]
  constructor
  · intro ha
    by_cases hav : a = v
    · exact Or.inl hav
    · refine Or.inr ?_
      rw [hpn]
      exact (nodup_of_chainLt hnpc.1).mem_erase_iff.2 ⟨hav, ha⟩
  · rintro (ha | ha)
    · exact ha ▸ hvmem
    · rw [hpn] at ha
      exact ((nodup_of_chainLt hnpc.1).mem_erase_iff.1 ha).2

/-- In a canonical complex where `root` has no coboundary keyed `v`, no node
one dimension up carries the name `root ∪ {v}`. -/
theorem no_node_named_child {C : Cplx} (hC : CanonP C) {lv rootId : Nat} {rnd : CNode}
    (hroot : alookup rootId (C.tbl lv) = some rnd) {v : Int}
    (hv : v ∉ akeys rnd.down) (hnone : alookup v rnd.up = none)
    {id : Nat} {x : CNode} (hx : alookup id (C.tbl (lv + 1)) = some x) :
    akeys x.down ≠ skeyIns v (akeys rnd.down) := by
  intro hname
  obtain ⟨_, _, hnpx⟩ := canon_node hC hx
  have hvx : v ∈ akeys x.down := by
    rw [hname, mem_skeyIns]
    exact Or.inl rfl
  obtain ⟨qid, hq⟩ := Option.isSome_iff_exists.1 ((alookup_isSome_iff_mem v x.down).2 hvx)
  obtain ⟨qnd, hqn0, hqup0, hqname0⟩ := hnpx.2.2.2.2.1 (v, qid) (alookup_mem hq)
  have hqn : alookup qid (C.tbl lv) = some qnd := hqn0
  have hqup : alookup v qnd.up = some id := hqup0
  have hqname : akeys qnd.down = (akeys x.down).erase v := hqname0
  have hqname' : akeys qnd.down = akeys rnd.down := by
    rw [hqname, hname, skeyIns_erase_self v _ hv]
  have hqr : qid = rootId := canon_inj hC hqn hroot hqname'
  subst hqr
  rw [hroot] at hqn
  have hqrnd : qnd = rnd := (Option.some.inj hqn).symm
  subst hqrnd
  rw [hnone] at hqup
  cases hqup

/-- In the same situation, no sibling `root \ {w} ∪ {v}` carries a coboundary
keyed `w` (its coface would be the missing `root ∪ {v}`). -/
theorem no_up_key {C : Cplx} (hC : CanonP C) {lv rootId : Nat} {rnd : CNode}
    (hroot : alookup rootId (C.tbl lv) = some rnd) {v : Int}
    (hv : v ∉ akeys rnd.down) (hnone : alookup v rnd.up = none)
    {w : Int} (hw : w ∈ akeys rnd.down)
    {cid : Nat} {cnd : CNode} (hc : alookup cid (C.tbl lv) = some cnd)
    (hcn : akeys cnd.down = skeyIns v ((akeys rnd.down).erase w)) :
    alookup w cnd.up = none := by
  obtain ⟨_, _, hnpr⟩ := canon_node hC hroot
  obtain ⟨_, _, hnpc⟩ := canon_node hC hc
  cases hlup : alookup w cnd.up with
  | none => rfl
  | some xid =>
    exfalso
    obtain ⟨xnd, hxn0, hxd0⟩ := hnpc.2.2.2.2.2 (w, xid) (alookup_mem hlup)
    have hxn : alookup xid (C.tbl (lv + 1)) = some xnd := hxn0
    have hxd : alookup w xnd.down = some cid := hxd0
    have hwx : w ∈ akeys xnd.down := mem_akeys_of_alookup hxd
    obtain ⟨qnd, hq0, _, hqname0⟩ :=
      (canon_node hC hxn).2.2.2.2.2.2.1 (w, cid) (alookup_mem hxd)
    have hq : alookup cid (C.tbl lv) = some qnd := hq0
    have hqname : akeys qnd.down = (akeys xnd.down).erase w := hqname0
    rw [hc] at hq
    have hqc : qnd = cnd := (Option.some.inj hq).symm
    subst hqc
    have hxname : akeys xnd.down = skeyIns v (akeys rnd.down) := by
      have hsx : chainLt (akeys xnd.down) = true := (canon_node hC hxn).2.2.1
      have hR : chainLt (akeys rnd.down) = true := hnpr.1
      refine sorted_ext hsx (chainLt_skeyIns v _ hR) ?_
      intro a
      rw [mem_skeyIns]
      constructor
      · intro ha
        by_cases haw : a = w
        · exact Or.inr (haw.symm ▸ hw)
        · have ha' : a ∈ (akeys xnd.down).erase w :=
            (nodup_of_chainLt hsx).mem_erase_iff.2 ⟨haw, ha⟩
          rw [← hqname] at ha'
          rw [hcn, mem_skeyIns] at ha'
          rcases ha' with ha' | ha'
          · exact Or.inl ha'
          · exact Or.inr ((nodup_of_chainLt hR).mem_erase_iff.1 ha').2
      · rintro (ha | ha)
        · have hvm : v ∈ (akeys xnd.down).erase w := by
            rw [← hqname, hcn, mem_skeyIns]
            exact Or.inl rfl
          exact ha ▸ ((nodup_of_chainLt hsx).mem_erase_iff.1 hvm).2
        · by_cases haw : a = w
          · exact haw ▸ hwx
          · have : a ∈ (akeys xnd.down).erase w := by
              rw [← hqname, hcn, mem_skeyIns]
              refine Or.inr ?_
              exact (nodup_of_chainLt hnpr.1).mem_erase_iff.2 ⟨haw, ha⟩
            exact ((nodup_of_chainLt hsx).mem_erase_iff.1 this).2
    exact no_node_named_child hC hroot hv hnone hxn hxname

theorem updN_nodeCount (C : Cplx) (lv id : Nat) (f : CNode → CNode) :
    (C.updN lv id f).nodeCount = C.nodeCount := by
  unfold Cplx.updN
  split <;> rfl

theorem create_node_eq (C : Cplx) (l : Nat) :
    (create_node C l).1 =
      Cplx.setTbl { C with nodeCount := C.nodeCount + 1 } l
        (ainsert C.nodeCount CNode.empty (C.tbl l)) := rfl

theorem getN_congr_tbl {C1 C2 : Cplx} {j : Nat} (h : C1.tbl j = C2.tbl j) (i : Nat) :
    C1.getN j i = C2.getN j i := by
  unfold Cplx.getN
  rw [h]

set_option maxHeartbeats 1000000 in
theorem backfill_go_mid
    (C : Cplx) (lv rootId : Nat) (v : Int) (rnd : CNode) (nn : Nat)
    (hlv1 : 1 ≤ lv) (hv : v ∉ akeys rnd.down)
    (hRnd : chainLt (akeys rnd.down) = true)
    (hCsort : ∀ j, chainLt ((C.tbl j).map Prod.fst) = true)
    (hsibs : ∀ e ∈ rnd.down, ∃ c,
      alookup v (C.getN (lv - 1) e.2).up = some c ∧
      (alookup c (C.tbl lv)).isSome = true) :
    ∀ (rest processed : List (Int × Nat)) (Ci : Cplx),
      rnd.down = processed ++ rest →
      Mid C lv rootId v rnd nn (akeys processed) Ci →
      ∃ C4, backfill_go Ci lv nn v rest = some C4 ∧
        Mid C lv rootId v rnd nn (akeys rnd.down) C4 := by
  intro rest
  induction rest with
  | nil =>
    intro processed Ci hsplit hmid
    refine ⟨Ci, rfl, ?_⟩
    rw [hsplit, List.append_nil]
    exact hmid
  | cons e rest ih =>
    intro processed Ci hsplit hmid
    obtain ⟨w, pid⟩ := e
    have hmemE : ((w, pid) : Int × Nat) ∈ rnd.down := by
      rw [hsplit]
      exact List.mem_append.2 (Or.inr (List.mem_cons_self ..))
    have hwR : w ∈ akeys rnd.down := List.mem_map_of_mem _ hmemE
    have hwv : w ≠ v := fun hh => hv (hh ▸ hwR)
    -- the processed keys are all below w, so w is fresh
    have hwdone : w ∉ akeys processed := by
      intro hmem
      have hpair : akeys rnd.down = akeys processed ++ w :: akeys rest := by
        rw [hsplit]
        simp [akeys]
      have hnd := nodup_of_chainLt hRnd
      rw [hpair] at hnd
      have := (List.nodup_append.1 hnd).2.2
      exact absurd (List.mem_cons_self ..) (by
        have hdisj := this
        intro hcon
        exact hdisj hmem hcon)
    -- determinism of the parent entry for key w
    have hwlook : alookup w rnd.down = some pid :=
      alookup_of_mem_sorted hRnd hmemE
    obtain ⟨hm1, hm2, hm3, hm4, hm5, hm6, ⟨nnd, hnns, hnnu, hnnc, hnnv, hnnz, hnnw⟩,
      hm8, hm9⟩ := hmid
    -- the parent table below is untouched
    have htblp : Ci.tbl (lv - 1) = C.tbl (lv - 1) :=
      hm4 (lv - 1) (by omega) (by omega)
    obtain ⟨c, hcl, hcp⟩ := hsibs (w, pid) hmemE
    obtain ⟨cnd0, hcnd0⟩ := Option.isSome_iff_exists.1 hcp
    -- the step's lookup computes c
    have hstep : alookup v (Ci.getN (lv - 1) pid).up = some c := by
      rw [getN_congr_tbl htblp]
      exact hcl
    -- the two writes
    obtain ⟨cnd1, hcnd1, hcnd1d, hcnd1s, hcnd1r, hcnd1w, hcnd1u⟩ := hm9 c cnd0 hcnd0
    have hCi1 : (Ci.updN (lv + 1) nn (fun n => { n with down := ainsert w c n.down })).tbl (lv + 1) =
        ainsert nn { nnd with down := ainsert w c nnd.down } (Ci.tbl (lv + 1)) :=
      tbl_updN_self _ hnns
    set Ci1 := Ci.updN (lv + 1) nn (fun n => { n with down := ainsert w c n.down }) with hCi1def
    have hCi1lv : Ci1.tbl lv = Ci.tbl lv := tbl_updN_ne _ (by omega)
    have hc1 : alookup c (Ci1.tbl lv) = some cnd1 := by rw [hCi1lv]; exact hcnd1
    have hCi2 : (Ci1.updN lv c (fun n => { n with up := ainsert w nn n.up })).tbl lv =
        ainsert c { cnd1 with up := ainsert w nn cnd1.up } (Ci1.tbl lv) :=
      tbl_updN_self _ hc1
    set Ci2 := Ci1.updN lv c (fun n => { n with up := ainsert w nn n.up }) with hCi2def
    -- establish Mid for done ++ [w]
    have hmid' : Mid C lv rootId v rnd nn (akeys (processed ++ [(w, pid)])) Ci2 := by
      have hdone' : akeys (processed ++ [(w, pid)]) = akeys processed ++ [w] := by
        simp [akeys]
      rw [hdone']
      have hCi1sort : chainLt ((Ci.tbl (lv + 1)).map Prod.fst) = true := by
        rw [hm5]
        exact chainLt_skeyIns nn _ (hCsort (lv + 1))
      have hCisortlv : chainLt ((Ci.tbl lv).map Prod.fst) = true := by
        rw [hm8]
        exact hCsort lv
      refine ⟨?_, ?_, ?_, ?_, ?_, ?_, ?_, ?_, ?_⟩
      · rw [hCi2def, updN_topLevel, hCi1def, updN_topLevel]
        exact hm1
      · rw [hCi2def, updN_length, hCi1def, updN_length]
        exact hm2
      · rw [hCi2def, updN_nodeCount, hCi1def, updN_nodeCount]
        exact hm3
      · intro j hj1 hj2
        rw [hCi2def, tbl_updN_ne _ hj1, hCi1def, tbl_updN_ne _ hj2]
        exact hm4 j hj1 hj2
      · have h2l : Ci2.tbl (lv + 1) = Ci1.tbl (lv + 1) := tbl_updN_ne _ (by omega)
        rw [h2l, hCi1]
        rw [map_fst_ainsert_present nn _ _ hCi1sort (by rw [hnns]; rfl)]
        exact hm5
      · intro i hine
        have h2l : Ci2.tbl (lv + 1) = Ci1.tbl (lv + 1) := tbl_updN_ne _ (by omega)
        rw [h2l, hCi1, alookup_ainsert, if_neg hine]
        exact hm6 i hine
      · refine ⟨{ nnd with down := ainsert w c nnd.down }, ?_, hnnu, ?_, ?_, ?_, ?_⟩
        · have h2l : Ci2.tbl (lv + 1) = Ci1.tbl (lv + 1) := tbl_updN_ne _ (by omega)
          rw [h2l, hCi1, alookup_ainsert, if_pos rfl]
        · show chainLt (akeys (ainsert w c nnd.down)) = true
          rw [akeys_ainsert]
          exact chainLt_skeyIns w _ hnnc
        · show alookup v (ainsert w c nnd.down) = some rootId
          rw [alookup_ainsert, if_neg (fun hh : v = w => hwv hh.symm)]
          exact hnnv
        · intro b hbv hbd
          show alookup b (ainsert w c nnd.down) = none
          have hbw : b ≠ w := by
            intro hh
            refine hbd ?_
            rw [hh]
            exact List.mem_append.2 (Or.inr (List.mem_cons_self ..))
          rw [alookup_ainsert, if_neg hbw]
          exact hnnz b hbv (fun hh => hbd (List.mem_append.2 (Or.inl hh)))
        · intro w' pid' hmem' hdone'
          rcases List.mem_append.1 hdone' with hd | hd
          · obtain ⟨c', hc'1, hc'2⟩ := hnnw w' pid' hmem' hd
            refine ⟨c', hc'1, ?_⟩
            show alookup w' (ainsert w c nnd.down) = some c'
            have hne : w' ≠ w := fun hh => hwdone (hh ▸ hd)
            rw [alookup_ainsert, if_neg hne]
            exact hc'2
          · have hw'w : w' = w := by simpa using hd
            subst hw'w
            have hpid : pid' = pid := by
              have := alookup_of_mem_sorted hRnd hmem'
              rw [hwlook] at this
              exact (Option.some.inj this).symm
            subst hpid
            refine ⟨c, hcl, ?_⟩
            show alookup w' (ainsert w' c nnd.down) = some c
            rw [alookup_ainsert, if_pos rfl]
      · have h2 : Ci2.tbl lv = ainsert c { cnd1 with up := ainsert w nn cnd1.up }
            (Ci1.tbl lv) := hCi2
        rw [h2, hCi1lv]
        rw [map_fst_ainsert_present c _ _ hCisortlv (by rw [hcnd1]; rfl)]
        exact hm8
      · intro i nd0 hi0
        obtain ⟨nd1, hl1, hd1, hs1, hr1, hw1, hu1⟩ := hm9 i nd0 hi0
        by_cases hic : i = c
        · subst hic
          have hnd1c : nd1 = cnd1 := by
            rw [hcnd1] at hl1
            exact (Option.some.inj hl1).symm
          subst hnd1c
          refine ⟨{ nd1 with up := ainsert w nn nd1.up }, ?_, hd1, ?_, ?_, ?_, ?_⟩
          · rw [hCi2, hCi1lv, alookup_ainsert, if_pos rfl]
          · show chainLt (akeys (ainsert w nn nd1.up)) = true
            rw [akeys_ainsert]
            exact chainLt_skeyIns w _ hs1
          · intro hir
            show alookup v (ainsert w nn nd1.up) = some nn
            rw [alookup_ainsert, if_neg (fun hh : v = w => hwv hh.symm)]
            exact hr1 hir
          · intro w' pid' hmem' hdone' hlook'
            show alookup w' (ainsert w nn nd1.up) = some nn
            by_cases hww' : w' = w
            · rw [alookup_ainsert, if_pos hww']
            · rcases List.mem_append.1 hdone' with hd | hd
              · rw [alookup_ainsert, if_neg hww']
                exact hw1 w' pid' hmem' hd hlook'
              · exact absurd (by simpa using hd) hww'
          · intro b hbr hbz
            show alookup b (ainsert w nn nd1.up) = alookup b nd0.up
            have hbw : b ≠ w := by
              intro hh
              subst hh
              exact hbz pid hmemE (List.mem_append.2 (Or.inr (List.mem_cons_self ..))) hcl
            rw [alookup_ainsert, if_neg hbw]
            exact hu1 b hbr (fun pid' hmem' hd hlook' =>
              hbz pid' hmem' (List.mem_append.2 (Or.inl hd)) hlook')
        · refine ⟨nd1, ?_, hd1, hs1, hr1, ?_, ?_⟩
          · rw [hCi2, hCi1lv, alookup_ainsert, if_neg hic]
            exact hl1
          · intro w' pid' hmem' hdone' hlook'
            rcases List.mem_append.1 hdone' with hd | hd
            · exact hw1 w' pid' hmem' hd hlook'
            · have hw'w : w' = w := by simpa using hd
              subst hw'w
              have hpid : pid' = pid := by
                have := alookup_of_mem_sorted hRnd hmem'
                rw [hwlook] at this
                exact (Option.some.inj this).symm
              subst hpid
              rw [hcl] at hlook'
              exact absurd (Option.some.inj hlook') (fun hh => hic hh.symm)
          · intro b hbr hbz
            exact hu1 b hbr (fun pid' hmem' hd hlook' =>
              hbz pid' hmem' (List.mem_append.2 (Or.inl hd)) hlook')
    -- run the step and recurse
    have hsplit' : rnd.down = (processed ++ [(w, pid)]) ++ rest := by
      rw [hsplit, List.append_assoc]
      rfl
    obtain ⟨C4, hC4, hmidF⟩ := ih (processed ++ [(w, pid)]) Ci2 hsplit' hmid'
    refine ⟨C4, ?_, hmidF⟩
    show backfill_go Ci lv nn v ((w, pid) :: rest) = some C4
    rw [backfill_go, hstep]
    exact hC4

set_option maxHeartbeats 1000000 in
theorem mid_base
    (C : Cplx) (lv rootId : Nat) (v : Int) (rnd : CNode)
    (hC : CanonP C)
    (hroot : alookup rootId (C.tbl lv) = some rnd)
    (hlv : lv < C.topLevel) :
    Mid C lv rootId v rnd C.nodeCount []
      (((create_node C (lv + 1)).1.updN (lv + 1) C.nodeCount
          (fun n => { n with down := ainsert v rootId n.down })).updN lv rootId
          (fun n => { n with up := ainsert v C.nodeCount n.up })) := by
  have hlen : C.levels.length = C.topLevel + 1 := hC.1
  have hlt1 : lv + 1 < C.levels.length := by omega
  set nn := C.nodeCount with hnn
  set C1 := (create_node C (lv + 1)).1 with hC1
  have hC1tblS : C1.tbl (lv + 1) = ainsert nn CNode.empty (C.tbl (lv + 1)) := by
    rw [hC1, create_node_eq]
    exact tbl_setTbl_self _ hlt1
  have hC1tblN : ∀ j, j ≠ lv + 1 → C1.tbl j = C.tbl j := by
    intro j hj
    rw [hC1, create_node_eq]
    exact tbl_setTbl_ne _ hj
  have hC1nn : alookup nn (C1.tbl (lv + 1)) = some CNode.empty := by
    rw [hC1tblS, alookup_ainsert, if_pos rfl]
  set C2 := C1.updN (lv + 1) nn (fun n => { n with down := ainsert v rootId n.down })
    with hC2
  have hC2tblS : C2.tbl (lv + 1) =
      ainsert nn { CNode.empty with down := ainsert v rootId CNode.empty.down }
        (C1.tbl (lv + 1)) := tbl_updN_self _ hC1nn
  have hC2tblN : ∀ j, j ≠ lv + 1 → C2.tbl j = C.tbl j := by
    intro j hj
    rw [hC2, tbl_updN_ne _ hj]
    exact hC1tblN j hj
  have hC2root : alookup rootId (C2.tbl lv) = some rnd := by
    rw [hC2tblN lv (by omega)]
    exact hroot
  set C3 := C2.updN lv rootId (fun n => { n with up := ainsert v nn n.up }) with hC3
  have hC3tblS : C3.tbl lv =
      ainsert rootId { rnd with up := ainsert v nn rnd.up } (C2.tbl lv) :=
    tbl_updN_self _ hC2root
  have hC3tblU : C3.tbl (lv + 1) = C2.tbl (lv + 1) := by
    rw [hC3]
    exact tbl_updN_ne _ (by omega)
  have hC3tblN : ∀ j, j ≠ lv → j ≠ lv + 1 → C3.tbl j = C.tbl j := by
    intro j hj1 hj2
    rw [hC3, tbl_updN_ne _ hj1]
    exact hC2tblN j hj2
  obtain ⟨_, _, hnpr⟩ := canon_node hC hroot
  refine ⟨?_, ?_, ?_, hC3tblN, ?_, ?_, ?_, ?_, ?_⟩
  · rw [hC3, updN_topLevel, hC2, updN_topLevel, hC1, create_node_eq]
    rfl
  · rw [hC3, updN_length, hC2, updN_length, hC1, create_node_eq, setTbl_length]
  · rw [hC3, updN_nodeCount, hC2, updN_nodeCount, hC1, create_node_eq]
    rfl
  · rw [hC3tblU, hC2tblS, hC1tblS, ← akeys_eq_map_fst, ← akeys_eq_map_fst,
      akeys_ainsert, akeys_ainsert, skeyIns_skeyIns_same]
  · intro i hine
    rw [hC3tblU, hC2tblS, hC1tblS, alookup_ainsert, if_neg hine, alookup_ainsert,
      if_neg hine]
  · refine ⟨{ CNode.empty with down := ainsert v rootId CNode.empty.down }, ?_, rfl,
      ?_, ?_, ?_, ?_⟩
    · rw [hC3tblU, hC2tblS, alookup_ainsert, if_pos rfl]
    · show chainLt (akeys (ainsert v rootId [])) = true
      rfl
    · show alookup v (ainsert v rootId []) = some rootId
      rw [alookup_ainsert, if_pos rfl]
    · intro b hbv _
      show alookup b (ainsert v rootId []) = none
      rw [alookup_ainsert, if_neg hbv]
      rfl
    · intro w pid _ hdone
      cases hdone
  · rw [hC3tblS, hC2tblN lv (by omega)]
    rw [map_fst_ainsert_present rootId _ _ (canon_sorted hC lv) (by rw [hroot]; rfl)]
  · intro i nd0 hi0
    by_cases hir : i = rootId
    · subst hir
      have hnd0 : nd0 = rnd := by
        rw [hroot] at hi0
        exact (Option.some.inj hi0).symm
      refine ⟨{ rnd with up := ainsert v nn rnd.up }, ?_, by rw [hnd0], ?_, ?_, ?_, ?_⟩
      · rw [hC3tblS, hC2tblN lv (by omega), alookup_ainsert, if_pos rfl]
      · show chainLt (akeys (ainsert v nn rnd.up)) = true
        rw [akeys_ainsert]
        exact chainLt_skeyIns v _ hnpr.2.1
      · intro _
        show alookup v (ainsert v nn rnd.up) = some nn
        rw [alookup_ainsert, if_pos rfl]
      · intro w pid _ hdone
        cases hdone
      · intro b hbr _
        show alookup b (ainsert v nn rnd.up) = alookup b nd0.up
        have hbv : b ≠ v := fun hh => hbr ⟨rfl, hh⟩
        rw [alookup_ainsert, if_neg hbv, hnd0]
    · refine ⟨nd0, ?_, rfl, ?_, ?_, ?_, ?_⟩
      · rw [hC3tblS, hC2tblN lv (by omega), alookup_ainsert, if_neg hir]
        exact hi0
      · exact (canon_node hC hi0).2.2.2.1
      · intro hh
        exact absurd hh hir
      · intro w pid _ hdone
        cases hdone
      · intro b _ _
        rfl

/-! ## From the completed backfill state to the canonical invariant -/

theorem mid_lv_rev {C : Cplx} {lv rootId : Nat} {v : Int} {rnd : CNode} {nn : Nat}
    {done : List Int} {Ci : Cplx}
    (hmid : Mid C lv rootId v rnd nn done Ci)
    {i : Nat} {nd1 : CNode} (h : alookup i (Ci.tbl lv) = some nd1) :
    ∃ nd0, alookup i (C.tbl lv) = some nd0 ∧ nd1.down = nd0.down ∧
      chainLt (akeys nd1.up) = true ∧
      (i = rootId → alookup v nd1.up = some nn) ∧
      (∀ w pid, (w, pid) ∈ rnd.down → w ∈ done →
        alookup v (C.getN (lv - 1) pid).up = some i → alookup w nd1.up = some nn) ∧
      (∀ b, ¬(i = rootId ∧ b = v) →
        (∀ pid, (b, pid) ∈ rnd.down → b ∈ done →
          alookup v (C.getN (lv - 1) pid).up ≠ some i) →
        alookup b nd1.up = alookup b nd0.up) := by
  have hkeys := hmid.2.2.2.2.2.2.2.1
  have hmem : i ∈ (C.tbl lv).map Prod.fst := by
    rw [← hkeys, ← akeys_eq_map_fst]
    exact mem_akeys_of_alookup h
  obtain ⟨nd0, h0⟩ := Option.isSome_iff_exists.1
    ((alookup_isSome_iff_mem i (C.tbl lv)).2 (by rw [akeys_eq_map_fst]; exact hmem))
  obtain ⟨nd1', hl1, hrest⟩ := hmid.2.2.2.2.2.2.2.2 i nd0 h0
  rw [h] at hl1
  have : nd1' = nd1 := (Option.some.inj hl1).symm
  subst this
  exact ⟨nd0, h0, hrest⟩

theorem mid_lv1_rev {C : Cplx} {lv rootId : Nat} {v : Int} {rnd : CNode} {nn : Nat}
    {done : List Int} {Ci : Cplx}
    (hmid : Mid C lv rootId v rnd nn done Ci)
    {i : Nat} (hine : i ≠ nn) {x : CNode} (h : alookup i (Ci.tbl (lv + 1)) = some x) :
    alookup i (C.tbl (lv + 1)) = some x := by
  rw [← hmid.2.2.2.2.2.1 i hine]
  exact h

/-- The completed new node carries exactly the name `root ∪ {v}`. -/
theorem mid_nn_name {C : Cplx} {lv rootId : Nat} {v : Int} {rnd : CNode} {Ci : Cplx}
    (hC : CanonP C)
    (hroot : alookup rootId (C.tbl lv) = some rnd)
    (hv : v ∉ akeys rnd.down)
    (hmid : Mid C lv rootId v rnd C.nodeCount (akeys rnd.down) Ci) :
    ∃ nnd, alookup C.nodeCount (Ci.tbl (lv + 1)) = some nnd ∧ nnd.up = [] ∧
      chainLt (akeys nnd.down) = true ∧
      akeys nnd.down = skeyIns v (akeys rnd.down) ∧
      alookup v nnd.down = some rootId ∧
      (∀ w pid, (w, pid) ∈ rnd.down →
        ∃ c, alookup v (C.getN (lv - 1) pid).up = some c ∧
          alookup w nnd.down = some c) := by
  obtain ⟨nnd, hs, hu, hc, hvl, hz, hw⟩ := hmid.2.2.2.2.2.2.1
  refine ⟨nnd, hs, hu, hc, ?_, hvl, fun w pid hm =>
    hw w pid hm (List.mem_map_of_mem _ hm)⟩
  obtain ⟨_, _, hnpr⟩ := canon_node hC hroot
  refine sorted_ext hc (chainLt_skeyIns v _ hnpr.1) ?_
  intro a
  rw [mem_skeyIns]
  constructor
  · intro ha
    by_cases hav : a = v
    · exact Or.inl hav
    · refine Or.inr ?_
      by_contra hmem
      have := hz a hav hmem
      have h2 := (alookup_isSome_iff_mem a nnd.down).2 ha
      rw [this] at h2
      cases h2
  · rintro (ha | ha)
    · subst ha
      exact mem_akeys_of_alookup hvl
    · obtain ⟨e, he, heq⟩ := List.mem_map.1 ha
      have he' : ((a, e.2) : Int × Nat) ∈ rnd.down := by
        rw [show ((a, e.2) : Int × Nat) = e from Prod.ext heq.symm rfl]
        exact he
      obtain ⟨c, _, hcl⟩ := hw a e.2 he' (List.mem_map_of_mem _ he')
      exact mem_akeys_of_alookup hcl

theorem mid_stable {C : Cplx} {lv rootId : Nat} {v : Int} {rnd : CNode} {Ci : Cplx}
    (hC : CanonP C)
    (hmid : Mid C lv rootId v rnd C.nodeCount (akeys rnd.down) Ci) :
    Stable C Ci := by
  refine ⟨hmid.1, hmid.2.1, by rw [hmid.2.2.1]; omega, ?_⟩
  intro k id nd h
  by_cases hk1 : k = lv
  · subst hk1
    obtain ⟨nd1, hl1, hd1, _⟩ := hmid.2.2.2.2.2.2.2.2 id nd h
    exact ⟨nd1, hl1, hd1⟩
  · by_cases hk2 : k = lv + 1
    · subst hk2
      have hlt : id < C.nodeCount := (canon_node hC h).2.1
      refine ⟨nd, ?_, rfl⟩
      rw [hmid.2.2.2.2.2.1 id (by omega)]
      exact h
    · refine ⟨nd, ?_, rfl⟩
      rw [hmid.2.2.2.1 k hk1 hk2]
      exact h

/-- The node reached from a boundary entry of the root along the new key is
the sibling with name `root \ {w} ∪ {v}`, and it has no coboundary keyed
`w` yet. -/
theorem sib_fact {C : Cplx} {lv rootId : Nat} {rnd : CNode}
    (hC : CanonP C) (hroot : alookup rootId (C.tbl lv) = some rnd)
    {v : Int} (hv : v ∉ akeys rnd.down) (hnone : alookup v rnd.up = none)
    {w : Int} {pid : Nat} (hm : (w, pid) ∈ rnd.down)
    {c : Nat} (hcl : alookup v (C.getN (lv - 1) pid).up = some c) :
    ∃ cnd, alookup c (C.tbl lv) = some cnd ∧
      akeys cnd.down = skeyIns v ((akeys rnd.down).erase w) ∧
      alookup w cnd.up = none := by
  obtain ⟨_, _, hnpr⟩ := canon_node hC hroot
  have hlv1 : 1 ≤ lv := by
    have := hnpr.2.2.1
    have hlen : rnd.down.length ≥ 1 := List.length_pos.2 (by
      intro hnil
      rw [hnil] at hm
      cases hm)
    omega
  obtain ⟨pnd, hpn0, hpu0, hpname0⟩ := hnpr.2.2.2.2.1 (w, pid) hm
  have hpn : alookup pid (C.tbl (lv - 1)) = some pnd := hpn0
  have hpname : akeys pnd.down = (akeys rnd.down).erase w := hpname0
  have hgetp : C.getN (lv - 1) pid = pnd := by
    unfold Cplx.getN
    rw [hpn]
    rfl
  rw [hgetp] at hcl
  obtain ⟨cnd, hcn, hcname⟩ := canon_child_name hC hpn hcl
  have hlv' : lv - 1 + 1 = lv := by omega
  rw [hlv'] at hcn
  rw [hpname] at hcname
  refine ⟨cnd, hcn, hcname, ?_⟩
  exact no_up_key hC hroot hv hnone (List.mem_map_of_mem _ hm) hcn hcname

set_option maxHeartbeats 1000000 in
theorem mid_nodep_lv {C : Cplx} {lv rootId : Nat} {v : Int} {rnd : CNode} {Ci : Cplx}
    (hC : CanonP C)
    (hroot : alookup rootId (C.tbl lv) = some rnd)
    (hv : v ∉ akeys rnd.down)
    (hlv : lv < C.topLevel)
    (hmid : Mid C lv rootId v rnd C.nodeCount (akeys rnd.down) Ci) :
    ∀ i nd1, alookup i (Ci.tbl lv) = some nd1 → NodeP Ci lv i nd1 := by
  intro i nd1 h
  obtain ⟨nd0, h0, hd, hs, hr, hw, hu⟩ := mid_lv_rev hmid h
  obtain ⟨hklv, hilt, hnp0⟩ := canon_node hC h0
  obtain ⟨nnd, hnns, hnnu, hnnc, hnname, hnnv, hnnw⟩ := mid_nn_name hC hroot hv hmid
  refine ⟨by rw [hd]; exact hnp0.1, hs, by rw [hd]; exact hnp0.2.2.1, ?_, ?_, ?_⟩
  · intro htp
    rw [hmid.1] at htp
    omega
  · intro p hp
    rw [hd] at hp
    by_cases hlv0 : lv = 0
    · exfalso
      subst hlv0
      have hi0 : i = 0 := canon_only_root hC h0
      obtain ⟨rnd0, hr0, hr0d⟩ := canon_root hC
      rw [hi0, hr0] at h0
      have : nd0 = rnd0 := (Option.some.inj h0).symm
      rw [this, hr0d] at hp
      cases hp
    · obtain ⟨pnd, hpn, hpu, hpname⟩ := hnp0.2.2.2.2.1 p hp
      have htbl : Ci.tbl (lv - 1) = C.tbl (lv - 1) :=
        hmid.2.2.2.1 (lv - 1) (by omega) (by omega)
      refine ⟨pnd, ?_, hpu, ?_⟩
      · rw [htbl]
        exact hpn
      · rw [hd]
        exact hpname
  · intro q hq
    have hql : alookup q.1 nd1.up = some q.2 := alookup_of_mem_sorted hs hq
    by_cases hG1 : i = rootId ∧ q.1 = v
    · have hrn := hr hG1.1
      rw [hG1.2, hrn] at hql
      have hq2 : q.2 = C.nodeCount := (Option.some.inj hql).symm
      refine ⟨nnd, ?_, ?_⟩
      · rw [hq2]
        exact hnns
      · rw [hG1.2]
        rw [hnnv, hG1.1]
    · by_cases hG2 : ∃ pid, ((q.1, pid) : Int × Nat) ∈ rnd.down ∧
          alookup v (C.getN (lv - 1) pid).up = some i
      · obtain ⟨pid, hmem, hlook⟩ := hG2
        have hqmem : q.1 ∈ akeys rnd.down := by
          have hmm := List.mem_map_of_mem (fun x : Int × Nat => x.1) hmem
          simpa [akeys] using hmm
        have hwv := hw q.1 pid hmem hqmem hlook
        rw [hwv] at hql
        have hq2 : q.2 = C.nodeCount := (Option.some.inj hql).symm
        obtain ⟨c, hcl', hcd'⟩ := hnnw q.1 pid hmem
        rw [hlook] at hcl'
        have hci : c = i := (Option.some.inj hcl').symm
        refine ⟨nnd, ?_, ?_⟩
        · rw [hq2]
          exact hnns
        · rw [hcd', hci]
      · push_neg at hG2
        have hunch := hu q.1 hG1 (fun pid hm _ => hG2 pid hm)
        rw [hunch] at hql
        obtain ⟨cnd, hcn0, hcd0⟩ := hnp0.2.2.2.2.2 (q.1, q.2) (alookup_mem hql)
        have hcn : alookup q.2 (C.tbl (lv + 1)) = some cnd := hcn0
        have hcd : alookup q.1 cnd.down = some i := hcd0
        have hlt : q.2 < C.nodeCount := (canon_node hC hcn).2.1
        refine ⟨cnd, ?_, hcd⟩
        rw [hmid.2.2.2.2.2.1 q.2 (by omega)]
        exact hcn

set_option maxHeartbeats 1000000 in
theorem mid_nodep_lv1 {C : Cplx} {lv rootId : Nat} {v : Int} {rnd : CNode} {Ci : Cplx}
    (hC : CanonP C)
    (hroot : alookup rootId (C.tbl lv) = some rnd)
    (hv : v ∉ akeys rnd.down)
    (hnone : alookup v rnd.up = none)
    (_hlv : lv < C.topLevel)
    (hmid : Mid C lv rootId v rnd C.nodeCount (akeys rnd.down) Ci) :
    ∀ i x, alookup i (Ci.tbl (lv + 1)) = some x → NodeP Ci (lv + 1) i x := by
  intro i x h
  obtain ⟨_, _, hnpr⟩ := canon_node hC hroot
  obtain ⟨nnd, hnns, hnnu, hnnc, hnname, hnnv, hnnw⟩ := mid_nn_name hC hroot hv hmid
  by_cases hin : i = C.nodeCount
  · -- the freshly created node
    subst hin
    rw [hnns] at h
    have hx : x = nnd := (Option.some.inj h).symm
    subst hx
    refine ⟨hnnc, by rw [hnnu]; rfl, ?_, fun _ => hnnu, ?_, ?_⟩
    · have hlen1 : (akeys x.down).length = x.down.length := length_akeys _
      have hlen2 : (akeys rnd.down).length = rnd.down.length := length_akeys _
      have hR : rnd.down.length = lv := hnpr.2.2.1
      have := congrArg List.length hnname
      rw [length_skeyIns_of_not_mem v _ hv] at this
      omega
    · intro p hp
      have hpl : alookup p.1 x.down = some p.2 := alookup_of_mem_sorted hnnc hp
      have hsub : (lv + 1) - 1 = lv := by omega
      by_cases hpv : p.1 = v
      · have hp2 : p.2 = rootId := by
          rw [hpv, hnnv] at hpl
          exact (Option.some.inj hpl).symm
        obtain ⟨nd1, hl1, hd1, _, hr1, _, _⟩ := hmid.2.2.2.2.2.2.2.2 rootId rnd hroot
        refine ⟨nd1, ?_, ?_, ?_⟩
        · rw [hsub, hp2]
          exact hl1
        · rw [hpv]
          exact hr1 rfl
        · rw [hd1, hpv, hnname, skeyIns_erase_self v _ hv]
      · -- a sibling entry
        have hpR : p.1 ∈ akeys rnd.down := by
          have : p.1 ∈ akeys x.down := mem_akeys_of_alookup hpl
          rw [hnname, mem_skeyIns] at this
          rcases this with hh | hh
          · exact absurd hh hpv
          · exact hh
        obtain ⟨e, he, heq⟩ := List.mem_map.1 hpR
        have he' : ((p.1, e.2) : Int × Nat) ∈ rnd.down := by
          rw [show ((p.1, e.2) : Int × Nat) = e from Prod.ext heq.symm rfl]
          exact he
        obtain ⟨c, hcl, hcd⟩ := hnnw p.1 e.2 he'
        have hp2 : p.2 = c := by
          rw [hcd] at hpl
          exact (Option.some.inj hpl).symm
        obtain ⟨cnd, hcn, hcname, _⟩ := sib_fact hC hroot hv hnone he' hcl
        obtain ⟨nd1, hl1, hd1, _, _, hw1, _⟩ := hmid.2.2.2.2.2.2.2.2 c cnd hcn
        refine ⟨nd1, ?_, ?_, ?_⟩
        · rw [hsub, hp2]
          exact hl1
        · exact hw1 p.1 e.2 he' hpR hcl
        · rw [hd1, hcname, hnname]
          rw [erase_skeyIns_comm v p.1 _ hpv hnpr.1]
    · intro q hq
      rw [hnnu] at hq
      cases hq
  · -- an untouched node of the old complex
    have h0 : alookup i (C.tbl (lv + 1)) = some x := mid_lv1_rev hmid hin h
    obtain ⟨hkle, hilt, hnpx⟩ := canon_node hC h0
    refine ⟨hnpx.1, hnpx.2.1, hnpx.2.2.1, ?_, ?_, ?_⟩
    · intro htp
      rw [hmid.1] at htp
      exact hnpx.2.2.2.1 htp
    · intro p hp
      obtain ⟨pnd0, hpn0, hpu0, hpname0⟩ := hnpx.2.2.2.2.1 p hp
      have hsub : (lv + 1) - 1 = lv := by omega
      rw [hsub] at hpn0
      obtain ⟨nd1, hl1, hd1, _, _, _, hu1⟩ := hmid.2.2.2.2.2.2.2.2 p.2 pnd0 hpn0
      refine ⟨nd1, ?_, ?_, ?_⟩
      · rw [hsub]
        exact hl1
      · -- the coboundary entry of the boundary target is untouched
        have hG1 : ¬(p.2 = rootId ∧ p.1 = v) := by
          rintro ⟨h1, h2⟩
          rw [h1] at hpn0
          rw [hroot] at hpn0
          have : pnd0 = rnd := (Option.some.inj hpn0).symm
          rw [this, h2] at hpu0
          rw [hnone] at hpu0
          cases hpu0
        have hG2 : ∀ pid, ((p.1, pid) : Int × Nat) ∈ rnd.down →
            p.1 ∈ akeys rnd.down →
            alookup v (C.getN (lv - 1) pid).up ≠ some p.2 := by
          intro pid hm _ hlook
          obtain ⟨cnd, hcn, hcname, hcup⟩ := sib_fact hC hroot hv hnone hm hlook
          rw [hcn] at hpn0
          have : pnd0 = cnd := (Option.some.inj hpn0).symm
          rw [this, hcup] at hpu0
          cases hpu0
        rw [hu1 p.1 hG1 hG2]
        exact hpu0
      · rw [hd1]
        exact hpname0
    · intro q hq
      obtain ⟨cnd, hcn, hcd⟩ := hnpx.2.2.2.2.2 q hq
      have htbl : Ci.tbl (lv + 1 + 1) = C.tbl (lv + 1 + 1) :=
        hmid.2.2.2.1 (lv + 1 + 1) (by omega) (by omega)
      refine ⟨cnd, ?_, hcd⟩
      rw [htbl]
      exact hcn

theorem mid_nodep_other {C : Cplx} {lv rootId : Nat} {v : Int} {rnd : CNode} {Ci : Cplx}
    (hC : CanonP C)
    (hmid : Mid C lv rootId v rnd C.nodeCount (akeys rnd.down) Ci) :
    ∀ k, k ≠ lv → k ≠ lv + 1 → ∀ i nd, alookup i (Ci.tbl k) = some nd →
      NodeP Ci k i nd := by
  intro k hk1 hk2 i nd h
  have htbl : Ci.tbl k = C.tbl k := hmid.2.2.2.1 k hk1 hk2
  rw [htbl] at h
  obtain ⟨hkle, hilt, hnp⟩ := canon_node hC h
  refine ⟨hnp.1, hnp.2.1, hnp.2.2.1, ?_, ?_, ?_⟩
  · intro htp
    rw [hmid.1] at htp
    exact hnp.2.2.2.1 htp
  · intro p hp
    obtain ⟨pnd, hpn, hpu, hpname⟩ := hnp.2.2.2.2.1 p hp
    by_cases hd1 : k - 1 = lv + 1
    · -- boundary targets one dimension above the root's: untouched ids
      have hlt : p.2 < C.nodeCount := by
        rw [hd1] at hpn
        exact (canon_node hC hpn).2.1
      refine ⟨pnd, ?_, hpu, hpname⟩
      rw [hd1] at hpn ⊢
      rw [hmid.2.2.2.2.2.1 p.2 (by omega)]
      exact hpn
    · by_cases hd2 : k - 1 = lv
      · -- impossible: k ∉ {lv, lv + 1} leaves no room for k - 1 = lv
        exfalso
        omega
      · refine ⟨pnd, ?_, hpu, hpname⟩
        rw [hmid.2.2.2.1 (k - 1) hd2 hd1]
        exact hpn
  · intro q hq
    obtain ⟨cnd, hcn, hcd⟩ := hnp.2.2.2.2.2 q hq
    by_cases hu1 : k + 1 = lv
    · obtain ⟨nd1, hl1, hdd1, _, _, _, _⟩ := by
        rw [hu1] at hcn
        exact hmid.2.2.2.2.2.2.2.2 q.2 cnd hcn
      refine ⟨nd1, ?_, ?_⟩
      · rw [hu1]
        exact hl1
      · rw [hdd1]
        exact hcd
    · have hu2 : k + 1 ≠ lv + 1 := fun hh => hk1 (by omega)
      refine ⟨cnd, ?_, hcd⟩
      rw [hmid.2.2.2.1 (k + 1) hu1 hu2]
      exact hcn

set_option maxHeartbeats 1000000 in
theorem mid_final {C : Cplx} {lv rootId : Nat} {v : Int} {rnd : CNode} {Ci : Cplx}
    (hC : CanonP C)
    (hroot : alookup rootId (C.tbl lv) = some rnd)
    (hv : v ∉ akeys rnd.down)
    (hnone : alookup v rnd.up = none)
    (hlv : lv < C.topLevel)
    (hmid : Mid C lv rootId v rnd C.nodeCount (akeys rnd.down) Ci) :
    CanonP Ci := by
  have hlen : Ci.levels.length = Ci.topLevel + 1 := by
    rw [hmid.2.1, hmid.1, hC.1]
  have hsorted : ∀ k, chainLt ((Ci.tbl k).map Prod.fst) = true := by
    intro k
    by_cases hk1 : k = lv
    · rw [hk1, hmid.2.2.2.2.2.2.2.1]
      exact canon_sorted hC lv
    · by_cases hk2 : k = lv + 1
      · rw [hk2, hmid.2.2.2.2.1]
        exact chainLt_skeyIns _ _ (canon_sorted hC (lv + 1))
      · rw [hmid.2.2.2.1 k hk1 hk2]
        exact canon_sorted hC k
  refine ⟨hlen, ?_, ?_, ?_⟩
  · by_cases hlv0 : lv = 0
    · subst hlv0
      rw [hmid.2.2.2.2.2.2.2.1]
      exact hC.2.1
    · rw [hmid.2.2.2.1 0 (fun hh => hlv0 hh.symm) (by omega)]
      exact hC.2.1
  · by_cases hlv0 : lv = 0
    · subst hlv0
      obtain ⟨rnd0, hr0, hr0d⟩ := canon_root hC
      obtain ⟨nd1, hl1, hd1, _⟩ := hmid.2.2.2.2.2.2.2.2 0 rnd0 hr0
      unfold Cplx.getN
      rw [hl1]
      show nd1.down = []
      rw [hd1, hr0d]
    · have htbl := hmid.2.2.2.1 0 (fun hh => hlv0 hh.symm) (by omega)
      unfold Cplx.getN
      rw [htbl]
      exact hC.2.2.1
  · intro k hk
    rw [hmid.1] at hk
    refine ⟨hsorted k, ?_, ?_⟩
    · intro p hp
      have hpl : alookup p.1 (Ci.tbl k) = some p.2 :=
        alookup_of_mem_sorted (hsorted k) hp
      constructor
      · rw [hmid.2.2.1]
        by_cases hk1 : k = lv
        · subst hk1
          obtain ⟨nd0, h0, _⟩ := mid_lv_rev hmid hpl
          have := (canon_node hC h0).2.1
          omega
        · by_cases hk2 : k = lv + 1
          · subst hk2
            by_cases hin : p.1 = C.nodeCount
            · omega
            · have h0 := mid_lv1_rev hmid hin hpl
              have := (canon_node hC h0).2.1
              omega
          · rw [hmid.2.2.2.1 k hk1 hk2] at hpl
            have := (canon_node hC hpl).2.1
            omega
      · by_cases hk1 : k = lv
        · subst hk1
          exact mid_nodep_lv hC hroot hv hlv hmid p.1 p.2 hpl
        · by_cases hk2 : k = lv + 1
          · subst hk2
            exact mid_nodep_lv1 hC hroot hv hnone hlv hmid p.1 p.2 hpl
          · exact mid_nodep_other hC hmid k hk1 hk2 p.1 p.2 hpl
    · intro p hp q hq hname
      have hpl : alookup p.1 (Ci.tbl k) = some p.2 :=
        alookup_of_mem_sorted (hsorted k) hp
      have hql : alookup q.1 (Ci.tbl k) = some q.2 :=
        alookup_of_mem_sorted (hsorted k) hq
      by_cases hk1 : k = lv
      · subst hk1
        obtain ⟨nd0p, h0p, hdp, _⟩ := mid_lv_rev hmid hpl
        obtain ⟨nd0q, h0q, hdq, _⟩ := mid_lv_rev hmid hql
        refine canon_inj hC h0p h0q ?_
        rw [hdp, hdq] at hname
        exact hname
      · by_cases hk2 : k = lv + 1
        · subst hk2
          obtain ⟨nnd, hnns, _, _, hnname, _, _⟩ := mid_nn_name hC hroot hv hmid
          by_cases hpn : p.1 = C.nodeCount
          · by_cases hqn : q.1 = C.nodeCount
            · rw [hpn, hqn]
            · exfalso
              have hp2 : p.2 = nnd := by
                rw [hpn, hnns] at hpl
                exact (Option.some.inj hpl).symm
              have h0q := mid_lv1_rev hmid hqn hql
              refine no_node_named_child hC hroot hv hnone h0q ?_
              rw [← hname, hp2, hnname]
          · by_cases hqn : q.1 = C.nodeCount
            · exfalso
              have hq2 : q.2 = nnd := by
                rw [hqn, hnns] at hql
                exact (Option.some.inj hql).symm
              have h0p := mid_lv1_rev hmid hpn hpl
              refine no_node_named_child hC hroot hv hnone h0p ?_
              rw [hname, hq2, hnname]
            · have h0p := mid_lv1_rev hmid hpn hpl
              have h0q := mid_lv1_rev hmid hqn hql
              exact canon_inj hC h0p h0q hname
        · rw [hmid.2.2.2.1 k hk1 hk2] at hpl hql
          exact canon_inj hC hpl hql hname

/-- The existence of the sibling `root \ {w} ∪ {v}` makes the parent's
coboundary lookup along `v` succeed. -/
theorem sib_lookup {C : Cplx} {lv rootId : Nat} {rnd : CNode}
    (hC : CanonP C) (hroot : alookup rootId (C.tbl lv) = some rnd)
    {v : Int} (hv : v ∉ akeys rnd.down)
    {w : Int} {pid : Nat} (hm : (w, pid) ∈ rnd.down)
    (hn : HasName C lv (skeyIns v ((akeys rnd.down).erase w))) :
    ∃ c, alookup v (C.getN (lv - 1) pid).up = some c ∧
      (alookup c (C.tbl lv)).isSome = true := by
  obtain ⟨_, _, hnpr⟩ := canon_node hC hroot
  obtain ⟨pnd, hpn0, hpu0, hpname0⟩ := hnpr.2.2.2.2.1 (w, pid) hm
  have hpn : alookup pid (C.tbl (lv - 1)) = some pnd := hpn0
  have hpname : akeys pnd.down = (akeys rnd.down).erase w := hpname0
  obtain ⟨cid, cnd, hcn, hcname⟩ := hn
  obtain ⟨_, _, hnpc⟩ := canon_node hC hcn
  have hvc : v ∈ akeys cnd.down := by
    rw [hcname, mem_skeyIns]
    exact Or.inl rfl
  obtain ⟨qid, hq⟩ := Option.isSome_iff_exists.1 ((alookup_isSome_iff_mem v cnd.down).2 hvc)
  obtain ⟨qnd, hqn0, hqup0, hqname0⟩ := hnpc.2.2.2.2.1 (v, qid) (alookup_mem hq)
  have hqn : alookup qid (C.tbl (lv - 1)) = some qnd := hqn0
  have hqup : alookup v qnd.up = some cid := hqup0
  have hqname : akeys qnd.down = (akeys cnd.down).erase v := hqname0
  have hvnotin : v ∉ (akeys rnd.down).erase w := by
    intro hmem
    exact hv (List.mem_of_mem_erase hmem)
  have hqname' : akeys qnd.down = akeys pnd.down := by
    rw [hqname, hcname, skeyIns_erase_self v _ hvnotin, hpname]
  have hqpid : qid = pid := canon_inj hC hqn hpn hqname'
  subst hqpid
  rw [hpn] at hqn
  have hqpnd : qnd = pnd := (Option.some.inj hqn).symm
  subst hqpnd
  refine ⟨cid, ?_, by rw [hcn]; rfl⟩
  unfold Cplx.getN
  rw [hpn]
  exact hqup

set_option maxHeartbeats 1000000 in
theorem insert_raw_step_canon
    (C : Cplx) (lv rootId : Nat) (v : Int) (rnd : CNode)
    (hC : CanonP C)
    (hroot : alookup rootId (C.tbl lv) = some rnd)
    (hv : v ∉ akeys rnd.down)
    (hlv : lv < C.topLevel)
    (hsib : ∀ w ∈ akeys rnd.down, HasName C lv (skeyIns v ((akeys rnd.down).erase w))) :
    ∃ C' nn, insert_raw_step C lv rootId v = some (C', nn) ∧
      CanonP C' ∧ Stable C C' ∧
      ∃ nnd, alookup nn (C'.tbl (lv + 1)) = some nnd ∧
        akeys nnd.down = skeyIns v (akeys rnd.down) := by
  have hgetN : C.getN lv rootId = rnd := by
    unfold Cplx.getN
    rw [hroot]
    rfl
  cases hup : alookup v rnd.up with
  | some nn =>
    refine ⟨C, nn, ?_, hC, Stable.rfl' C, ?_⟩
    · unfold insert_raw_step
      rw [hgetN, hup]
    · exact canon_child_name hC hroot hup
  | none =>
    set C3 := (((create_node C (lv + 1)).1.updN (lv + 1) C.nodeCount
        (fun n => { n with down := ainsert v rootId n.down })).updN lv rootId
        (fun n => { n with up := ainsert v C.nodeCount n.up })) with hC3def
    have hmid0 : Mid C lv rootId v rnd C.nodeCount [] C3 :=
      mid_base C lv rootId v rnd hC hroot hlv
    have hstep : insert_raw_step C lv rootId v =
        (match backfill C3 lv rootId C.nodeCount v with
         | none => none
         | some C4 => some (C4, C.nodeCount)) := by
      unfold insert_raw_step
      rw [hgetN, hup]
      rfl
    obtain ⟨_, _, hnpr⟩ := canon_node hC hroot
    have hmidF : ∃ C4, backfill C3 lv rootId C.nodeCount v = some C4 ∧
        Mid C lv rootId v rnd C.nodeCount (akeys rnd.down) C4 := by
      by_cases hlv0 : lv = 0
      · -- the root has an empty boundary; backfill is a no-op
        have hdn : rnd.down = [] := by
          have := hnpr.2.2.1
          rw [hlv0] at this
          exact List.length_eq_zero.1 this
        refine ⟨C3, ?_, ?_⟩
        · unfold backfill
          rw [if_pos hlv0]
        · rw [hdn]
          exact hmid0
      · -- run the loop over the root's boundary
        have hsibs : ∀ e ∈ rnd.down, ∃ c,
            alookup v (C.getN (lv - 1) e.2).up = some c ∧
            (alookup c (C.tbl lv)).isSome = true := by
          intro e he
          have he' : ((e.1, e.2) : Int × Nat) ∈ rnd.down := he
          exact sib_lookup hC hroot hv he'
            (hsib e.1 (List.mem_map_of_mem _ he))
        have hCsort : ∀ j, chainLt ((C.tbl j).map Prod.fst) = true := canon_sorted hC
        obtain ⟨C4, hgo, hmidF⟩ := backfill_go_mid C lv rootId v rnd C.nodeCount
          (by omega) hv hnpr.1 hCsort hsibs rnd.down [] C3 rfl hmid0
        refine ⟨C4, ?_, hmidF⟩
        unfold backfill
        rw [if_neg hlv0]
        have hgd : (C3.getN lv rootId).down = rnd.down := by
          obtain ⟨nd1, hl1, hd1, _⟩ := hmid0.2.2.2.2.2.2.2.2 rootId rnd hroot
          unfold Cplx.getN
          rw [hl1]
          exact hd1
        rw [hgd]
        exact hgo
    obtain ⟨C4, hbf, hmidF⟩ := hmidF
    refine ⟨C4, C.nodeCount, ?_, ?_, mid_stable hC hmidF, ?_⟩
    · rw [hstep, hbf]
    · exact mid_final hC hroot hv hup hlv hmidF
    · obtain ⟨nnd, hs, _, _, hname, _, _⟩ := mid_nn_name hC hroot hv hmidF
      exact ⟨nnd, hs, hname⟩

/-! ## The full closure insertion -/

theorem sub_singleton {α : Type} {l : List α} {x : α} (h : l.Sublist [x]) :
    l = [] ∨ l = [x] := by
  cases h with
  | cons _ h' =>
    left
    exact List.sublist_nil.1 h'
  | cons₂ _ h' =>
    right
    rw [List.sublist_nil.1 h']

theorem sublist_append_decomp {α : Type} :
    ∀ {T A B : List α}, T.Sublist (A ++ B) →
      ∃ T1 T2, T = T1 ++ T2 ∧ T1.Sublist A ∧ T2.Sublist B := by
  intro T A B h
  induction A generalizing T with
  | nil => exact ⟨[], T, rfl, List.nil_sublist _, h⟩
  | cons a A ih =>
    cases h with
    | cons _ h' =>
      obtain ⟨T1, T2, rfl, h1, h2⟩ := ih h'
      exact ⟨T1, T2, rfl, h1.cons a, h2⟩
    | cons₂ _ h' =>
      obtain ⟨T1, T2, rfl, h1, h2⟩ := ih h'
      exact ⟨a :: T1, T2, rfl, h1.cons₂ a, h2⟩

set_option maxHeartbeats 2000000 in
theorem insert_full_canon :
    ∀ (n : Nat) (C : Cplx) (lv rootId : Nat) (rnd : CNode) (s : List Int),
      CanonP C →
      alookup rootId (C.tbl lv) = some rnd →
      n ≤ s.length →
      (s.take n).Nodup →
      (∀ x ∈ s.take n, x ∉ akeys rnd.down) →
      lv + n ≤ C.topLevel →
      (∀ T, T ≠ [] → T.Sublist (s.take n) → ∀ w ∈ akeys rnd.down,
        HasName C (lv - 1 + T.length) (keysUnion T ((akeys rnd.down).erase w))) →
      ∃ C' res, insert_full n C lv rootId s = some (C', res) ∧
        CanonP C' ∧ Stable C C' ∧
        (∀ T, T ≠ [] → T.Sublist (s.take n) →
          HasName C' (lv + T.length) (keysUnion T (akeys rnd.down))) ∧
        ∃ resnd, alookup res (C'.tbl (lv + n)) = some resnd ∧
          akeys resnd.down = keysUnion (s.take n) (akeys rnd.down) := by
  intro n
  induction n with
  | zero =>
    intro C lv rootId rnd s hC hroot _ _ _ _ _
    refine ⟨C, rootId, rfl, hC, Stable.rfl' C, ?_, rnd, hroot, rfl⟩
    intro T hT hTs
    exact absurd (List.sublist_nil.1 hTs) hT
  | succ n ih =>
    intro C lv rootId rnd s hC hroot hn hdist hnotR htop hsibs
    have hnlt : n < s.length := by omega
    set vkey := s.getD n 0 with hvkey
    have htake : s.take (n + 1) = s.take n ++ [vkey] := take_succ_getD s n hnlt
    have hsubn : (s.take n).Sublist (s.take (n + 1)) := by
      rw [htake]
      exact List.sublist_append_left _ _
    have hvmem : vkey ∈ s.take (n + 1) := by
      rw [htake]
      exact List.mem_append.2 (Or.inr (List.mem_cons_self ..))
    have hdistn : (s.take n).Nodup := by
      rw [htake] at hdist
      exact (List.nodup_append.1 hdist).1
    have hvtake : vkey ∉ s.take n := by
      rw [htake] at hdist
      intro hmem
      exact (List.nodup_append.1 hdist).2.2 hmem (List.mem_cons_self ..)
    have hvR : vkey ∉ akeys rnd.down := hnotR vkey hvmem
    have hRsort : chainLt (akeys rnd.down) = true := (canon_node hC hroot).2.2.1
    -- step 1: insert the closure of the first n keys over the same root
    obtain ⟨C1, res1, heq1, hC1, hst1, hnew1, _⟩ :=
      ih C lv rootId rnd s hC hroot (by omega) hdistn
        (fun x hx => hnotR x (hsubn.mem hx)) (by omega)
        (fun T hT hTs w hw => hsibs T hT (hTs.trans hsubn) w hw)
    -- step 2: attach the node for root ∪ {vkey}
    obtain ⟨rnd1, hroot1, hrd1⟩ := hst1.2.2.2 lv rootId rnd hroot
    have hkeys1 : akeys rnd1.down = akeys rnd.down := by rw [hrd1]
    have hlvtop : lv < C1.topLevel := by
      rw [hst1.1]
      omega
    obtain ⟨C2, nn, heq2, hC2, hst2, nnd, hnn, hnname⟩ :=
      insert_raw_step_canon C1 lv rootId vkey rnd1 hC1 hroot1
        (by rw [hkeys1]; exact hvR) hlvtop
        (by
          intro w hw
          rw [hkeys1] at hw
          rw [hkeys1]
          have hlv1 : 1 ≤ lv := by
            have hRlen : rnd.down.length = lv := (canon_node hC hroot).2.2.2.2.1
            have : rnd.down ≠ [] := by
              intro hnil
              rw [hnil] at hw
              cases hw
            have : 0 < rnd.down.length := List.length_pos.2 this
            omega
          have hone := hsibs [vkey] (by simp) (by
            rw [htake]
            exact List.sublist_append_right _ _) w hw
          have hdim : lv - 1 + ([vkey] : List Int).length = lv := by
            simp
            omega
          rw [hdim] at hone
          exact HasName_mono hst1 hone)
    have hnname' : akeys nnd.down = skeyIns vkey (akeys rnd.down) := by
      rw [hnname, hkeys1]
    -- step 3: insert the closure of the first n keys over the new node
    obtain ⟨C3, res, heq3, hC3, hst3, hnew3, resnd, hres, hresname⟩ :=
      ih C2 (lv + 1) nn nnd s hC2 hnn (by omega) hdistn
        (by
          intro x hx
          rw [hnname', mem_skeyIns]
          rintro (hh | hh)
          · exact hvtake (hh ▸ hx)
          · exact hnotR x (hsubn.mem hx) hh)
        (by
          rw [hst2.1, hst1.1]
          omega)
        (by
          intro T hT hTs w hw
          rw [hnname', mem_skeyIns] at hw
          rcases hw with hw | hw
          · -- w = vkey: the sibling is root ∪ T, created in step 1
            have herase : (akeys nnd.down).erase w = akeys rnd.down := by
              rw [hw, hnname', skeyIns_erase_self _ _ hvR]
            rw [herase]
            have := hnew1 T hT hTs
            have hdim : lv + 1 - 1 + T.length = lv + T.length := by omega
            rw [hdim]
            exact HasName_mono hst2 this
          · -- w in the root name: the sibling is (root \ {w}) ∪ {vkey} ∪ T
            have hwv : w ≠ vkey := fun hh => hvR (hh ▸ hw)
            have herase : (akeys nnd.down).erase w =
                skeyIns vkey ((akeys rnd.down).erase w) := by
              rw [hnname']
              exact erase_skeyIns_comm vkey w _ hwv hRsort
            rw [herase]
            have hku : keysUnion T (skeyIns vkey ((akeys rnd.down).erase w)) =
                keysUnion (T ++ [vkey]) ((akeys rnd.down).erase w) := by
              rw [keysUnion_append]
              rfl
            rw [hku]
            have hsub' : (T ++ [vkey]).Sublist (s.take (n + 1)) := by
              rw [htake]
              exact hTs.append (List.Sublist.refl _)
            have hlv1 : 1 ≤ lv := by
              have hRlen : rnd.down.length = lv := (canon_node hC hroot).2.2.2.2.1
              have hne : rnd.down ≠ [] := by
                intro hnil
                rw [hnil] at hw
                cases hw
              have : 0 < rnd.down.length := List.length_pos.2 hne
              omega
            have hfact := hsibs (T ++ [vkey]) (by simp) hsub' w hw
            have hdim : lv - 1 + (T ++ [vkey]).length = lv + 1 - 1 + T.length := by
              rw [List.length_append]
              simp
              omega
            rw [hdim] at hfact
            exact HasName_mono (hst1.trans' hst2) hfact)
    -- assemble
    have hcomp : insert_full (n + 1) C lv rootId s = insert_full n C2 (lv + 1) nn s := by
      show (match insert_full n C lv rootId s with
            | none => none
            | some (C1', _) =>
              match insert_raw_step C1' lv rootId (s.getD n 0) with
              | none => none
              | some (C2', nn') => insert_full n C2' (lv + 1) nn' s) =
          insert_full n C2 (lv + 1) nn s
      rw [heq1]
      show (match insert_raw_step C1 lv rootId (s.getD n 0) with
            | none => none
            | some (C2', nn') => insert_full n C2' (lv + 1) nn' s) =
          insert_full n C2 (lv + 1) nn s
      rw [← hvkey, heq2]
    refine ⟨C3, res, by rw [hcomp, heq3], hC3, (hst1.trans' hst2).trans' hst3, ?_, ?_⟩
    · -- all names root ∪ T for nonempty subsets T of the first n+1 keys
      intro T hT hTs
      rw [htake] at hTs
      obtain ⟨T1, T2, rfl, h1, h2⟩ := sublist_append_decomp hTs
      rcases sub_singleton h2 with h2e | h2v
      · subst h2e
        rw [List.append_nil] at hT ⊢
        exact HasName_mono (hst2.trans' hst3) (hnew1 T1 hT h1)
      · subst h2v
        by_cases hT1 : T1 = []
        · subst hT1
          have hname : keysUnion ([] ++ [vkey]) (akeys rnd.down) =
              akeys nnd.down := by
            rw [hnname']
            rfl
          rw [hname]
          have hlen : lv + (([] : List Int) ++ [vkey]).length = lv + 1 := by simp
          rw [hlen]
          exact HasName_mono hst3 ⟨nn, nnd, hnn, rfl⟩
        · have hname : keysUnion (T1 ++ [vkey]) (akeys rnd.down) =
              keysUnion T1 (akeys nnd.down) := by
            rw [keysUnion_append, hnname']
            rfl
          rw [hname]
          have hlen : lv + (T1 ++ [vkey]).length = lv + 1 + T1.length := by
            rw [List.length_append]
            simp
            omega
          rw [hlen]
          exact hnew3 T1 hT1 h1
    · -- the returned node carries the full name
      refine ⟨resnd, ?_, ?_⟩
      · have hdim : lv + 1 + n = lv + (n + 1) := by omega
        rw [hdim] at hres
        exact hres
      · rw [hresname, hnname', htake, keysUnion_append]
        rfl

/-- `insert(s)` on a canonical complex with a duplicate-free name of
dimension at most the top dimension succeeds and preserves the canonical
invariant. -/
theorem insertS_canon (C : Cplx) (s : List Int)
    (hC : CanonP C) (hdist : s.Nodup) (hlen : s.length ≤ C.topLevel) :
    ∃ C' res, insertS C s = some (C', res) ∧ CanonP C' := by
  have hC0 : CanonP { C with unused := s.foldl (fun h x => (remove_scalar h x).1) C.unused } :=
    hC
  obtain ⟨rnd0, hr0, hr0d⟩ := canon_root hC0
  obtain ⟨C', res, heq, hC', _⟩ :=
    insert_full_canon s.length
      { C with unused := s.foldl (fun h x => (remove_scalar h x).1) C.unused }
      0 0 rnd0 s hC0 hr0 (le_refl _)
      (by rw [List.take_length]; exact hdist)
      (by
        intro x _
        rw [hr0d]
        intro hmem
        cases hmem)
      (by simpa using hlen)
      (by
        intro T _ _ w hw
        rw [hr0d] at hw
        cases hw)
  exact ⟨C', res, heq, hC'⟩

theorem NodeD_of_NodeP {Ci : Cplx} {lv : Nat} {S acc : List Nat} {k i : Nat}
    {nd : CNode} (h : NodeP Ci k i nd) : NodeD Ci lv S acc k i nd := by
  refine ⟨h.1, h.2.1, h.2.2.1, h.2.2.2.1, ?_, h.2.2.2.2.2⟩
  intro p hp
  obtain ⟨pnd, h1, h2, h3⟩ := h.2.2.2.2.1 p hp
  exact ⟨pnd, h1, h2, fun _ _ => h3⟩

theorem NodeP_of_NodeD {Ci : Cplx} {lv : Nat} {k i : Nat} {nd : CNode}
    (h : NodeD Ci lv [] [] k i nd) : NodeP Ci k i nd := by
  refine ⟨h.1, h.2.1, h.2.2.1, h.2.2.2.1, ?_, h.2.2.2.2.2⟩
  intro p hp
  obtain ⟨pnd, h1, h2, h3⟩ := h.2.2.2.2.1 p hp
  exact ⟨pnd, h1, h2, h3 (fun hh => by cases hh.2) (fun hh => by cases hh.2)⟩

theorem WeakP_of_NodeD {Ci : Cplx} {lv : Nat} {S acc : List Nat} {k i : Nat}
    {nd : CNode} (h : NodeD Ci lv S acc k i nd) : WeakP Ci k i nd := by
  refine ⟨h.1, h.2.1, h.2.2.2.1, ?_, h.2.2.2.2.2⟩
  intro p hp
  obtain ⟨pnd, h1, h2, _⟩ := h.2.2.2.2.1 p hp
  exact ⟨pnd, h1, h2⟩

set_option maxHeartbeats 1000000 in
theorem erase_up_fold_spec (lv1 : Nat) (L : List (Int × Nat)) :
    ∀ (C0 : Cplx), chainLt ((C0.tbl lv1).map Prod.fst) = true →
      ∃ Ce, L.foldl (fun acc (p : Int × Nat) =>
          acc.updN lv1 p.2 (fun n => { n with up := aerase p.1 n.up })) C0 = Ce ∧
        Ce.topLevel = C0.topLevel ∧
        Ce.levels.length = C0.levels.length ∧
        Ce.nodeCount = C0.nodeCount ∧
        (∀ j, j ≠ lv1 → Ce.tbl j = C0.tbl j) ∧
        (Ce.tbl lv1).map Prod.fst = (C0.tbl lv1).map Prod.fst ∧
        (∀ x nd0, alookup x (C0.tbl lv1) = some nd0 →
          ∃ nd1, alookup x (Ce.tbl lv1) = some nd1 ∧
            nd1.down = nd0.down ∧
            (chainLt (akeys nd0.up) = true →
              chainLt (akeys nd1.up) = true ∧
              (∀ b, ((b, x) : Int × Nat) ∈ L → alookup b nd1.up = none) ∧
              (∀ b, (∀ e ∈ L, ¬(e.1 = b ∧ e.2 = x)) →
                alookup b nd1.up = alookup b nd0.up))) ∧
        (∀ x nd0, alookup x (C0.tbl lv1) = some nd0 → (∀ e ∈ L, e.2 ≠ x) →
          alookup x (Ce.tbl lv1) = some nd0) := by
  induction L with
  | nil =>
    intro C0 _
    refine ⟨C0, rfl, rfl, rfl, rfl, fun _ _ => rfl, rfl, ?_, fun _ _ h _ => h⟩
    intro x nd0 h
    refine ⟨nd0, h, rfl, fun hs => ⟨hs, ?_, fun _ _ => rfl⟩⟩
    intro b hb
    cases hb
  | cons e rest ih =>
    intro C0 hsort
    obtain ⟨w, par⟩ := e
    cases hpar : alookup par (C0.tbl lv1) with
    | none =>
      have hid : C0.updN lv1 par (fun n => { n with up := aerase w n.up }) = C0 := by
        unfold Cplx.updN
        rw [hpar]
      obtain ⟨Ce, heq, h1, h2, h3, h4, h5, h6, h7⟩ := ih C0 hsort
      refine ⟨Ce, ?_, h1, h2, h3, h4, h5, ?_, ?_⟩
      · show List.foldl _ (C0.updN lv1 par (fun n => { n with up := aerase w n.up })) rest = Ce
        rw [hid]
        exact heq
      · intro x nd0 h
        obtain ⟨nd1, hl1, hd1, hcond⟩ := h6 x nd0 h
        refine ⟨nd1, hl1, hd1, fun hs => ?_⟩
        obtain ⟨hs1, hnone, hunch⟩ := hcond hs
        refine ⟨hs1, ?_, ?_⟩
        · intro b hb
          rcases List.mem_cons.1 hb with hb | hb
          · exfalso
            have hxp : x = par := congrArg Prod.snd hb
            rw [← hxp] at hpar
            rw [h] at hpar
            cases hpar
          · exact hnone b hb
        · intro b hbz
          exact hunch b (fun e' he' => hbz e' (List.mem_cons_of_mem _ he'))
      · intro x nd0 h hne
        exact h7 x nd0 h (fun e' he' => hne e' (List.mem_cons_of_mem _ he'))
    | some pnd0 =>
      set pnd1 := { pnd0 with up := aerase w pnd0.up } with hpnd1
      have htbl : (C0.updN lv1 par (fun n => { n with up := aerase w n.up })).tbl lv1 =
          ainsert par pnd1 (C0.tbl lv1) := tbl_updN_self _ hpar
      set C0' := C0.updN lv1 par (fun n => { n with up := aerase w n.up }) with hC0'
      have hsort' : chainLt ((C0'.tbl lv1).map Prod.fst) = true := by
        rw [htbl, map_fst_ainsert_present par _ _ hsort (by rw [hpar]; rfl)]
        exact hsort
      obtain ⟨Ce, heq, h1, h2, h3, h4, h5, h6, h7⟩ := ih C0' hsort'
      refine ⟨Ce, heq, ?_, ?_, ?_, ?_, ?_, ?_, ?_⟩
      · rw [h1, hC0', updN_topLevel]
      · rw [h2, hC0', updN_length]
      · rw [h3, hC0', updN_nodeCount]
      · intro j hj
        rw [h4 j hj, hC0', tbl_updN_ne _ hj]
      · rw [h5, htbl, map_fst_ainsert_present par _ _ hsort (by rw [hpar]; rfl)]
      · intro x nd0 h
        by_cases hxp : x = par
        · subst hxp
          have hnd0 : nd0 = pnd0 := by
            rw [hpar] at h
            exact (Option.some.inj h).symm
          have hl' : alookup x (C0'.tbl lv1) = some pnd1 := by
            rw [htbl, alookup_ainsert, if_pos rfl]
          obtain ⟨nd1, hl1, hd1, hcond⟩ := h6 x pnd1 hl'
          refine ⟨nd1, hl1, by rw [hd1, hnd0], fun hs => ?_⟩
          have hs0 : chainLt (akeys pnd0.up) = true := by rw [← hnd0]; exact hs
          have hnodup : (akeys pnd0.up).Nodup := nodup_of_chainLt hs0
          have hs1 : chainLt (akeys pnd1.up) = true := by
            show chainLt (akeys (aerase w pnd0.up)) = true
            rw [akeys_aerase]
            exact chainLt_erase hs0 w
          obtain ⟨hsc, hnone, hunch⟩ := hcond hs1
          refine ⟨hsc, ?_, ?_⟩
          · intro b hb
            rcases List.mem_cons.1 hb with hb | hb
            · have hbw : b = w := congrArg Prod.fst hb
              by_cases hbr : ((b, x) : Int × Nat) ∈ rest
              · exact hnone b hbr
              · rw [hunch b (by
                  intro e' he' hcon
                  refine hbr ?_
                  rw [show ((b, x) : Int × Nat) = e' from (Prod.ext hcon.1 hcon.2).symm]
                  exact he')]
                show alookup b (aerase w pnd0.up) = none
                rw [alookup_aerase _ _ _ hnodup, if_pos hbw]
            · exact hnone b hb
          · intro b hbz
            have hbw : b ≠ w := by
              intro hh
              exact (hbz (w, x) (List.mem_cons_self ..)) ⟨hh.symm, rfl⟩
            rw [hunch b (fun e' he' => hbz e' (List.mem_cons_of_mem _ he'))]
            show alookup b (aerase w pnd0.up) = alookup b nd0.up
            rw [alookup_aerase _ _ _ hnodup, if_neg hbw, hnd0]
        · have hl0' : alookup x (C0'.tbl lv1) = some nd0 := by
            rw [htbl, alookup_ainsert, if_neg hxp]
            exact h
          obtain ⟨nd1, hl1, hd1, hcond⟩ := h6 x nd0 hl0'
          refine ⟨nd1, hl1, hd1, fun hs => ?_⟩
          obtain ⟨hsc, hnone, hunch⟩ := hcond hs
          refine ⟨hsc, ?_, ?_⟩
          · intro b hb
            rcases List.mem_cons.1 hb with hb | hb
            · exact absurd (congrArg Prod.snd hb) hxp
            · exact hnone b hb
          · intro b hbz
            exact hunch b (fun e' he' => hbz e' (List.mem_cons_of_mem _ he'))
      · intro x nd0 h hne
        have hpx : par ≠ x := hne (w, par) (List.mem_cons_self ..)
        have hl0' : alookup x (C0'.tbl lv1) = some nd0 := by
          rw [htbl, alookup_ainsert, if_neg (fun hh => hpx hh.symm)]
          exact h
        exact h7 x nd0 hl0' (fun e' he' => hne e' (List.mem_cons_of_mem _ he'))

set_option maxHeartbeats 1000000 in
theorem erase_down_fold_spec (lv1 : Nat) (L : List (Int × Nat)) :
    ∀ (C0 : Cplx), chainLt ((C0.tbl lv1).map Prod.fst) = true →
      ∃ Ce, L.foldl (fun acc (p : Int × Nat) =>
          acc.updN lv1 p.2 (fun n => { n with down := aerase p.1 n.down })) C0 = Ce ∧
        Ce.topLevel = C0.topLevel ∧
        Ce.levels.length = C0.levels.length ∧
        Ce.nodeCount = C0.nodeCount ∧
        (∀ j, j ≠ lv1 → Ce.tbl j = C0.tbl j) ∧
        (Ce.tbl lv1).map Prod.fst = (C0.tbl lv1).map Prod.fst ∧
        (∀ x nd0, alookup x (C0.tbl lv1) = some nd0 →
          ∃ nd1, alookup x (Ce.tbl lv1) = some nd1 ∧
            nd1.up = nd0.up ∧
            (chainLt (akeys nd0.down) = true →
              chainLt (akeys nd1.down) = true ∧
              (∀ b, ((b, x) : Int × Nat) ∈ L → alookup b nd1.down = none) ∧
              (∀ b, (∀ e ∈ L, ¬(e.1 = b ∧ e.2 = x)) →
                alookup b nd1.down = alookup b nd0.down))) ∧
        (∀ x nd0, alookup x (C0.tbl lv1) = some nd0 → (∀ e ∈ L, e.2 ≠ x) →
          alookup x (Ce.tbl lv1) = some nd0) := by
  induction L with
  | nil =>
    intro C0 _
    refine ⟨C0, rfl, rfl, rfl, rfl, fun _ _ => rfl, rfl, ?_, fun _ _ h _ => h⟩
    intro x nd0 h
    refine ⟨nd0, h, rfl, fun hs => ⟨hs, ?_, fun _ _ => rfl⟩⟩
    intro b hb
    cases hb
  | cons e rest ih =>
    intro C0 hsort
    obtain ⟨w, par⟩ := e
    cases hpar : alookup par (C0.tbl lv1) with
    | none =>
      have hid : C0.updN lv1 par (fun n => { n with down := aerase w n.down }) = C0 := by
        unfold Cplx.updN
        rw [hpar]
      obtain ⟨Ce, heq, h1, h2, h3, h4, h5, h6, h7⟩ := ih C0 hsort
      refine ⟨Ce, ?_, h1, h2, h3, h4, h5, ?_, ?_⟩
      · show List.foldl _ (C0.updN lv1 par (fun n => { n with down := aerase w n.down }))
            rest = Ce
        rw [hid]
        exact heq
      · intro x nd0 h
        obtain ⟨nd1, hl1, hd1, hcond⟩ := h6 x nd0 h
        refine ⟨nd1, hl1, hd1, fun hs => ?_⟩
        obtain ⟨hs1, hnone, hunch⟩ := hcond hs
        refine ⟨hs1, ?_, ?_⟩
        · intro b hb
          rcases List.mem_cons.1 hb with hb | hb
          · exfalso
            have hxp : x = par := congrArg Prod.snd hb
            rw [← hxp] at hpar
            rw [h] at hpar
            cases hpar
          · exact hnone b hb
        · intro b hbz
          exact hunch b (fun e' he' => hbz e' (List.mem_cons_of_mem _ he'))
      · intro x nd0 h hne
        exact h7 x nd0 h (fun e' he' => hne e' (List.mem_cons_of_mem _ he'))
    | some pnd0 =>
      set pnd1 := { pnd0 with down := aerase w pnd0.down } with hpnd1
      have htbl : (C0.updN lv1 par (fun n => { n with down := aerase w n.down })).tbl lv1 =
          ainsert par pnd1 (C0.tbl lv1) := tbl_updN_self _ hpar
      set C0' := C0.updN lv1 par (fun n => { n with down := aerase w n.down }) with hC0'
      have hsort' : chainLt ((C0'.tbl lv1).map Prod.fst) = true := by
        rw [htbl, map_fst_ainsert_present par _ _ hsort (by rw [hpar]; rfl)]
        exact hsort
      obtain ⟨Ce, heq, h1, h2, h3, h4, h5, h6, h7⟩ := ih C0' hsort'
      refine ⟨Ce, heq, ?_, ?_, ?_, ?_, ?_, ?_, ?_⟩
      · rw [h1, hC0', updN_topLevel]
      · rw [h2, hC0', updN_length]
      · rw [h3, hC0', updN_nodeCount]
      · intro j hj
        rw [h4 j hj, hC0', tbl_updN_ne _ hj]
      · rw [h5, htbl, map_fst_ainsert_present par _ _ hsort (by rw [hpar]; rfl)]
      · intro x nd0 h
        by_cases hxp : x = par
        · subst hxp
          have hnd0 : nd0 = pnd0 := by
            rw [hpar] at h
            exact (Option.some.inj h).symm
          have hl' : alookup x (C0'.tbl lv1) = some pnd1 := by
            rw [htbl, alookup_ainsert, if_pos rfl]
          obtain ⟨nd1, hl1, hd1, hcond⟩ := h6 x pnd1 hl'
          refine ⟨nd1, hl1, by rw [hd1, hnd0], fun hs => ?_⟩
          have hs0 : chainLt (akeys pnd0.down) = true := by rw [← hnd0]; exact hs
          have hnodup : (akeys pnd0.down).Nodup := nodup_of_chainLt hs0
          have hs1 : chainLt (akeys pnd1.down) = true := by
            show chainLt (akeys (aerase w pnd0.down)) = true
            rw [akeys_aerase]
            exact chainLt_erase hs0 w
          obtain ⟨hsc, hnone, hunch⟩ := hcond hs1
          refine ⟨hsc, ?_, ?_⟩
          · intro b hb
            rcases List.mem_cons.1 hb with hb | hb
            · have hbw : b = w := congrArg Prod.fst hb
              by_cases hbr : ((b, x) : Int × Nat) ∈ rest
              · exact hnone b hbr
              · rw [hunch b (by
                  intro e' he' hcon
                  refine hbr ?_
                  rw [show ((b, x) : Int × Nat) = e' from (Prod.ext hcon.1 hcon.2).symm]
                  exact he')]
                show alookup b (aerase w pnd0.down) = none
                rw [alookup_aerase _ _ _ hnodup, if_pos hbw]
            · exact hnone b hb
          · intro b hbz
            have hbw : b ≠ w := by
              intro hh
              exact (hbz (w, x) (List.mem_cons_self ..)) ⟨hh.symm, rfl⟩
            rw [hunch b (fun e' he' => hbz e' (List.mem_cons_of_mem _ he'))]
            show alookup b (aerase w pnd0.down) = alookup b nd0.down
            rw [alookup_aerase _ _ _ hnodup, if_neg hbw, hnd0]
        · have hl0' : alookup x (C0'.tbl lv1) = some nd0 := by
            rw [htbl, alookup_ainsert, if_neg hxp]
            exact h
          obtain ⟨nd1, hl1, hd1, hcond⟩ := h6 x nd0 hl0'
          refine ⟨nd1, hl1, hd1, fun hs => ?_⟩
          obtain ⟨hsc, hnone, hunch⟩ := hcond hs
          refine ⟨hsc, ?_, ?_⟩
          · intro b hb
            rcases List.mem_cons.1 hb with hb | hb
            · exact absurd (congrArg Prod.snd hb) hxp
            · exact hnone b hb
          · intro b hbz
            exact hunch b (fun e' he' => hbz e' (List.mem_cons_of_mem _ he'))
      · intro x nd0 h hne
        have hpx : par ≠ x := hne (w, par) (List.mem_cons_self ..)
        have hl0' : alookup x (C0'.tbl lv1) = some nd0 := by
          rw [htbl, alookup_ainsert, if_neg (fun hh => hpx hh.symm)]
          exact h
        exact h7 x nd0 hl0' (fun e' he' => hne e' (List.mem_cons_of_mem _ he'))

set_option maxHeartbeats 1000000 in
theorem remove_node_spec (Ci : Cplx) (lv i : Nat) (nd : CNode)
    (hpres : alookup i (Ci.tbl lv) = some nd)
    (hlen : Ci.levels.length = Ci.topLevel + 1)
    (hlv1 : 1 ≤ lv) (hlvtop : lv ≤ Ci.topLevel)
    (htopup : lv = Ci.topLevel → nd.up = [])
    (hsort : ∀ k, chainLt ((Ci.tbl k).map Prod.fst) = true) :
    ∃ Ce, remove_node Ci lv i = Ce ∧
      Ce.topLevel = Ci.topLevel ∧
      Ce.levels.length = Ci.levels.length ∧
      Ce.nodeCount = Ci.nodeCount ∧
      (∀ j, j ≠ lv - 1 → j ≠ lv → j ≠ lv + 1 → Ce.tbl j = Ci.tbl j) ∧
      ((Ce.tbl lv).map Prod.fst = ((Ci.tbl lv).map Prod.fst).erase i) ∧
      (alookup i (Ce.tbl lv) = none) ∧
      (∀ x, x ≠ i → alookup x (Ce.tbl lv) = alookup x (Ci.tbl lv)) ∧
      ((Ce.tbl (lv - 1)).map Prod.fst = (Ci.tbl (lv - 1)).map Prod.fst) ∧
      (∀ x nd0, alookup x (Ci.tbl (lv - 1)) = some nd0 →
        ∃ nd1, alookup x (Ce.tbl (lv - 1)) = some nd1 ∧ nd1.down = nd0.down ∧
          (chainLt (akeys nd0.up) = true →
            chainLt (akeys nd1.up) = true ∧
            (∀ b, ((b, x) : Int × Nat) ∈ nd.down → alookup b nd1.up = none) ∧
            (∀ b, (∀ e ∈ nd.down, ¬(e.1 = b ∧ e.2 = x)) →
              alookup b nd1.up = alookup b nd0.up))) ∧
      ((Ce.tbl (lv + 1)).map Prod.fst = (Ci.tbl (lv + 1)).map Prod.fst) ∧
      (∀ x nd0, alookup x (Ci.tbl (lv + 1)) = some nd0 →
        ∃ nd1, alookup x (Ce.tbl (lv + 1)) = some nd1 ∧ nd1.up = nd0.up ∧
          (chainLt (akeys nd0.down) = true →
            chainLt (akeys nd1.down) = true ∧
            (∀ b, ((b, x) : Int × Nat) ∈ nd.up → alookup b nd1.down = none) ∧
            (∀ b, (∀ e ∈ nd.up, ¬(e.1 = b ∧ e.2 = x)) →
              alookup b nd1.down = alookup b nd0.down))) ∧
      (∀ x nd0, alookup x (Ci.tbl (lv - 1)) = some nd0 → (∀ e ∈ nd.down, e.2 ≠ x) →
        alookup x (Ce.tbl (lv - 1)) = some nd0) ∧
      (∀ x nd0, alookup x (Ci.tbl (lv + 1)) = some nd0 → (∀ e ∈ nd.up, e.2 ≠ x) →
        alookup x (Ce.tbl (lv + 1)) = some nd0) := by
  have hget : Ci.getN lv i = nd := by
    unfold Cplx.getN
    rw [hpres]
    rfl
  have hne1 : lv - 1 ≠ lv := by omega
  have hne2 : lv - 1 ≠ lv + 1 := by omega
  have hne3 : lv + 1 ≠ lv := by omega
  -- the optional allocator update leaves everything the invariant reads alone
  set Cu := (if lv = 1 then
      { Ci with unused := nd.down.foldl (fun h p => insert_scalar h p.1) Ci.unused }
    else Ci) with hCu
  have hCutbl : ∀ j, Cu.tbl j = Ci.tbl j := by
    intro j
    rw [hCu]
    split <;> rfl
  have hCutop : Cu.topLevel = Ci.topLevel := by
    rw [hCu]
    split <;> rfl
  have hCulen : Cu.levels.length = Ci.levels.length := by
    rw [hCu]
    split <;> rfl
  have hCucnt : Cu.nodeCount = Ci.nodeCount := by
    rw [hCu]
    split <;> rfl
  -- parent loop
  obtain ⟨C1, heq1, h1top, h1len, h1cnt, h1other, h1keys, h1pt, h1pt2⟩ :=
    erase_up_fold_spec (lv - 1) nd.down Cu (by rw [hCutbl]; exact hsort (lv - 1))
  have hC1tbl : ∀ j, j ≠ lv - 1 → C1.tbl j = Ci.tbl j := by
    intro j hj
    rw [h1other j hj, hCutbl]
  -- child loop (skipped at the top dimension)
  have hchild : ∃ C2,
      (if lv = Ci.topLevel then C1
       else nd.up.foldl (fun acc (p : Int × Nat) =>
         acc.updN (lv + 1) p.2 (fun n => { n with down := aerase p.1 n.down })) C1) = C2 ∧
      C2.topLevel = C1.topLevel ∧ C2.levels.length = C1.levels.length ∧
      C2.nodeCount = C1.nodeCount ∧
      (∀ j, j ≠ lv + 1 → C2.tbl j = C1.tbl j) ∧
      (C2.tbl (lv + 1)).map Prod.fst = (C1.tbl (lv + 1)).map Prod.fst ∧
      (∀ x nd0, alookup x (C1.tbl (lv + 1)) = some nd0 →
        ∃ nd1, alookup x (C2.tbl (lv + 1)) = some nd1 ∧ nd1.up = nd0.up ∧
          (chainLt (akeys nd0.down) = true →
            chainLt (akeys nd1.down) = true ∧
            (∀ b, ((b, x) : Int × Nat) ∈ nd.up → alookup b nd1.down = none) ∧
            (∀ b, (∀ e ∈ nd.up, ¬(e.1 = b ∧ e.2 = x)) →
              alookup b nd1.down = alookup b nd0.down))) ∧
      (∀ x nd0, alookup x (C1.tbl (lv + 1)) = some nd0 → (∀ e ∈ nd.up, e.2 ≠ x) →
        alookup x (C2.tbl (lv + 1)) = some nd0) := by
    by_cases htp : lv = Ci.topLevel
    · rw [if_pos htp]
      refine ⟨C1, rfl, rfl, rfl, rfl, fun _ _ => rfl, rfl, ?_, fun _ _ h _ => h⟩
      intro x nd0 h
      refine ⟨nd0, h, rfl, fun hs => ⟨hs, ?_, fun _ _ => rfl⟩⟩
      intro b hb
      rw [htopup htp] at hb
      cases hb
    · rw [if_neg htp]
      obtain ⟨C2, heq2, h2top, h2len, h2cnt, h2other, h2keys, h2pt, h2pt2⟩ :=
        erase_down_fold_spec (lv + 1) nd.up C1
          (by rw [hC1tbl (lv + 1) hne2.symm]; exact hsort (lv + 1))
      exact ⟨C2, heq2, h2top, h2len, h2cnt, h2other, h2keys, h2pt, h2pt2⟩
  obtain ⟨C2, heq2, h2top, h2len, h2cnt, h2other, h2keys, h2pt, h2pt2⟩ := hchild
  have hC2lv : C2.tbl lv = Ci.tbl lv := by
    rw [h2other lv (Ne.symm hne3), hC1tbl lv (fun hh => hne1 hh.symm)]
  have hC2len : C2.levels.length = Ci.levels.length := by
    rw [h2len, h1len, hCulen]
  have hlvlen : lv < C2.levels.length := by
    rw [hC2len, hlen]
    omega
  have hnodup : ((C2.tbl lv).map Prod.fst).Nodup := by
    rw [hC2lv]
    exact nodup_of_chainLt (hsort lv)
  refine ⟨(C2.setTbl lv (aerase i (C2.tbl lv))), ?_, ?_, ?_, ?_, ?_, ?_, ?_, ?_, ?_, ?_, ?_, ?_, ?_, ?_⟩
  · show remove_node Ci lv i = C2.setTbl lv (aerase i (C2.tbl lv))
    simp only [remove_node, hget]
    rw [← hCu, heq1, heq2]
  · show (C2.setTbl lv _).topLevel = Ci.topLevel
    rw [show (C2.setTbl lv (aerase i (C2.tbl lv))).topLevel = C2.topLevel from rfl,
      h2top, h1top, hCutop]
  · rw [setTbl_length, hC2len]
  · show (C2.setTbl lv _).nodeCount = Ci.nodeCount
    rw [show (C2.setTbl lv (aerase i (C2.tbl lv))).nodeCount = C2.nodeCount from rfl,
      h2cnt, h1cnt, hCucnt]
  · intro j hj1 hj2 hj3
    rw [tbl_setTbl_ne _ hj2, h2other j hj3, hC1tbl j hj1]
  · rw [tbl_setTbl_self _ hlvlen, ← akeys_eq_map_fst, akeys_aerase, hC2lv]
    rfl
  · rw [tbl_setTbl_self _ hlvlen, alookup_aerase _ _ _ hnodup, if_pos rfl]
  · intro x hx
    rw [tbl_setTbl_self _ hlvlen, alookup_aerase _ _ _ hnodup, if_neg hx, hC2lv]
  · rw [tbl_setTbl_ne _ hne1, h2other (lv - 1) hne2, h1keys, hCutbl]
  · intro x nd0 h
    have h' : alookup x (Cu.tbl (lv - 1)) = some nd0 := by
      rw [hCutbl]
      exact h
    obtain ⟨nd1, hl1, hd1, hcond⟩ := h1pt x nd0 h'
    refine ⟨nd1, ?_, hd1, hcond⟩
    rw [tbl_setTbl_ne _ hne1, h2other (lv - 1) hne2]
    exact hl1
  · rw [tbl_setTbl_ne _ hne3, h2keys, hC1tbl (lv + 1) hne2.symm]
  · intro x nd0 h
    have h' : alookup x (C1.tbl (lv + 1)) = some nd0 := by
      rw [hC1tbl (lv + 1) hne2.symm]
      exact h
    obtain ⟨nd1, hl1, hup1, hcond⟩ := h2pt x nd0 h'
    refine ⟨nd1, ?_, hup1, hcond⟩
    rw [tbl_setTbl_ne _ (fun hh : lv + 1 = lv => hne3 hh)]
    exact hl1
  · intro x nd0 h hne
    rw [tbl_setTbl_ne _ hne1, h2other (lv - 1) hne2]
    exact h1pt2 x nd0 (by rw [hCutbl]; exact h) hne
  · intro x nd0 h hne
    rw [tbl_setTbl_ne _ hne3]
    exact h2pt2 x nd0 (by rw [hC1tbl (lv + 1) hne2.symm]; exact h) hne

/-! ## Removal: the stage invariant of the upward sweep -/

theorem mem_sinsert (y x : Nat) (l : List Nat) : y ∈ sinsert x l ↔ y = x ∨ y ∈ l := by
  induction l with
  | nil => simp [sinsert]
  | cons z t ih =>
    unfold sinsert
    by_cases h1 : x < z
    · rw [if_pos h1]
      simp only [List.mem_cons]
    · rw [if_neg h1]
      by_cases h2 : x = z
      · rw [if_pos h2]
        subst h2
        simp only [List.mem_cons]
        tauto
      · rw [if_neg h2]
        simp only [List.mem_cons, ih]
        tauto

theorem chainLt_sfold (L : List (Int × Nat)) :
    ∀ acc : List Nat, chainLt acc = true →
      chainLt (L.foldl (fun st (p : Int × Nat) => sinsert p.2 st) acc) = true := by
  induction L with
  | nil => exact fun _ h => h
  | cons p t ih => exact fun acc h => ih _ (chainLt_sinsert _ _ h)

theorem mem_sfold (L : List (Int × Nat)) (y : Nat) :
    ∀ acc : List Nat,
      (y ∈ L.foldl (fun st (p : Int × Nat) => sinsert p.2 st) acc ↔
        (∃ p ∈ L, p.2 = y) ∨ y ∈ acc) := by
  induction L with
  | nil =>
    intro acc
    simp
  | cons p t ih =>
    intro acc
    rw [List.foldl_cons, ih, mem_sinsert]
    constructor
    · rintro (⟨q, hq, hqy⟩ | hy | hy)
      · exact Or.inl ⟨q, List.mem_cons_of_mem _ hq, hqy⟩
      · exact Or.inl ⟨p, List.mem_cons_self .., hy.symm⟩
      · exact Or.inr hy
    · rintro (⟨q, hq, hqy⟩ | hy)
      · rcases List.mem_cons.1 hq with hq | hq
        · subst hq
          exact Or.inr (Or.inl hqy.symm)
        · exact Or.inl ⟨q, hq, hqy⟩
      · exact Or.inr (Or.inr hy)

theorem NodeD_shift {Ci : Cplx} {lv : Nat} {accF : List Nat} {k i : Nat} {nd : CNode}
    (h : NodeD Ci lv [] accF k i nd) : NodeD Ci (lv + 1) accF [] k i nd := by
  refine ⟨h.1, h.2.1, h.2.2.1, h.2.2.2.1, ?_, h.2.2.2.2.2⟩
  intro p hp
  obtain ⟨pnd, h1, h2, h3⟩ := h.2.2.2.2.1 p hp
  exact ⟨pnd, h1, h2,
    fun hx _ => h3 (fun hh => absurd hh.2 (List.not_mem_nil _)) hx⟩

/-- Entry into the sweep: the single looked-up node is doomed at its own
dimension and everything else is canonical. -/
theorem stageInv_init (C : Cplx) (hC : CanonP C) (lv id : Nat) (nd : CNode)
    (hlv : 1 ≤ lv) (hid : alookup id (C.tbl lv) = some nd) :
    StageInv C lv [id] [] := by
  have hnode := canon_node hC hid
  refine ⟨hlv, hnode.1, hC.1, hC.2.1, hC.2.2.1, canon_sorted hC, ?_, rfl, rfl,
    ?_, ?_, ?_, ?_, ?_, ?_⟩
  · intro k x hx
    obtain ⟨p, hp, hpx⟩ := List.mem_map.1 hx
    have hlen : C.levels.length = C.topLevel + 1 := hC.1
    have hk : k < C.topLevel + 1 := by
      by_contra hge
      rw [alookup_none_of_ge_length (by omega)] at hp
      cases hp
    rw [← hpx]
    exact ((hC.2.2.2 k hk).2.1 p hp).1
  · intro i hi
    rcases List.mem_cons.1 hi with hi | hi
    · subst hi
      rw [hid]
      rfl
    · cases hi
  · intro i hi
    cases hi
  · intro k x nd' h _ _
    exact NodeD_of_NodeP (canon_node hC h).2.2
  · intro x nd' hx h
    exact @WeakP_of_NodeD C lv [id] [] lv x nd'
      (@NodeD_of_NodeP C lv [id] [] lv x nd' (canon_node hC h).2.2)
  · intro x nd' hx h
    cases hx
  · intro k x ndx y ndy hx hy _ _ _ _ hn
    exact canon_inj hC hx hy hn

/-- Exit from the sweep: once both doomed sets are empty the invariant is
exactly the canonical form. -/
theorem stageInv_final (C : Cplx) (lv : Nat) (h : StageInv C lv [] []) :
    CanonP C := by
  refine ⟨h.len, h.root_keys, h.root_down, ?_⟩
  intro k _
  refine ⟨h.sorted k, ?_, ?_⟩
  · intro p hp
    have hlk : alookup p.1 (C.tbl k) = some p.2 := by
      apply alookup_of_mem_sorted _ hp
      rw [akeys_eq_map_fst]
      exact h.sorted k
    refine ⟨h.bounds k p.1 (List.mem_map_of_mem _ hp), ?_⟩
    exact NodeP_of_NodeD (h.surv k p.1 p.2 hlk
      (fun hh => absurd hh.2 (List.not_mem_nil _))
      (fun hh => absurd hh.2 (List.not_mem_nil _)))
  · intro p hp q hq hn
    have hsk : chainLt (akeys (C.tbl k)) = true := by
      rw [akeys_eq_map_fst]
      exact h.sorted k
    exact h.inj k p.1 p.2 q.1 q.2 (alookup_of_mem_sorted hsk hp)
      (alookup_of_mem_sorted hsk hq)
      (fun hh => absurd hh.2 (List.not_mem_nil _))
      (fun hh => absurd hh.2 (List.not_mem_nil _))
      (fun hh => absurd hh.2 (List.not_mem_nil _))
      (fun hh => absurd hh.2 (List.not_mem_nil _)) hn

/-- Between stages: the collected cofaces become the doomed set one
dimension up. -/
theorem stageInv_reindex (Ci : Cplx) (lv : Nat) (accF : List Nat)
    (h : StageInv Ci lv [] accF) (hlt : lv + 1 ≤ Ci.topLevel) :
    StageInv Ci (lv + 1) accF [] := by
  refine ⟨by omega, hlt, h.len, h.root_keys, h.root_down, h.sorted, h.bounds,
    h.acc_sorted, rfl, h.acc_pres, ?_, ?_, ?_, ?_, ?_⟩
  · intro i hi
    cases hi
  · intro k x nd hx hx1 _
    exact NodeD_shift (h.surv k x nd hx
      (fun hh => absurd hh.2 (List.not_mem_nil _)) hx1)
  · intro x nd hx hlk
    exact h.doomA x nd hx hlk
  · intro x nd hx hlk
    cases hx
  · intro k x ndx y ndy hx hy hx1 _ hy1 _ hn
    exact h.inj k x ndx y ndy hx hy
      (fun hh => absurd hh.2 (List.not_mem_nil _)) hx1
      (fun hh => absurd hh.2 (List.not_mem_nil _)) hy1 hn

set_option maxHeartbeats 4000000 in
/-- Processing one doomed node of the current stage: collect its cofaces
into the accumulator and remove it; the stage invariant survives. -/
theorem stage_step (Ci : Cplx) (lv x : Nat) (S' acc : List Nat) (nd : CNode)
    (hinv : StageInv Ci lv (x :: S') acc)
    (hnd : alookup x (Ci.tbl lv) = some nd) :
    StageInv (remove_node Ci lv x) lv S'
      (nd.up.foldl (fun st (p : Int × Nat) => sinsert p.2 st) acc) ∧
    (remove_node Ci lv x).topLevel = Ci.topLevel := by
  have hlv1 : 1 ≤ lv := hinv.lv1
  have hlvtop : lv ≤ Ci.topLevel := hinv.lvtop
  have hW : WeakP Ci lv x nd := hinv.doomS x nd (List.mem_cons_self ..) hnd
  have htopup : lv = Ci.topLevel → nd.up = [] := hW.2.2.1
  obtain ⟨Ce, hCe, sTop, sLen, sCnt, sOther, sKeysLv, sNoneX, sPtLv, sKeysP, sPtP,
    sKeysC, sPtC, sUnP, sUnC⟩ :=
    remove_node_spec Ci lv x nd hnd hinv.len hlv1 hlvtop htopup hinv.sorted
  rw [hCe]
  have hne1 : lv - 1 ≠ lv := by omega
  have hne2 : lv - 1 ≠ lv + 1 := by omega
  have hne3 : lv + 1 ≠ lv := by omega
  set acc' := nd.up.foldl (fun st (p : Int × Nat) => sinsert p.2 st) acc with hacc'
  have hacc'mem : ∀ y, y ∈ acc' ↔ (∃ p ∈ nd.up, p.2 = y) ∨ y ∈ acc :=
    fun y => mem_sfold nd.up y acc
  have hupacc' : ∀ p ∈ nd.up, p.2 ∈ acc' :=
    fun p hp => (hacc'mem p.2).2 (Or.inl ⟨p, hp, rfl⟩)
  have haccacc' : ∀ y ∈ acc, y ∈ acc' := fun y hy => (hacc'mem y).2 (Or.inr hy)
  have hxS' : ∀ i ∈ S', x < i := chainLt_all x S' hinv.s_sorted
  have hxneS' : ∀ i ∈ S', i ≠ x := by
    intro i hi hh
    have := hxS' i hi
    omega
  have hDownDet : ∀ (b : Int) (pid : Nat) (pnd : CNode),
      alookup pid (Ci.tbl (lv - 1)) = some pnd →
      ((b, pid) : Int × Nat) ∈ nd.down → alookup b pnd.up = some x := by
    intro b pid pnd hpnd hmem
    obtain ⟨pnd2, hpnd2, hlink⟩ := hW.2.2.2.1 (b, pid) hmem
    have hpnd2' : alookup pid (Ci.tbl (lv - 1)) = some pnd2 := hpnd2
    have hpp : pnd2 = pnd := by
      rw [hpnd] at hpnd2'
      exact (Option.some.inj hpnd2').symm
    have hlink' : alookup b pnd2.up = some x := hlink
    rw [hpp] at hlink'
    exact hlink'
  have hUpDet : ∀ (b : Int) (cid : Nat) (cnd : CNode),
      alookup cid (Ci.tbl (lv + 1)) = some cnd →
      ((b, cid) : Int × Nat) ∈ nd.up → alookup b cnd.down = some x := by
    intro b cid cnd hcnd hmem
    obtain ⟨cnd2, hcnd2, hlink⟩ := hW.2.2.2.2 (b, cid) hmem
    have hcnd2' : alookup cid (Ci.tbl (lv + 1)) = some cnd2 := hcnd2
    have hpp : cnd2 = cnd := by
      rw [hcnd] at hcnd2'
      exact (Option.some.inj hcnd2').symm
    have hlink' : alookup b cnd2.down = some x := hlink
    rw [hpp] at hlink'
    exact hlink'
  have hChildSort : ∀ (cid : Nat) (cnd : CNode),
      alookup cid (Ci.tbl (lv + 1)) = some cnd →
      chainLt (akeys cnd.down) = true := by
    intro cid cnd h
    by_cases hc : cid ∈ acc
    · exact (hinv.doomA cid cnd hc h).1
    · exact (hinv.surv (lv + 1) cid cnd h (fun hh => absurd hh.1 hne3)
        (fun hh => hc hh.2)).1
  have hParentUp : ∀ (pid : Nat) (pnd : CNode) (b : Int) (t : Nat),
      alookup pid (Ci.tbl (lv - 1)) = some pnd →
      alookup b pnd.up = some t → t ≠ x →
      ∃ pnd1, alookup pid (Ce.tbl (lv - 1)) = some pnd1 ∧ pnd1.down = pnd.down ∧
        alookup b pnd1.up = some t := by
    intro pid pnd b t h hbt htx
    obtain ⟨pnd1, h1, h2, hcond⟩ := sPtP pid pnd h
    have hps : chainLt (akeys pnd.up) = true :=
      (hinv.surv (lv - 1) pid pnd h (fun hh => absurd hh.1 hne1)
        (fun hh => absurd hh.1 hne2)).2.1
    obtain ⟨_, _, hunch⟩ := hcond hps
    refine ⟨pnd1, h1, h2, ?_⟩
    have hcond2 : ∀ e ∈ nd.down, ¬(e.1 = b ∧ e.2 = pid) := by
      intro e he hcon
      have hmem : ((b, pid) : Int × Nat) ∈ nd.down := by
        rw [show ((b, pid) : Int × Nat) = e from (Prod.ext hcon.1 hcon.2).symm]
        exact he
      have hdet := hDownDet b pid pnd h hmem
      rw [hbt] at hdet
      exact htx (Option.some.inj hdet)
    rw [hunch b hcond2]
    exact hbt
  have hChildDown : ∀ (cid : Nat) (cnd : CNode) (b : Int) (t : Nat),
      alookup cid (Ci.tbl (lv + 1)) = some cnd →
      alookup b cnd.down = some t → t ≠ x →
      ∃ cnd1, alookup cid (Ce.tbl (lv + 1)) = some cnd1 ∧ cnd1.up = cnd.up ∧
        alookup b cnd1.down = some t := by
    intro cid cnd b t h hbt htx
    obtain ⟨cnd1, h1, h2, hcond⟩ := sPtC cid cnd h
    obtain ⟨_, _, hunch⟩ := hcond (hChildSort cid cnd h)
    refine ⟨cnd1, h1, h2, ?_⟩
    have hcond2 : ∀ e ∈ nd.up, ¬(e.1 = b ∧ e.2 = cid) := by
      intro e he hcon
      have hmem : ((b, cid) : Int × Nat) ∈ nd.up := by
        rw [show ((b, cid) : Int × Nat) = e from (Prod.ext hcon.1 hcon.2).symm]
        exact he
      have hdet := hUpDet b cid cnd h hmem
      rw [hbt] at hdet
      exact htx (Option.some.inj hdet)
    rw [hunch b hcond2]
    exact hbt
  have hChildUn : ∀ (cid : Nat) (cnd : CNode),
      alookup cid (Ci.tbl (lv + 1)) = some cnd →
      cid ∉ acc' → alookup cid (Ce.tbl (lv + 1)) = some cnd := by
    intro cid cnd h hacc
    apply sUnC cid cnd h
    intro e he hh
    exact hacc ((hacc'mem cid).2 (Or.inl ⟨e, he, hh⟩))
  have hBackP : ∀ (z : Nat) (ndz : CNode), alookup z (Ce.tbl (lv - 1)) = some ndz →
      ∃ nz, alookup z (Ci.tbl (lv - 1)) = some nz := by
    intro z ndz hz
    apply Option.isSome_iff_exists.1
    rw [alookup_isSome_iff_mem, akeys_eq_map_fst, ← sKeysP, ← akeys_eq_map_fst]
    exact mem_akeys_of_alookup hz
  have hBackC : ∀ (z : Nat) (ndz : CNode), alookup z (Ce.tbl (lv + 1)) = some ndz →
      ∃ nz, alookup z (Ci.tbl (lv + 1)) = some nz := by
    intro z ndz hz
    apply Option.isSome_iff_exists.1
    rw [alookup_isSome_iff_mem, akeys_eq_map_fst, ← sKeysC, ← akeys_eq_map_fst]
    exact mem_akeys_of_alookup hz
  have sortedE : ∀ k, chainLt ((Ce.tbl k).map Prod.fst) = true := by
    intro k
    by_cases hk1 : k = lv
    · rw [hk1, sKeysLv]
      exact chainLt_erase (hinv.sorted lv) x
    · by_cases hk2 : k = lv - 1
      · subst hk2
        rw [sKeysP]
        exact hinv.sorted _
      · by_cases hk3 : k = lv + 1
        · subst hk3
          rw [sKeysC]
          exact hinv.sorted _
        · rw [sOther k hk2 hk1 hk3]
          exact hinv.sorted k
  have hInjMap : ∀ (k z : Nat) (ndz : CNode), alookup z (Ce.tbl k) = some ndz →
      ¬(k = lv ∧ z ∈ S') → ¬(k = lv + 1 ∧ z ∈ acc') →
      ∃ ndz0, alookup z (Ci.tbl k) = some ndz0 ∧ akeys ndz0.down = akeys ndz.down ∧
        ¬(k = lv ∧ z ∈ x :: S') ∧ ¬(k = lv + 1 ∧ z ∈ acc) := by
    intro k z ndz hz hzS hzA
    by_cases hk1 : k = lv
    · rw [hk1] at hz hzS hzA ⊢
      have hzx : z ≠ x := by
        intro hh
        rw [hh, sNoneX] at hz
        cases hz
      have hzo : alookup z (Ci.tbl lv) = some ndz := by
        rw [← sPtLv z hzx]
        exact hz
      refine ⟨ndz, hzo, rfl, ?_, fun hh => absurd hh.1 (by omega)⟩
      intro hh
      rcases List.mem_cons.1 hh.2 with h' | h'
      · exact hzx h'
      · exact hzS ⟨rfl, h'⟩
    · by_cases hk2 : k = lv - 1
      · subst hk2
        obtain ⟨ndz0, hzo⟩ := hBackP z ndz hz
        obtain ⟨nd1, h1, h2, _⟩ := sPtP z ndz0 hzo
        have hee : nd1 = ndz := by
          rw [hz] at h1
          exact (Option.some.inj h1).symm
        refine ⟨ndz0, hzo, ?_, fun hh => absurd hh.1 hne1, fun hh => absurd hh.1 hne2⟩
        rw [← hee, h2]
      · by_cases hk3 : k = lv + 1
        · subst hk3
          have hza' : z ∉ acc' := fun hh => hzA ⟨rfl, hh⟩
          obtain ⟨ndz0, hzo⟩ := hBackC z ndz hz
          have hzun := hChildUn z ndz0 hzo hza'
          have hee : ndz0 = ndz := by
            rw [hz] at hzun
            exact (Option.some.inj hzun).symm
          rw [hee] at hzo
          exact ⟨ndz, hzo, rfl, fun hh => absurd hh.1 hne3,
            fun hh => hza' (haccacc' z hh.2)⟩
        · refine ⟨ndz, ?_, rfl, fun hh => absurd hh.1 hk1, fun hh => absurd hh.1 hk3⟩
          rw [← sOther k hk2 hk1 hk3]
          exact hz
  refine ⟨⟨hinv.lv1, ?_, ?_, ?_, ?_, sortedE, ?_, chainLt_tail x S' hinv.s_sorted, ?_,
    ?_, ?_, ?_, ?_, ?_, ?_⟩, sTop⟩
  · rw [sTop]
    exact hinv.lvtop
  · rw [sLen, sTop]
    exact hinv.len
  · have hkeys0 : (Ce.tbl 0).map Prod.fst = (Ci.tbl 0).map Prod.fst := by
      by_cases h0 : lv = 1
      · have h0' : lv - 1 = 0 := by omega
        rw [← h0', sKeysP]
      · exact congrArg (List.map Prod.fst) (sOther 0 (by omega) (by omega) (by omega))
    rw [hkeys0]
    exact hinv.root_keys
  · have hr : ∃ rnd, alookup 0 (Ci.tbl 0) = some rnd ∧ rnd.down = [] := by
      have h0m : (0 : Nat) ∈ (Ci.tbl 0).map Prod.fst := by
        rw [hinv.root_keys]
        exact List.mem_cons_self ..
      have hsm : (alookup 0 (Ci.tbl 0)).isSome = true := by
        rw [alookup_isSome_iff_mem, akeys_eq_map_fst]
        exact h0m
      obtain ⟨rnd, hrnd⟩ := Option.isSome_iff_exists.1 hsm
      refine ⟨rnd, hrnd, ?_⟩
      have hroot := hinv.root_down
      unfold Cplx.getN at hroot
      rw [hrnd] at hroot
      exact hroot
    obtain ⟨rnd, hrnd, hrndd⟩ := hr
    by_cases h0 : lv = 1
    · have h0' : lv - 1 = 0 := by omega
      obtain ⟨nd1, h1, h2, _⟩ := sPtP 0 rnd (by rw [h0']; exact hrnd)
      rw [h0'] at h1
      unfold Cplx.getN
      rw [h1]
      show nd1.down = []
      rw [h2, hrndd]
    · have hun := sOther 0 (by omega) (by omega) (by omega)
      unfold Cplx.getN
      rw [hun, hrnd]
      show rnd.down = []
      exact hrndd
  · intro k y hy
    rw [sCnt]
    by_cases hk1 : k = lv
    · rw [hk1, sKeysLv] at hy
      exact hinv.bounds lv y (List.mem_of_mem_erase hy)
    · by_cases hk2 : k = lv - 1
      · subst hk2
        rw [sKeysP] at hy
        exact hinv.bounds _ y hy
      · by_cases hk3 : k = lv + 1
        · subst hk3
          rw [sKeysC] at hy
          exact hinv.bounds _ y hy
        · rw [sOther k hk2 hk1 hk3] at hy
          exact hinv.bounds k y hy
  · rw [hacc']
    exact chainLt_sfold nd.up acc hinv.acc_sorted
  · intro i hi
    have hix : i ≠ x := hxneS' i hi
    rw [sPtLv i hix]
    exact hinv.s_pres i (List.mem_cons_of_mem _ hi)
  · intro i hi
    rcases (hacc'mem i).1 hi with ⟨p, hp, hpy⟩ | hi2
    · obtain ⟨cnd, hcnd, _⟩ := hW.2.2.2.2 p hp
      have hcnd' : alookup p.2 (Ci.tbl (lv + 1)) = some cnd := hcnd
      rw [hpy] at hcnd'
      rw [alookup_isSome_iff_mem, akeys_eq_map_fst, sKeysC, ← akeys_eq_map_fst]
      rw [← alookup_isSome_iff_mem, hcnd']
      rfl
    · have hold := hinv.acc_pres i hi2
      rw [alookup_isSome_iff_mem, akeys_eq_map_fst, sKeysC, ← akeys_eq_map_fst,
        ← alookup_isSome_iff_mem]
      exact hold
  · intro k y ndy hy hyS hyA
    by_cases hk1 : k = lv
    · rw [hk1] at hy hyS hyA ⊢
      have hyx : y ≠ x := by
        intro hh
        rw [hh, sNoneX] at hy
        cases hy
      have hyold : alookup y (Ci.tbl lv) = some ndy := by
        rw [← sPtLv y hyx]
        exact hy
      have hD := hinv.surv lv y ndy hyold
        (fun hh => by
          rcases List.mem_cons.1 hh.2 with h' | h'
          · exact hyx h'
          · exact hyS ⟨rfl, h'⟩)
        (fun hh => absurd hh.1 (by omega))
      refine ⟨hD.1, hD.2.1, hD.2.2.1,
        fun hh => hD.2.2.2.1 (by rw [← sTop]; exact hh), ?_, ?_⟩
      · intro p hp
        obtain ⟨pnd, hpnd, hlink, hname⟩ := hD.2.2.2.2.1 p hp
        obtain ⟨pnd1, hpnd1, hpd, hlink1⟩ := hParentUp p.2 pnd p.1 y hpnd hlink hyx
        refine ⟨pnd1, hpnd1, hlink1, ?_⟩
        intro _ _
        rw [hpd]
        exact hname (fun hh => absurd hh.1 hne1) (fun hh => absurd hh.1 hne2)
      · intro q hq
        obtain ⟨cnd, hcnd, hlink⟩ := hD.2.2.2.2.2 q hq
        obtain ⟨cnd1, hcnd1, _, hlink1⟩ :=
          hChildDown q.2 cnd q.1 y hcnd hlink hyx
        exact ⟨cnd1, hcnd1, hlink1⟩
    · by_cases hk2 : k = lv - 1
      · subst hk2
        obtain ⟨ndy0, hyo⟩ := hBackP y ndy hy
        obtain ⟨nd1, hnd1, hd1, hcond⟩ := sPtP y ndy0 hyo
        have hee : nd1 = ndy := by
          rw [hy] at hnd1
          exact (Option.some.inj hnd1).symm
        rw [hee] at hd1 hcond
        have hD := hinv.surv (lv - 1) y ndy0 hyo (fun hh => absurd hh.1 hne1)
          (fun hh => absurd hh.1 hne2)
        obtain ⟨hu1, hnone, hunch⟩ := hcond hD.2.1
        refine ⟨by rw [hd1]; exact hD.1, hu1, by rw [hd1]; exact hD.2.2.1, ?_, ?_, ?_⟩
        · intro hh
          rw [sTop] at hh
          exact absurd hh (by omega)
        · intro p hp
          have hp' : p ∈ ndy0.down := by
            rw [← hd1]
            exact hp
          by_cases hlv2 : lv = 1
          · exfalso
            have h0 : lv - 1 = 0 := by omega
            rw [h0] at hyo
            have hmem := mem_akeys_of_alookup hyo
            rw [akeys_eq_map_fst, hinv.root_keys] at hmem
            have hy0 : y = 0 := by simpa using hmem
            rw [hy0] at hyo
            have hroot := hinv.root_down
            unfold Cplx.getN at hroot
            rw [hyo] at hroot
            have hroot' : ndy0.down = [] := hroot
            rw [hroot'] at hp'
            exact absurd hp' (List.not_mem_nil p)
          · obtain ⟨pnd, hpnd, hlink, hname⟩ := hD.2.2.2.2.1 p hp'
            have hother := sOther (lv - 1 - 1) (by omega) (by omega) (by omega)
            refine ⟨pnd, by rw [hother]; exact hpnd, hlink, ?_⟩
            intro _ _
            rw [hd1]
            exact hname (fun hh => absurd hh.1 (by omega)) (fun hh => absurd hh.1 (by omega))
        · intro q hq
          have hlq : alookup q.1 ndy.up = some q.2 := alookup_of_mem_sorted hu1 hq
          by_cases hbx : ((q.1, y) : Int × Nat) ∈ nd.down
          · rw [hnone q.1 hbx] at hlq
            cases hlq
          · have hcond2 : ∀ e ∈ nd.down, ¬(e.1 = q.1 ∧ e.2 = y) := by
              intro e he hcon
              refine hbx ?_
              have hpe : e = ((q.1, y) : Int × Nat) := Prod.ext hcon.1 hcon.2
              rw [← hpe]
              exact he
            have hold : alookup q.1 ndy0.up = some q.2 := by
              rw [← hunch q.1 hcond2]
              exact hlq
            obtain ⟨cnd, hcnd, hlink⟩ := hD.2.2.2.2.2 (q.1, q.2) (alookup_mem hold)
            have hfix : lv - 1 + 1 = lv := by omega
            have hcnd' : alookup q.2 (Ci.tbl (lv - 1 + 1)) = some cnd := hcnd
            rw [hfix] at hcnd'
            have hlink' : alookup q.1 cnd.down = some y := hlink
            have hqx : q.2 ≠ x := by
              intro hh
              rw [hh] at hcnd'
              rw [hnd] at hcnd'
              have hce : cnd = nd := (Option.some.inj hcnd').symm
              rw [hce] at hlink'
              exact hbx (alookup_mem hlink')
            refine ⟨cnd, ?_, hlink'⟩
            rw [hfix, sPtLv q.2 hqx]
            exact hcnd'
      · by_cases hk3 : k = lv + 1
        · subst hk3
          have hyacc' : y ∉ acc' := fun hh => hyA ⟨rfl, hh⟩
          obtain ⟨ndy0, hyo⟩ := hBackC y ndy hy
          have hyun := hChildUn y ndy0 hyo hyacc'
          have hee : ndy0 = ndy := by
            rw [hy] at hyun
            exact (Option.some.inj hyun).symm
          rw [hee] at hyo
          have hD := hinv.surv (lv + 1) y ndy hyo (fun hh => absurd hh.1 hne3)
            (fun hh => hyacc' (haccacc' y hh.2))
          refine ⟨hD.1, hD.2.1, hD.2.2.1,
            fun hh => hD.2.2.2.1 (by rw [← sTop]; exact hh), ?_, ?_⟩
          · intro p hp
            obtain ⟨pnd, hpnd, hlink, hname⟩ := hD.2.2.2.2.1 p hp
            have hfix : lv + 1 - 1 = lv := by omega
            have hpnd' : alookup p.2 (Ci.tbl (lv + 1 - 1)) = some pnd := hpnd
            rw [hfix] at hpnd'
            have hlink0 : alookup p.1 pnd.up = some y := hlink
            have hpx : p.2 ≠ x := by
              intro hh
              rw [hh] at hpnd'
              rw [hnd] at hpnd'
              have hpe : pnd = nd := (Option.some.inj hpnd').symm
              rw [hpe] at hlink0
              exact hyacc' (hupacc' (p.1, y) (alookup_mem hlink0))
            refine ⟨pnd, ?_, hlink0, ?_⟩
            · rw [hfix, sPtLv p.2 hpx]
              exact hpnd'
            · intro h1 _
              have hpS' : p.2 ∉ S' := fun hh => h1 ⟨hfix, hh⟩
              refine hname ?_ (fun hh => absurd hh.1 (by omega))
              intro hh
              rcases List.mem_cons.1 hh.2 with h' | h'
              · exact hpx h'
              · exact hpS' h'
          · intro q hq
            obtain ⟨cnd, hcnd, hlink⟩ := hD.2.2.2.2.2 q hq
            refine ⟨cnd, ?_, hlink⟩
            rw [sOther (lv + 1 + 1) (by omega) (by omega) (by omega)]
            exact hcnd
        · by_cases hk4 : k = lv + 2
          · subst hk4
            have hother2 := sOther (lv + 2) (by omega) (by omega) (by omega)
            have hyo : alookup y (Ci.tbl (lv + 2)) = some ndy := by
              rw [← hother2]
              exact hy
            have hD := hinv.surv (lv + 2) y ndy hyo (fun hh => absurd hh.1 (by omega))
              (fun hh => absurd hh.1 (by omega))
            refine ⟨hD.1, hD.2.1, hD.2.2.1,
              fun hh => hD.2.2.2.1 (by rw [← sTop]; exact hh), ?_, ?_⟩
            · intro p hp
              obtain ⟨pnd, hpnd, hlink, hname⟩ := hD.2.2.2.2.1 p hp
              have hfix : lv + 2 - 1 = lv + 1 := by omega
              have hpnd' : alookup p.2 (Ci.tbl (lv + 2 - 1)) = some pnd := hpnd
              rw [hfix] at hpnd'
              by_cases hpa : p.2 ∈ acc'
              · obtain ⟨pnd1, hpnd1, hup1, _⟩ := sPtC p.2 pnd hpnd'
                refine ⟨pnd1, ?_, ?_, ?_⟩
                · rw [hfix]
                  exact hpnd1
                · rw [hup1]
                  exact hlink
                · intro _ h2
                  exact absurd ⟨hfix, hpa⟩ h2
              · have hpun := hChildUn p.2 pnd hpnd' hpa
                refine ⟨pnd, ?_, hlink, ?_⟩
                · rw [hfix]
                  exact hpun
                · intro _ _
                  exact hname (fun hh => absurd hh.1 (by omega))
                    (fun hh => hpa (haccacc' p.2 hh.2))
            · intro q hq
              obtain ⟨cnd, hcnd, hlink⟩ := hD.2.2.2.2.2 q hq
              refine ⟨cnd, ?_, hlink⟩
              rw [sOther (lv + 2 + 1) (by omega) (by omega) (by omega)]
              exact hcnd
          · have hyo : alookup y (Ci.tbl k) = some ndy := by
              rw [← sOther k hk2 hk1 hk3]
              exact hy
            have hD := hinv.surv k y ndy hyo (fun hh => absurd hh.1 hk1)
              (fun hh => absurd hh.1 hk3)
            refine ⟨hD.1, hD.2.1, hD.2.2.1,
              fun hh => hD.2.2.2.1 (by rw [← sTop]; exact hh), ?_, ?_⟩
            · intro p hp
              obtain ⟨pnd, hpnd, hlink, hname⟩ := hD.2.2.2.2.1 p hp
              refine ⟨pnd, ?_, hlink, ?_⟩
              · rw [sOther (k - 1) (by omega) (by omega) (by omega)]
                exact hpnd
              · intro _ _
                exact hname (fun hh => absurd hh.1 (by omega))
                  (fun hh => absurd hh.1 (by omega))
            · intro q hq
              obtain ⟨cnd, hcnd, hlink⟩ := hD.2.2.2.2.2 q hq
              by_cases hkk : k + 1 = lv - 1
              · have hcnd' : alookup q.2 (Ci.tbl (lv - 1)) = some cnd := by
                  rw [← hkk]
                  exact hcnd
                obtain ⟨cnd1, hcnd1, hd1, _⟩ := sPtP q.2 cnd hcnd'
                refine ⟨cnd1, ?_, ?_⟩
                · rw [hkk]
                  exact hcnd1
                · rw [hd1]
                  exact hlink
              · refine ⟨cnd, ?_, hlink⟩
                rw [sOther (k + 1) hkk (by omega) (by omega)]
                exact hcnd
  · intro y ndy hyS' hy
    have hyx : y ≠ x := hxneS' y hyS'
    have hyo : alookup y (Ci.tbl lv) = some ndy := by
      rw [← sPtLv y hyx]
      exact hy
    have hOldW := hinv.doomS y ndy (List.mem_cons_of_mem _ hyS') hyo
    refine ⟨hOldW.1, hOldW.2.1,
      fun hh => hOldW.2.2.1 (by rw [← sTop]; exact hh), ?_, ?_⟩
    · intro p hp
      obtain ⟨pnd, hpnd, hlink⟩ := hOldW.2.2.2.1 p hp
      obtain ⟨pnd1, hpnd1, _, hlink1⟩ := hParentUp p.2 pnd p.1 y hpnd hlink hyx
      exact ⟨pnd1, hpnd1, hlink1⟩
    · intro q hq
      obtain ⟨cnd, hcnd, hlink⟩ := hOldW.2.2.2.2 q hq
      obtain ⟨cnd1, hcnd1, _, hlink1⟩ := hChildDown q.2 cnd q.1 y hcnd hlink hyx
      exact ⟨cnd1, hcnd1, hlink1⟩
  · intro y ndy hyacc2 hy
    obtain ⟨ndy0, hyo⟩ := hBackC y ndy hy
    have hOldW : WeakP Ci (lv + 1) y ndy0 := by
      by_cases hc : y ∈ acc
      · exact hinv.doomA y ndy0 hc hyo
      · exact WeakP_of_NodeD (hinv.surv (lv + 1) y ndy0 hyo
          (fun hh => absurd hh.1 hne3) (fun hh => hc hh.2))
    obtain ⟨nd1, hnd1, hup1, hcond⟩ := sPtC y ndy0 hyo
    have hee : nd1 = ndy := by
      rw [hy] at hnd1
      exact (Option.some.inj hnd1).symm
    rw [hee] at hup1 hcond
    obtain ⟨hs1, hnone, hunch⟩ := hcond hOldW.1
    refine ⟨hs1, ?_, ?_, ?_, ?_⟩
    · rw [hup1]
      exact hOldW.2.1
    · intro hh
      rw [hup1]
      exact hOldW.2.2.1 (by rw [← sTop]; exact hh)
    · intro p hp
      have hlp : alookup p.1 ndy.down = some p.2 := alookup_of_mem_sorted hs1 hp
      by_cases hbx : ((p.1, y) : Int × Nat) ∈ nd.up
      · rw [hnone p.1 hbx] at hlp
        cases hlp
      · have hcond2 : ∀ e ∈ nd.up, ¬(e.1 = p.1 ∧ e.2 = y) := by
          intro e he hcon
          refine hbx ?_
          have hpe : e = ((p.1, y) : Int × Nat) := Prod.ext hcon.1 hcon.2
          rw [← hpe]
          exact he
        have hold : alookup p.1 ndy0.down = some p.2 := by
          rw [← hunch p.1 hcond2]
          exact hlp
        obtain ⟨pnd, hpnd, hlink⟩ := hOldW.2.2.2.1 (p.1, p.2) (alookup_mem hold)
        have hfix : lv + 1 - 1 = lv := by omega
        have hpnd' : alookup p.2 (Ci.tbl (lv + 1 - 1)) = some pnd := hpnd
        rw [hfix] at hpnd'
        have hlink' : alookup p.1 pnd.up = some y := hlink
        have hpx : p.2 ≠ x := by
          intro hh
          rw [hh] at hpnd'
          rw [hnd] at hpnd'
          have hpe : pnd = nd := (Option.some.inj hpnd').symm
          rw [hpe] at hlink'
          exact hbx (alookup_mem hlink')
        refine ⟨pnd, ?_, hlink'⟩
        rw [hfix, sPtLv p.2 hpx]
        exact hpnd'
    · intro q hq
      have hq0 : q ∈ ndy0.up := by
        rw [← hup1]
        exact hq
      obtain ⟨cnd, hcnd, hlink⟩ := hOldW.2.2.2.2 q hq0
      refine ⟨cnd, ?_, hlink⟩
      rw [sOther (lv + 1 + 1) (by omega) (by omega) (by omega)]
      exact hcnd
  · intro k y1 nd1 y2 nd2 h1 h2 h1S h1A h2S h2A hn
    obtain ⟨nd1o, h1o, hn1, h1S0, h1A0⟩ := hInjMap k y1 nd1 h1 h1S h1A
    obtain ⟨nd2o, h2o, hn2, h2S0, h2A0⟩ := hInjMap k y2 nd2 h2 h2S h2A
    refine hinv.inj k y1 nd1o y2 nd2o h1o h2o h1S0 h1A0 h2S0 h2A0 ?_
    rw [hn1, hn2]
    exact hn

theorem newCplx_tbl (D k : Nat) :
    (newCplx D).tbl k =
      if k < D + 1 then (if k = 0 then [(0, CNode.empty)] else []) else [] := by
  unfold newCplx Cplx.tbl
  simp only [List.getD, List.get?_eq_getElem?, List.getElem?_map]
  by_cases h : k < D + 1
  · rw [if_pos h, List.getElem?_range h]
    rfl
  · rw [if_neg h, List.getElem?_eq_none (by simpa using Nat.le_of_not_lt h)]
    rfl

theorem canonP_newCplx (D : Nat) : CanonP (newCplx D) := by
  have htbl := newCplx_tbl D
  refine ⟨?_, ?_, ?_, ?_⟩
  · show ((List.range (D + 1)).map _).length = D + 1
    rw [List.length_map, List.length_range]
  · rw [htbl 0, if_pos (by omega), if_pos rfl]
    rfl
  · unfold Cplx.getN
    rw [htbl 0, if_pos (by omega), if_pos rfl]
    rfl
  · intro k hk
    have hk2 : k < D + 1 := hk
    refine ⟨?_, ?_, ?_⟩
    · by_cases h0 : k = 0
      · rw [htbl k, if_pos (by omega), if_pos h0]
        rfl
      · rw [htbl k, if_pos (by omega), if_neg h0]
        rfl
    · intro p hp
      rw [htbl k] at hp
      by_cases h0 : k = 0
      · rw [if_pos (by omega), if_pos h0] at hp
        rcases List.mem_cons.1 hp with hp | hp
        · subst hp
          refine ⟨Nat.zero_lt_one, rfl, rfl, ?_, fun _ => rfl, ?_, ?_⟩
          · show ([] : List (Int × Nat)).length = k
            rw [h0]
            rfl
          · intro q hq
            exact absurd hq (List.not_mem_nil _)
          · intro q hq
            exact absurd hq (List.not_mem_nil _)
        · exact absurd hp (List.not_mem_nil _)
      · rw [if_pos (by omega), if_neg h0] at hp
        exact absurd hp (List.not_mem_nil _)
    · intro p hp q hq _
      rw [htbl k] at hp hq
      by_cases h0 : k = 0
      · rw [if_pos (by omega), if_pos h0] at hp hq
        have hp' : p = (0, CNode.empty) := by simpa using hp
        have hq' : q = (0, CNode.empty) := by simpa using hq
        rw [hp', hq']
      · rw [if_pos (by omega), if_neg h0] at hp
        exact absurd hp (List.not_mem_nil _)

/-- The terminal stage (`remove_recurse` with fuel 0, at the top dimension):
removal only, the accumulator never grows because facets have no coboundary. -/
theorem remove_fold_zero (lv : Nat) (ids : List Nat) :
    ∀ (Ci : Cplx) (cnt : Nat), StageInv Ci lv ids [] → lv = Ci.topLevel →
      ∃ Ce cnt2,
        ids.foldl (fun (acc : Cplx × Nat) id => (remove_node acc.1 lv id, acc.2 + 1))
          (Ci, cnt) = (Ce, cnt2) ∧
        StageInv Ce lv [] [] ∧ Ce.topLevel = Ci.topLevel := by
  induction ids with
  | nil => exact fun Ci cnt h _ => ⟨Ci, cnt, rfl, h, rfl⟩
  | cons x rest ih =>
    intro Ci cnt h htp
    have hx : (alookup x (Ci.tbl lv)).isSome = true :=
      h.s_pres x (List.mem_cons_self ..)
    obtain ⟨nd, hnd⟩ := Option.isSome_iff_exists.1 hx
    have hup : nd.up = [] := (h.doomS x nd (List.mem_cons_self ..) hnd).2.2.1 htp
    obtain ⟨hstep, htop⟩ := stage_step Ci lv x rest [] nd h hnd
    have hacc0 : nd.up.foldl (fun st (p : Int × Nat) => sinsert p.2 st) [] =
        ([] : List Nat) := by
      rw [hup]
      rfl
    rw [hacc0] at hstep
    obtain ⟨Ce, cnt2, heq, hinv2, htop2⟩ := ih (remove_node Ci lv x) (cnt + 1) hstep
      (by rw [htop]; exact htp)
    refine ⟨Ce, cnt2, ?_, hinv2, by rw [htop2, htop]⟩
    rw [List.foldl_cons]
    exact heq

/-- One full stage of the sweep with fuel left: remove every doomed node at
the current dimension while collecting their cofaces. -/
theorem remove_fold_succ (lv : Nat) (ids : List Nat) :
    ∀ (Ci : Cplx) (acc : List Nat) (cnt : Nat), StageInv Ci lv ids acc →
      ∃ Ce accF cnt2,
        ids.foldl (fun (st : Cplx × (List Nat × Nat)) id =>
          let nxt := (st.1.getN lv id).up.foldl
            (fun s2 (p : Int × Nat) => sinsert p.2 s2) st.2.1
          (remove_node st.1 lv id, (nxt, st.2.2 + 1))) (Ci, (acc, cnt)) =
            (Ce, (accF, cnt2)) ∧
        StageInv Ce lv [] accF ∧ Ce.topLevel = Ci.topLevel := by
  induction ids with
  | nil => exact fun Ci acc cnt h => ⟨Ci, acc, cnt, rfl, h, rfl⟩
  | cons x rest ih =>
    intro Ci acc cnt h
    have hx : (alookup x (Ci.tbl lv)).isSome = true :=
      h.s_pres x (List.mem_cons_self ..)
    obtain ⟨nd, hnd⟩ := Option.isSome_iff_exists.1 hx
    obtain ⟨hstep, htop⟩ := stage_step Ci lv x rest acc nd h hnd
    obtain ⟨Ce, accF, cnt2, heq, hinv2, htop2⟩ :=
      ih (remove_node Ci lv x)
        (nd.up.foldl (fun s2 (p : Int × Nat) => sinsert p.2 s2) acc) (cnt + 1) hstep
    refine ⟨Ce, accF, cnt2, ?_, hinv2, by rw [htop2, htop]⟩
    rw [List.foldl_cons]
    have hgetN : Ci.getN lv x = nd := by
      unfold Cplx.getN
      rw [hnd]
      rfl
    show List.foldl _ (remove_node Ci lv x,
      ((Ci.getN lv x).up.foldl (fun s2 (p : Int × Nat) => sinsert p.2 s2) acc, cnt + 1))
      rest = (Ce, (accF, cnt2))
    rw [hgetN]
    exact heq

/-- The upward removal sweep, by induction on the remaining fuel
`topLevel - lv`: starting from a stage invariant it ends in a canonical
complex. -/
theorem remove_recurse_canon :
    ∀ (f : Nat) (Ci : Cplx) (lv : Nat) (ids : List Nat) (cnt : Nat),
      StageInv Ci lv ids [] → lv + f = Ci.topLevel →
      ∃ Ce cnt2, remove_recurse f Ci lv ids cnt = (Ce, cnt2) ∧ CanonP Ce := by
  intro f
  induction f with
  | zero =>
    intro Ci lv ids cnt h hf
    obtain ⟨Ce, cnt2, heq, hinv2, _⟩ := remove_fold_zero lv ids Ci cnt h (by omega)
    refine ⟨Ce, cnt2, ?_, stageInv_final Ce lv hinv2⟩
    simp only [remove_recurse]
    exact heq
  | succ f ih =>
    intro Ci lv ids cnt h hf
    obtain ⟨C1, accF, cnt1, heq, hinv1, htop1⟩ := remove_fold_succ lv ids Ci [] cnt h
    have hlt : lv + 1 ≤ C1.topLevel := by
      rw [htop1]
      omega
    have hinv2 := stageInv_reindex C1 lv accF hinv1 hlt
    obtain ⟨Ce, cnt2, heq2, hcanon⟩ := ih C1 (lv + 1) accF cnt1 hinv2
      (by rw [htop1]; omega)
    refine ⟨Ce, cnt2, ?_, hcanon⟩
    simp only [remove_recurse]
    rw [heq]
    exact heq2

/-- A successful `get_recurse` walk from a stored node ends at a stored
node, `|name|` dimensions up. -/
theorem get_recurse_present (C : Cplx) (hC : CanonP C) :
    ∀ (s : List Int) (lv id res : Nat) (nd : CNode),
      alookup id (C.tbl lv) = some nd →
      get_recurse C lv (some id) s = some res →
      ∃ rnd, alookup res (C.tbl (lv + s.length)) = some rnd := by
  intro s
  induction s with
  | nil =>
    intro lv id res nd hnd hg
    have hres : id = res := by
      simp only [get_recurse] at hg
      exact Option.some.inj hg
    rw [← hres]
    exact ⟨nd, hnd⟩
  | cons a rest ih =>
    intro lv id res nd hnd hg
    simp only [get_recurse] at hg
    cases hnx : alookup a (C.getN lv id).up with
    | none =>
      rw [hnx] at hg
      cases hg
    | some nxt =>
      rw [hnx] at hg
      have hgetN : C.getN lv id = nd := by
        unfold Cplx.getN
        rw [hnd]
        rfl
      rw [hgetN] at hnx
      have hNP := (canon_node hC hnd).2.2
      obtain ⟨cnd, hcnd, _⟩ := hNP.2.2.2.2.2 (a, nxt) (alookup_mem hnx)
      obtain ⟨rnd, hrnd⟩ := ih (lv + 1) nxt res cnd hcnd hg
      refine ⟨rnd, ?_⟩
      have hlen : lv + (a :: rest).length = lv + 1 + rest.length := by
        rw [List.length_cons]
        omega
      rw [hlen]
      exact hrnd

/-- `remove(s)` on a canonical complex with a nonempty stored name yields a
canonical complex. -/
theorem removeByName_canon (C : Cplx) (s : List Int) (hC : CanonP C) (hs : s ≠ [])
    {C' : Cplx} {cnt : Nat} (h : removeByName C s = some (C', cnt)) : CanonP C' := by
  unfold removeByName at h
  cases hg : get_recurse C 0 (some 0) s with
  | none =>
    rw [hg] at h
    exact Option.noConfusion h
  | some id =>
    rw [hg] at h
    have h2 : some (remove_recurse (C.topLevel - s.length) C s.length [id] 0) =
        some (C', cnt) := h
    obtain ⟨rnd0, hr0, _⟩ := canon_root hC
    obtain ⟨nd, hnd⟩ := get_recurse_present C hC s 0 0 id rnd0 hr0 hg
    have hnd' : alookup id (C.tbl s.length) = some nd := by
      have hz : (0 : Nat) + s.length = s.length := by omega
      rw [← hz]
      exact hnd
    have hlv1 : 1 ≤ s.length := by
      cases s with
      | nil => exact absurd rfl hs
      | cons a t => simp
    have hlvtop : s.length ≤ C.topLevel := (canon_node hC hnd').1
    have hinit := stageInv_init C hC s.length id nd hlv1 hnd'
    obtain ⟨Ce, cnt2, heq, hcanon⟩ :=
      remove_recurse_canon (C.topLevel - s.length) C s.length [id] 0 hinit (by omega)
    rw [heq] at h2
    have hEq : Ce = C' := congrArg Prod.fst (Option.some.inj h2)
    rw [← hEq]
    exact hcanon

theorem reachable_canon {C : Cplx} (h : Reachable C) : CanonP C := by
  induction h with
  | base D => exact canonP_newCplx D
  | ins _ hdup hlen hins ih =>
    obtain ⟨C2, res2, heq, hc2⟩ := insertS_canon _ _ ih hdup hlen
    rw [hins] at heq
    cases heq
    exact hc2
  | rem _ hne hrem ih =>
    exact removeByName_canon _ _ ih hne hrem

/-- C2: after every sequence of `insert` and `remove` operations (any
reachable state), the doubly linked Hasse diagram stays mutually
consistent: for every node `n` at dimension `k ≥ 1` and every key `a` of
its boundary map, `n.down[a].up[a] == n`, and symmetrically every node
below the top dimension satisfies `n.up[b].down[b] == n` — the predicate
`mutualB` checks exactly these two equations over all stored nodes. -/
theorem claim_C2 (C : Cplx) (h : Reachable C) : mutualB C = true :=
  mutualB_of_canon (reachable_canon h)

set_option maxHeartbeats 4000000 in
theorem claim_C2_witness : mutualB rtE = true :=
  claim_C2 rtE (@Reachable.ins (newCplx 3) rtE [1, 2] 3 (Reachable.base 3)
    (by decide) (by decide) (by decide))

end Casc

